import Mathlib

/-!
Verification of the DNS message codec and request handler of a small DNS
server written in Go.  Go strings are modelled as lists of byte values
(`GoStr`), byte buffers as `List Nat` whose elements are below 256 on the
faithful domain, 16/32-bit integers as `Nat` with explicit `% 2^w`
truncation exactly where the Go code converts, and the Go `error` results
as `Except DNSErr`.  Every definition below mirrors the corresponding Go
function; definitions that instead formalise a sentence of the design
document (for stating refinement or characterisation theorems) say so in
their doc comment.
-/

/-- Error kinds of the codec, one per distinct `fmt.Errorf` site family in
the Go source (the Go code wraps errors with `%w`, which preserves the
kind; the model propagates the kind directly). -/
inductive DNSErr where
  | TooShort
  | Truncated
  | LabelTooLong
  | DomainTooLong
  | OffsetOutOfRange
  | CompressionLoop
deriving DecidableEq, Repr

-- Equality of Go error/value results is decidable.
deriving instance DecidableEq for Except

/-- Go strings are byte strings; `GoStr` is the byte-list model. -/
abbrev GoStr := List Nat

/-- Byte list of an ASCII string literal, for writing concrete names. -/
def str (s : String) : GoStr := s.toList.map Char.toNat

/-- Model of Go `strings.Split(name, ".")`: splits on the byte 46. -/
def splitOnDot : GoStr → List GoStr
  | [] => [[]]
  | c :: rest =>
    if c = 46 then [] :: splitOnDot rest
    else
      match splitOnDot rest with
      | p :: ps => (c :: p) :: ps
      | [] => [[c]]

/-- Model of Go `strings.Join(parts, ".")`. -/
def joinDot : List GoStr → GoStr
  | [] => []
  | [l] => l
  | l :: rest => l ++ 46 :: joinDot rest

/-- Big-endian two-byte encoding of a 16-bit value, with the byte
truncation Go's `byte(v >> 8)` / `byte(v)` performs. -/
def be16 (v : Nat) : List Nat := [(v >>> 8) % 256, v % 256]

/-- Big-endian four-byte encoding of a 32-bit value. -/
def be32 (v : Nat) : List Nat :=
  [(v >>> 24) % 256, (v >>> 16) % 256, (v >>> 8) % 256, v % 256]

/-- Model of `binary.BigEndian.Uint16(data[i:i+2])` (callers check bounds
first; out-of-range positions read as 0). -/
def read16 (data : List Nat) (i : Nat) : Nat :=
  data.getD i 0 * 256 + data.getD (i + 1) 0

/-- Model of `binary.BigEndian.Uint32(data[i:i+4])`. -/
def read32 (data : List Nat) (i : Nat) : Nat :=
  ((data.getD i 0 * 256 + data.getD (i + 1) 0) * 256 + data.getD (i + 2) 0) * 256
    + data.getD (i + 3) 0

/-- Go `CompressionMap` (`map[string]int`), modelled as an association
list; keys are inserted only after a failed lookup, so cons is a faithful
insert. -/
abbrev CMap := List (GoStr × Nat)

/-- Lookup in the compression map. -/
def cmapFind (m : CMap) (k : GoStr) : Option Nat :=
  match m with
  | [] => none
  | (k', v) :: rest => if k' = k then some v else cmapFind rest k

/-- Loop body of `encodeDNSNameWithCompression` (the revision used by
`Message.MarshalBinary`): iterates over the labels, looking up and
recording each nonempty dot-joined suffix, emitting a 2-byte pointer on a
hit and length-prefixed labels otherwise, with a terminating zero byte. -/
def encLabels : List GoStr → List Nat → CMap → Except DNSErr (List Nat × CMap)
  | [], buf, cmap => .ok (buf ++ [0], cmap)
  | l :: rest, buf, cmap =>
    let suffix := joinDot (l :: rest)
    if suffix = [] then encLabels rest buf cmap
    else
      match cmapFind cmap suffix with
      | some offset =>
        let pointer := 49152 ||| (offset &&& 16383)
        .ok (buf ++ [(pointer >>> 8) % 256, pointer % 256], cmap)
      | none =>
        let cmap' := (suffix, buf.length) :: cmap
        if l.length > 63 then .error .LabelTooLong
        else if l.length > 0 then encLabels rest (buf ++ l.length :: l) cmap'
        else encLabels rest buf cmap'

/-- Model of `encodeDNSNameWithCompression(name, buf, compressionMap)`:
rejects names longer than 253 bytes, then runs the label loop.  The
buffer passed in is the whole message buffer, so recorded offsets are
message-relative. -/
def encodeDNSNameWithCompression (name : GoStr) (buf : List Nat) (cmap : CMap) :
    Except DNSErr (List Nat × CMap) :=
  if name.length > 253 then .error .DomainTooLong
  else encLabels (splitOnDot name) buf cmap

/-- Model of `encodeDNSName(name, buf)`: the compression-aware encoder
with a fresh empty map. -/
def encodeDNSName (name : GoStr) (buf : List Nat) : Except DNSErr (List Nat) :=
  (encodeDNSNameWithCompression name buf []).map (·.1)

/-- Model of the earlier plain (compression-free) `encodeDNSName` revision
that is still part of the repository: length-prefixed labels, empty labels
skipped, zero terminator, same length checks. -/
def encodeDNSNamePlain (name : GoStr) (buf : List Nat) : Except DNSErr (List Nat) :=
  if name.length > 253 then .error .DomainTooLong
  else encPlainLabels (splitOnDot name) buf
where
  /-- Label loop of the plain encoder. -/
  encPlainLabels : List GoStr → List Nat → Except DNSErr (List Nat)
    | [], buf => .ok (buf ++ [0])
    | l :: rest, buf =>
      if l.length > 63 then .error .LabelTooLong
      else if l.length = 0 then encPlainLabels rest buf
      else encPlainLabels rest (buf ++ l.length :: l)

/-- Label-reading loop of the name decoder: follows one compression
pointer via the supplied `follow` continuation (returning the position two
past the pointer), stops one past a zero byte, reads length-prefixed
labels otherwise, accumulating the total decoded length.  The fuel is a
bound on loop iterations that the cursor progress can never exhaust. -/
def decodeLoop : Nat → List Nat → (Nat → Except DNSErr (GoStr × Nat)) → Nat →
    List GoStr → Nat → Except DNSErr (GoStr × Nat)
  | 0, _, _, _, _, _ => .error .Truncated
  | fuel + 1, data, follow, i, parts, total =>
    if data.length ≤ i then .error .TooShort
    else
      let b := data.getD i 0
      if b &&& 192 = 192 then
        if data.length ≤ i + 1 then .error .TooShort
        else
          match follow (read16 data i &&& 16383) with
          | .error e => .error e
          | .ok (pointedName, _) =>
            .ok (joinDot (if pointedName = [] then parts else parts ++ [pointedName]),
                 i + 2)
      else if b = 0 then .ok (joinDot parts, i + 1)
      else if b > 63 then .error .LabelTooLong
      else if i + 1 + b > data.length then .error .Truncated
      else if total + b + 1 > 253 then .error .DomainTooLong
      else decodeLoop fuel data follow (i + b + 1)
             (parts ++ [(data.drop (i + 1)).take b]) (total + b + 1)

/-- Model of `decodeDNSNameWithCompression(data, offset, jumps)` with an
explicit recursion fuel; `decodeDNSNameWithCompression` instantiates the
fuel large enough that the zero-fuel branch is unreachable (each recursion
step increments `jumps`, and `jumps > 5` aborts, so chains stop after at
most seven nested calls). -/
def decodeAux : Nat → List Nat → Nat → Nat → Except DNSErr (GoStr × Nat)
  | 0, _, _, _ => .error .CompressionLoop
  | fuel + 1, data, offset, jumps =>
    if data.length ≤ offset then .error .OffsetOutOfRange
    else if 5 < jumps then .error .CompressionLoop
    else decodeLoop (data.length + 1) data
           (fun ptr => decodeAux fuel data ptr (jumps + 1)) offset [] 0

/-- Model of `decodeDNSNameWithCompression`. -/
def decodeDNSNameWithCompression (data : List Nat) (offset jumps : Nat) :
    Except DNSErr (GoStr × Nat) :=
  decodeAux 7 data offset jumps

/-- Model of `decodeDNSName(data, offset)`. -/
def decodeDNSName (data : List Nat) (offset : Nat) : Except DNSErr (GoStr × Nat) :=
  decodeDNSNameWithCompression data offset 0

/-- DNS message header, all six 16-bit fields as `Nat`. -/
structure MessageHeader where
  Id : Nat
  Flags : Nat
  QDCount : Nat
  ANCount : Nat
  NSCount : Nat
  ARCount : Nat
deriving DecidableEq, Repr

/-- Extract the `w`-bit field at bit offset `k` of a flags word
(`(x >> k) & (2^w - 1)`); the common shape of the Go flag getters. -/
def getBits (k w x : Nat) : Nat := (x >>> k) &&& (2 ^ w - 1)

/-- Replace the `w`-bit field at bit offset `k` of a 16-bit flags word
(`(x &^ (mask << k)) | ((v & mask) << k)`); the common shape of the Go
flag setters (Go's `&^` on `uint16` is conjunction with the mask's 16-bit
complement). -/
def setBits (k w x v : Nat) : Nat :=
  (x &&& (65535 ^^^ ((2 ^ w - 1) <<< k))) ||| ((v &&& (2 ^ w - 1)) <<< k)

/-- Go `GetQR`. -/
def MessageHeader.GetQR (h : MessageHeader) : Nat := (h.Flags >>> 15) &&& 1

/-- Go `SetQR`. -/
def MessageHeader.SetQR (h : MessageHeader) (qr : Nat) : MessageHeader :=
  { h with Flags := (h.Flags &&& (65535 ^^^ (1 <<< 15))) ||| ((qr &&& 1) <<< 15) }

/-- Go `GetOpcode` (bits 11-14). -/
def MessageHeader.GetOpcode (h : MessageHeader) : Nat := (h.Flags >>> 11) &&& 15

/-- Go `SetOpcode`. -/
def MessageHeader.SetOpcode (h : MessageHeader) (opcode : Nat) : MessageHeader :=
  { h with Flags := (h.Flags &&& (65535 ^^^ (15 <<< 11))) ||| ((opcode &&& 15) <<< 11) }

/-- Go `GetAA` (bit 10). -/
def MessageHeader.GetAA (h : MessageHeader) : Nat := (h.Flags >>> 10) &&& 1

/-- Go `SetAA`. -/
def MessageHeader.SetAA (h : MessageHeader) (aa : Nat) : MessageHeader :=
  { h with Flags := (h.Flags &&& (65535 ^^^ (1 <<< 10))) ||| ((aa &&& 1) <<< 10) }

/-- Go `GetTC` (bit 9). -/
def MessageHeader.GetTC (h : MessageHeader) : Nat := (h.Flags >>> 9) &&& 1

/-- Go `SetTC`. -/
def MessageHeader.SetTC (h : MessageHeader) (tc : Nat) : MessageHeader :=
  { h with Flags := (h.Flags &&& (65535 ^^^ (1 <<< 9))) ||| ((tc &&& 1) <<< 9) }

/-- Go `GetRD` (bit 8). -/
def MessageHeader.GetRD (h : MessageHeader) : Nat := (h.Flags >>> 8) &&& 1

/-- Go `SetRD`. -/
def MessageHeader.SetRD (h : MessageHeader) (rd : Nat) : MessageHeader :=
  { h with Flags := (h.Flags &&& (65535 ^^^ (1 <<< 8))) ||| ((rd &&& 1) <<< 8) }

/-- Go `GetRA` (bit 7). -/
def MessageHeader.GetRA (h : MessageHeader) : Nat := (h.Flags >>> 7) &&& 1

/-- Go `SetRA`. -/
def MessageHeader.SetRA (h : MessageHeader) (ra : Nat) : MessageHeader :=
  { h with Flags := (h.Flags &&& (65535 ^^^ (1 <<< 7))) ||| ((ra &&& 1) <<< 7) }

/-- Go `GetZ` (bits 4-6). -/
def MessageHeader.GetZ (h : MessageHeader) : Nat := (h.Flags >>> 4) &&& 7

/-- Go `SetZ`. -/
def MessageHeader.SetZ (h : MessageHeader) (z : Nat) : MessageHeader :=
  { h with Flags := (h.Flags &&& (65535 ^^^ (7 <<< 4))) ||| ((z &&& 7) <<< 4) }

/-- Go `GetRcode` (bits 0-3). -/
def MessageHeader.GetRcode (h : MessageHeader) : Nat := h.Flags &&& 15

/-- Go `SetRcode`. -/
def MessageHeader.SetRcode (h : MessageHeader) (rcode : Nat) : MessageHeader :=
  { h with Flags := (h.Flags &&& (65535 ^^^ 15)) ||| (rcode &&& 15) }

/-- Go `MessageHeader.MarshalBinary`: the 12 header bytes, big-endian
fields in fixed order (the Go version never returns an error). -/
def MessageHeader.marshal (h : MessageHeader) : List Nat :=
  [(h.Id >>> 8) % 256, h.Id % 256,
   (h.Flags >>> 8) % 256, h.Flags % 256,
   (h.QDCount >>> 8) % 256, h.QDCount % 256,
   (h.ANCount >>> 8) % 256, h.ANCount % 256,
   (h.NSCount >>> 8) % 256, h.NSCount % 256,
   (h.ARCount >>> 8) % 256, h.ARCount % 256]

/-- Go `MessageHeader.UnmarshalBinary` of the revision used by
`Message.UnmarshalBinary`: reads every field back from its own position
(the receiver is fully overwritten, so it is not a parameter). -/
def MessageHeader.unmarshal (data : List Nat) : Except DNSErr MessageHeader :=
  if data.length < 12 then .error .TooShort
  else .ok { Id := read16 data 0, Flags := read16 data 2, QDCount := read16 data 4,
             ANCount := read16 data 6, NSCount := read16 data 8,
             ARCount := read16 data 10 }

/-- Go `MessageHeader.UnmarshalBinary` as it stands in
`src/app/message.go`: the last assignment stores bytes 10..12 into
`ANCount` (instead of `ARCount`), and `ARCount` keeps the receiver's old
value. -/
def appMessageHeaderUnmarshal (h : MessageHeader) (data : List Nat) :
    Except DNSErr MessageHeader :=
  if data.length < 12 then .error .TooShort
  else .ok { Id := read16 data 0, Flags := read16 data 2, QDCount := read16 data 4,
             ANCount := read16 data 10, NSCount := read16 data 8,
             ARCount := h.ARCount }

/-- DNS question entry. -/
structure Question where
  Name : GoStr
  Type' : Nat
  Class : Nat
deriving DecidableEq, Repr

/-- Go `Question.MarshalBinary`: plain (fresh-map) name encoding followed
by big-endian type and class. -/
def Question.MarshalBinary (q : Question) : Except DNSErr (List Nat) := do
  let b ← encodeDNSName q.Name []
  .ok (b ++ be16 q.Type' ++ be16 q.Class)

/-- Go `Question.UnmarshalFrom(msg, offset)`: decodes the name from the
whole message starting at `offset`, then reads type and class, returning
the question and the offset just past it. -/
def Question.UnmarshalFrom (msg : List Nat) (offset : Nat) :
    Except DNSErr (Question × Nat) :=
  if msg.length ≤ offset then .error .OffsetOutOfRange
  else
    match decodeDNSName msg offset with
    | .error e => .error e
    | .ok (name, next) =>
      if next + 4 > msg.length then .error .Truncated
      else .ok ({ Name := name, Type' := read16 msg next, Class := read16 msg (next + 2) },
                next + 4)

/-- DNS resource record. -/
structure ResourceRecord where
  Name : GoStr
  Type' : Nat
  Class : Nat
  TTL : Nat
  RDLength : Nat
  RData : List Nat
deriving DecidableEq, Repr

/-- Go `ResourceRecord.MarshalBinary`: plain name encoding, fixed fields,
RDLENGTH recomputed as `uint16(len(RData))`, then the raw RData bytes. -/
def ResourceRecord.MarshalBinary (rr : ResourceRecord) : Except DNSErr (List Nat) := do
  let b ← encodeDNSName rr.Name []
  .ok (b ++ be16 rr.Type' ++ be16 rr.Class ++ be32 rr.TTL
        ++ be16 (rr.RData.length % 65536) ++ rr.RData)

/-- DNS message: header, questions, answers. -/
structure Message where
  Header : MessageHeader
  Questions : List Question
  Answers : List ResourceRecord
deriving DecidableEq, Repr

/-- Question-section loop of `Message.MarshalBinary`: each question's name
is encoded into the shared buffer with the shared compression map, then
type and class are appended. -/
def encQuestions : List Question → List Nat → CMap → Except DNSErr (List Nat × CMap)
  | [], buf, cmap => .ok (buf, cmap)
  | q :: qs, buf, cmap =>
    match encodeDNSNameWithCompression q.Name buf cmap with
    | .error e => .error e
    | .ok (buf', cmap') => encQuestions qs (buf' ++ be16 q.Type' ++ be16 q.Class) cmap'

/-- Answer-section loop of `Message.MarshalBinary`. -/
def encAnswers : List ResourceRecord → List Nat → CMap → Except DNSErr (List Nat × CMap)
  | [], buf, cmap => .ok (buf, cmap)
  | rr :: rrs, buf, cmap =>
    match encodeDNSNameWithCompression rr.Name buf cmap with
    | .error e => .error e
    | .ok (buf', cmap') =>
      encAnswers rrs (buf' ++ be16 rr.Type' ++ be16 rr.Class ++ be32 rr.TTL
                        ++ be16 (rr.RData.length % 65536) ++ rr.RData) cmap'

/-- Go `Message.MarshalBinary`: header bytes, then questions and answers
sharing one fresh compression map. -/
def Message.MarshalBinary (m : Message) : Except DNSErr (List Nat) := do
  let (buf1, cmap1) ← encQuestions m.Questions m.Header.marshal []
  let (buf2, _) ← encAnswers m.Answers buf1 cmap1
  .ok buf2

/-- Question-section loop of `Message.UnmarshalBinary`: reads the given
number of questions sequentially, each name decoded from the whole buffer. -/
def decQuestions (data : List Nat) : Nat → Nat → Except DNSErr (List Question × Nat)
  | offset, 0 => .ok ([], offset)
  | offset, k + 1 =>
    match decodeDNSName data offset with
    | .error e => .error e
    | .ok (name, next) =>
      if next + 4 > data.length then .error .TooShort
      else
        match decQuestions data (next + 4) k with
        | .error e => .error e
        | .ok (rest, off') =>
          .ok ({ Name := name, Type' := read16 data next,
                 Class := read16 data (next + 2) } :: rest, off')

/-- Answer-section loop of `Message.UnmarshalBinary`. -/
def decAnswers (data : List Nat) : Nat → Nat → Except DNSErr (List ResourceRecord × Nat)
  | offset, 0 => .ok ([], offset)
  | offset, k + 1 =>
    match decodeDNSName data offset with
    | .error e => .error e
    | .ok (name, next) =>
      if next + 10 > data.length then .error .TooShort
      else
        let rdlen := read16 data (next + 8)
        if next + 10 + rdlen > data.length then .error .Truncated
        else
          match decAnswers data (next + 10 + rdlen) k with
          | .error e => .error e
          | .ok (rest, off') =>
            .ok ({ Name := name, Type' := read16 data next,
                   Class := read16 data (next + 2), TTL := read32 data (next + 4),
                   RDLength := rdlen,
                   RData := (data.drop (next + 10)).take rdlen } :: rest, off')

/-- Go `Message.UnmarshalBinary`: header from the first 12 bytes, then
`QDCount` questions starting at offset 12, then `ANCount` answers. -/
def Message.UnmarshalBinary (data : List Nat) : Except DNSErr Message :=
  if data.length < 12 then .error .TooShort
  else
    match MessageHeader.unmarshal (data.take 12) with
    | .error e => .error e
    | .ok header =>
      match decQuestions data 12 header.QDCount with
      | .error e => .error e
      | .ok (qs, qoff) =>
        match decAnswers data qoff header.ANCount with
        | .error e => .error e
        | .ok (rrs, _) => .ok { Header := header, Questions := qs, Answers := rrs }

/-- Mock record table of the handler (`mockDNSRecords`), with the default
IP (`defaultMockIP`) for misses. -/
def mockLookup (name : GoStr) : List Nat :=
  if name = str "stackoverflow.com" then [151, 101, 129, 69]
  else if name = str "stackoverflow.design" then [151, 101, 1, 69]
  else if name = str "def.codecrafters.io" then [76, 76, 21, 21]
  else if name = str "mail.example.com" then [192, 168, 0, 2]
  else [8, 8, 8, 8]

/-- Go `DNSHandler.forward(q)`: one A-record answer echoing the question's
name and class, TTL 60, RData from the mock table or the default (the Go
version never returns an error). -/
def forward (q : Question) : List ResourceRecord :=
  [{ Name := q.Name, Type' := 1, Class := q.Class, TTL := 60, RDLength := 0,
     RData := mockLookup q.Name }]

/-- Question-parsing loop of `DNSHandler.parseRequest`: parses the given
number of questions with `Question.UnmarshalFrom`, threading the offset. -/
def parseQuestions (msg : List Nat) : Nat → Nat → Except DNSErr (List Question)
  | _, 0 => .ok []
  | offset, k + 1 =>
    match Question.UnmarshalFrom msg offset with
    | .error e => .error e
    | .ok (q, newOffset) =>
      match parseQuestions msg newOffset k with
      | .error e => .error e
      | .ok rest => .ok (q :: rest)

/-- Go `DNSHandler.parseRequest`: header from the raw request, then
exactly `QDCount` questions starting at offset 12. -/
def parseRequest (requestData : List Nat) :
    Except DNSErr (MessageHeader × List Question) :=
  match MessageHeader.unmarshal requestData with
  | .error e => .error e
  | .ok header =>
    match parseQuestions requestData 12 header.QDCount with
    | .error e => .error e
    | .ok questions => .ok (header, questions)

/-- Go `DNSHandler.buildResponseHeader`: same id and QDCOUNT as the
request, ANCOUNT from the answer list, zeroed flags then QR=1, echoed
Opcode and RD, RCODE NoError for opcode 0 and NotImplemented otherwise. -/
def buildResponseHeader (reqHeader : MessageHeader) (answers : List ResourceRecord) :
    MessageHeader :=
  let h0 : MessageHeader :=
    { Id := reqHeader.Id, Flags := 0, QDCount := reqHeader.QDCount,
      ANCount := answers.length % 65536, NSCount := 0, ARCount := 0 }
  let h1 := (h0.SetQR 1).SetOpcode reqHeader.GetOpcode
  let h2 := h1.SetRD reqHeader.GetRD
  if reqHeader.GetOpcode = 0 then h2.SetRcode 0 else h2.SetRcode 4

/-- Response `Message` assembled by `DNSHandler.Handle` (steps 1-3): parse,
forward each question collecting one answer apiece, build the response
header, and echo the questions. -/
def handleResponse (requestData : List Nat) : Except DNSErr Message :=
  match parseRequest requestData with
  | .error e => .error e
  | .ok (header, questions) =>
    let allAnswers := questions.foldr (fun q acc => forward q ++ acc) []
    .ok { Header := buildResponseHeader header allAnswers,
          Questions := questions, Answers := allAnswers }

/-- Go `DNSHandler.Handle` (all four steps): the marshalled response. -/
def Handle (requestData : List Nat) : Except DNSErr (List Nat) :=
  match handleResponse requestData with
  | .error e => .error e
  | .ok resp => resp.MarshalBinary

/-- Labels of a name that actually get wire-encoded: the nonempty ones, in
order. -/
def neLabels (name : GoStr) : List GoStr := (splitOnDot name).filter (fun l => l ≠ [])

/-- Uncompressed wire form of a label list: length-prefixed labels then the
zero terminator. -/
def plainEncLabels : List GoStr → List Nat
  | [] => [0]
  | l :: rest => l.length :: l ++ plainEncLabels rest

/-- Uncompressed wire form of a name. -/
def plainName (name : GoStr) : List Nat := plainEncLabels (neLabels name)

/-- Wire form of a question when its name is not compressed. -/
def qEnc (q : Question) : List Nat := plainName q.Name ++ be16 q.Type' ++ be16 q.Class

/-- Wire form of a resource record when its name is not compressed. -/
def rEnc (rr : ResourceRecord) : List Nat :=
  plainName rr.Name ++ be16 rr.Type' ++ be16 rr.Class ++ be32 rr.TTL
    ++ be16 (rr.RData.length % 65536) ++ rr.RData

/-- Characterisation of the cursor a successful name decode returns: scan
the name's own section only, stopping two past the first pointer tag or
one past the zero terminator, never entering a pointer's target.  Stated
from the design document to compare with `decodeDNSNameWithCompression`. -/
def nameSpanAux : Nat → List Nat → Nat → Nat → Option Nat
  | 0, _, _, _ => none
  | fuel + 1, data, i, total =>
    if data.length ≤ i then none
    else
      let b := data.getD i 0
      if b &&& 192 = 192 then if data.length ≤ i + 1 then none else some (i + 2)
      else if b = 0 then some (i + 1)
      else if b > 63 then none
      else if i + 1 + b > data.length then none
      else if total + b + 1 > 253 then none
      else nameSpanAux fuel data (i + b + 1) (total + b + 1)

/-- Section-local span of a name starting at `i`. -/
def nameSpan (data : List Nat) (i : Nat) : Option Nat :=
  nameSpanAux (data.length + 1) data i 0

/-- Nonempty dot-joined suffixes of a label list, in the order the encoder
tries them. -/
def nsuffixes : List GoStr → List GoStr
  | [] => []
  | l :: rest =>
    if joinDot (l :: rest) = [] then nsuffixes rest
    else joinDot (l :: rest) :: nsuffixes rest

/-- Nonempty suffixes of a name, the keys its encoding can add to the
compression map. -/
def nameSufs (name : GoStr) : List GoStr := nsuffixes (splitOnDot name)

/-- Boolean test that no suffix of `a` is a suffix of `b`. -/
def disjointSufsB (a b : GoStr) : Bool :=
  (nameSufs a).all (fun s => !((nameSufs b).contains s))

/-- Boolean test that the names in a list pairwise share no suffix. -/
def noShareB : List GoStr → Bool
  | [] => true
  | n :: rest => rest.all (disjointSufsB n) && noShareB rest

/-- Names of a message in encode order. -/
def msgNames (m : Message) : List GoStr :=
  m.Questions.map Question.Name ++ m.Answers.map ResourceRecord.Name

/-- Well-formedness of a name for the round-trip statement: at most 252
bytes, and either empty or made of nonempty labels of at most 63 bytes. -/
def wfName (n : GoStr) : Prop :=
  n.length ≤ 252 ∧ (n = [] ∨ ∀ l ∈ splitOnDot n, 1 ≤ l.length ∧ l.length ≤ 63)

/-- Well-formedness of a message for the round-trip statement: 16-bit
header fields, counts matching the section lengths, well-formed names,
16-bit types and classes, 32-bit TTLs, RData shorter than 65536 bytes. -/
def wfMessage (m : Message) : Prop :=
  m.Header.Id < 65536 ∧ m.Header.Flags < 65536 ∧ m.Header.NSCount < 65536 ∧
  m.Header.ARCount < 65536 ∧
  m.Header.QDCount = m.Questions.length ∧ m.Header.ANCount = m.Answers.length ∧
  m.Questions.length < 65536 ∧ m.Answers.length < 65536 ∧
  (∀ q ∈ m.Questions, wfName q.Name ∧ q.Type' < 65536 ∧ q.Class < 65536) ∧
  (∀ rr ∈ m.Answers, wfName rr.Name ∧ rr.Type' < 65536 ∧ rr.Class < 65536 ∧
    rr.TTL < 4294967296 ∧ rr.RData.length < 65536)

/-- RDLENGTH normalisation of the round-trip statement: decode always sets
RDLENGTH to the length of the RData it read. -/
def normalizeMsg (m : Message) : Message :=
  { m with Answers := m.Answers.map (fun rr => { rr with RDLength := rr.RData.length }) }

/-- Enumeration of the eight flag fields, for quantifying over the
getter/setter families. -/
inductive FlagField where
  | qr | opcode | aa | tc | rd | ra | z | rcode
deriving DecidableEq, Repr

/-- Getter of a flag field, dispatching to the Go accessor. -/
def fieldGet : FlagField → MessageHeader → Nat
  | .qr => MessageHeader.GetQR
  | .opcode => MessageHeader.GetOpcode
  | .aa => MessageHeader.GetAA
  | .tc => MessageHeader.GetTC
  | .rd => MessageHeader.GetRD
  | .ra => MessageHeader.GetRA
  | .z => MessageHeader.GetZ
  | .rcode => MessageHeader.GetRcode

/-- Mutator of a flag field, dispatching to the Go mutator. -/
def fieldSet : FlagField → MessageHeader → Nat → MessageHeader
  | .qr => MessageHeader.SetQR
  | .opcode => MessageHeader.SetOpcode
  | .aa => MessageHeader.SetAA
  | .tc => MessageHeader.SetTC
  | .rd => MessageHeader.SetRD
  | .ra => MessageHeader.SetRA
  | .z => MessageHeader.SetZ
  | .rcode => MessageHeader.SetRcode


/-- Witness that reading plain labels starting at a position accumulates a
decoded length beyond 253 before any terminator or pointer: each step reads
one in-bounds label of length 1..63, and the final step pushes the running
total past 253.  Used to state the decoder's DomainTooLong behaviour. -/
inductive AccumulatesOver (data : List Nat) : Nat → Nat → Prop where
  | hit (i total L : Nat) : i < data.length → data.getD i 0 = L → 1 ≤ L → L ≤ 63 →
      i + 1 + L ≤ data.length → 253 < total + L + 1 → AccumulatesOver data i total
  | step (i total L : Nat) : i < data.length → data.getD i 0 = L → 1 ≤ L → L ≤ 63 →
      i + 1 + L ≤ data.length → total + L + 1 ≤ 253 →
      AccumulatesOver data (i + 1 + L) (total + L + 1) → AccumulatesOver data i total

/-- Wire size contribution of a label list: one length byte plus the label
bytes, per label. -/
def labelsLen (ls : List GoStr) : Nat := (ls.map (fun l => l.length + 1)).sum


/-- Concatenated wire form of a question section whose names are all
uncompressed. -/
def qsecBytes : List Question → List Nat
  | [] => []
  | q :: qs => qEnc q ++ qsecBytes qs

/-- Concatenated wire form of an answer section whose names are all
uncompressed. -/
def asecBytes : List ResourceRecord → List Nat
  | [] => []
  | rr :: rrs => rEnc rr ++ asecBytes rrs


instance (n : GoStr) : Decidable (wfName n) := by
  unfold wfName
  exact inferInstance

instance (m : Message) : Decidable (wfMessage m) := by
  unfold wfMessage
  exact inferInstance

/-- Name of exactly 253 bytes (labels 63+63+63+61 plus three dots) for the
round-trip counterexample. -/
def c1CexName : GoStr :=
  List.replicate 63 97 ++ 46 :: (List.replicate 63 98 ++ 46 ::
    (List.replicate 63 99 ++ 46 :: List.replicate 61 100))

/-- Single-question message carrying the 253-byte name. -/
def c1CexMsg : Message := ⟨⟨1, 0, 1, 0, 0, 0⟩, [⟨c1CexName, 1, 1⟩], []⟩

/-- Message whose question and answer are both named `www.example.com`. -/
def c2Msg : Message :=
  ⟨⟨4660, 33152, 1, 1, 0, 0⟩, [⟨str "www.example.com", 1, 1⟩],
   [⟨str "www.example.com", 1, 1, 60, 4, [8, 8, 8, 8]⟩]⟩

/-- Expected wire encoding of `c2Msg`: 12-byte header, the question with
its uncompressed name at offset 12, and the answer whose name field is the
2-byte pointer `C0 0C` to offset 12. -/
def c2Bytes : List Nat :=
  [18, 52, 129, 128, 0, 1, 0, 1, 0, 0, 0, 0]
    ++ 3 :: str "www" ++ 7 :: str "example" ++ 3 :: str "com"
    ++ [0, 0, 1, 0, 1, 192, 12, 0, 1, 0, 1, 0, 0, 0, 60, 0, 4, 8, 8, 8, 8]

/-- Standalone (shared-table-free) encoding of the `c2Msg` question. -/
def c2QBytes : List Nat :=
  3 :: str "www" ++ 7 :: str "example" ++ 3 :: str "com" ++ [0, 0, 1, 0, 1]

/-- Standalone (shared-table-free) encoding of the `c2Msg` answer. -/
def c2RBytes : List Nat :=
  3 :: str "www" ++ 7 :: str "example" ++ 3 :: str "com"
    ++ [0, 0, 1, 0, 1, 0, 0, 0, 60, 0, 4, 8, 8, 8, 8]

/-- The design document's scenario request: id 0x1234, RD set, one
question `www.example.com` A/IN. -/
def c6Req : List Nat :=
  [18, 52, 1, 0, 0, 1, 0, 0, 0, 0, 0, 0]
    ++ 3 :: str "www" ++ 7 :: str "example" ++ 3 :: str "com" ++ [0, 0, 1, 0, 1]

/-- Buffer of four 63-byte labels: its accumulated decoded length reaches
256 > 253 before any terminator. -/
def c9Buf : List Nat :=
  63 :: List.replicate 63 97 ++ 63 :: List.replicate 63 97
    ++ 63 :: List.replicate 63 97 ++ 63 :: List.replicate 63 97 ++ [0]

/-! ### Depth-annotated mirror of the compression encoder -/

/-- Wire bytes of a run of length-prefixed labels (no terminator). -/
def labelBytes : List GoStr → List Nat
  | [] => []
  | l :: rest => l.length :: l ++ labelBytes rest

/-- The two bytes of a compression pointer to `offset`, exactly as the
encoder writes them: big-endian `0xC000 ||| (offset &&& 0x3FFF)`. -/
def ptrBytes (offset : Nat) : List Nat :=
  [((49152 ||| (offset &&& 16383)) >>> 8) % 256, (49152 ||| (offset &&& 16383)) % 256]

/-- Compression map annotated with each entry's decode depth (how many
pointers a decode starting at the entry's offset follows); the
analysis-side shadow of `CMap` used to state when compressed output is
decodable. -/
abbrev CMapD := List (GoStr × Nat × Nat)

/-- Forget the depth annotations. -/
def stripD (m : CMapD) : CMap := m.map (fun e => (e.1, e.2.1))

/-- Lookup in the annotated map. -/
def cmapFindD (m : CMapD) (k : GoStr) : Option (Nat × Nat) :=
  match m with
  | [] => none
  | (k', v) :: rest => if k' = k then some v else cmapFindD rest k

/-- First compression hit of the encoder's label walk: offset and depth of
the first dot-joined suffix already in the map, if any. -/
def findHitD : List GoStr → CMapD → Option (Nat × Nat)
  | [], _ => none
  | l :: rest, c =>
    if joinDot (l :: rest) = [] then findHitD rest c
    else
      match cmapFindD c (joinDot (l :: rest)) with
      | some od => some od
      | none => findHitD rest c

/-- Decode depth of a name encoded against the map: 0 when no suffix hits
(plain encoding), one more than the hit entry's depth otherwise. -/
def nameDepthD (n : GoStr) (c : CMapD) : Nat :=
  match findHitD (splitOnDot n) c with
  | none => 0
  | some (_, d) => d + 1

/-- The compression pointer this name's encoding emits (if any) is
representable and decodable: its target offset fits the pointer's 14-bit
field and decoding through it stays within the 5-jump bound. -/
def nameOKD (n : GoStr) (c : CMapD) : Bool :=
  match findHitD (splitOnDot n) c with
  | none => true
  | some (o, d) => decide (o ≤ 16383) && decide (d + 1 ≤ 5)

/-- Depth-annotated shadow of the label-encoding loop `encLabels`: same
branches and bytes, recording each new suffix with the depth `td` of the
name being encoded. -/
def encLabelsD (td : Nat) : List GoStr → List Nat → CMapD → Except DNSErr (List Nat × CMapD)
  | [], buf, cmap => .ok (buf ++ [0], cmap)
  | l :: rest, buf, cmap =>
    if joinDot (l :: rest) = [] then encLabelsD td rest buf cmap
    else
      match cmapFindD cmap (joinDot (l :: rest)) with
      | some od => .ok (buf ++ ptrBytes od.1, cmap)
      | none =>
        let cmap' := (joinDot (l :: rest), buf.length, td) :: cmap
        if l.length > 63 then .error .LabelTooLong
        else if l.length > 0 then encLabelsD td rest (buf ++ l.length :: l) cmap'
        else encLabelsD td rest buf cmap'

/-- Depth-annotated shadow of `encodeDNSNameWithCompression`. -/
def encNameD (n : GoStr) (buf : List Nat) (c : CMapD) : Except DNSErr (List Nat × CMapD) :=
  if n.length > 253 then .error .DomainTooLong
  else encLabelsD (nameDepthD n c) (splitOnDot n) buf c

/-- Depth-annotated shadow of the question loop of `Message.MarshalBinary`,
conjoining every name's `nameOKD` flag. -/
def encQuestionsD : List Question → List Nat → CMapD → Except DNSErr (List Nat × CMapD × Bool)
  | [], buf, c => .ok (buf, c, true)
  | q :: qs, buf, c =>
    match encNameD q.Name buf c with
    | .error e => .error e
    | .ok (buf1, c1) =>
      match encQuestionsD qs (buf1 ++ be16 q.Type' ++ be16 q.Class) c1 with
      | .error e => .error e
      | .ok (buf2, c2, ok2) => .ok (buf2, c2, nameOKD q.Name c && ok2)

/-- Depth-annotated shadow of the answer loop of `Message.MarshalBinary`. -/
def encAnswersD : List ResourceRecord → List Nat → CMapD → Except DNSErr (List Nat × CMapD × Bool)
  | [], buf, c => .ok (buf, c, true)
  | rr :: rrs, buf, c =>
    match encNameD rr.Name buf c with
    | .error e => .error e
    | .ok (buf1, c1) =>
      match encAnswersD rrs (buf1 ++ be16 rr.Type' ++ be16 rr.Class ++ be32 rr.TTL
          ++ be16 (rr.RData.length % 65536) ++ rr.RData) c1 with
      | .error e => .error e
      | .ok (buf2, c2, ok2) => .ok (buf2, c2, nameOKD rr.Name c && ok2)

/-- Every compression pointer the encoding of this message emits targets
an offset representable in the 14-bit pointer field and decodes through at
most 5 jumps. -/
def msgChainOK (m : Message) : Bool :=
  match encQuestionsD m.Questions m.Header.marshal [] with
  | .error _ => false
  | .ok (buf1, c1, ok1) =>
    match encAnswersD m.Answers buf1 c1 with
    | .error _ => false
    | .ok (_, _, ok2) => ok1 && ok2

/-- Validity of one annotated map entry: decoding the buffer (under any
extension) at the recorded offset returns the recorded suffix, within the
recorded depth's jump budget. -/
def entryOK (buf : List Nat) (s : GoStr) (o d : Nat) : Prop :=
  ∀ (ext : List Nat) (f j : Nat), d < f → j + d ≤ 5 →
    ∃ nx, decodeAux f (buf ++ ext) o j = .ok (s, nx)

/-- Validity of every entry of an annotated map. -/
def cmapInv (buf : List Nat) (c : CMapD) : Prop :=
  ∀ s o d, cmapFindD c s = some (o, d) → entryOK buf s o d

/-! ### The far-pointer counterexample message and its wire bytes -/

/-- Header and question-section bytes of the far-pointer message. -/
def c1FarQ : List Nat := [0, 0, 0, 0, 0, 1, 0, 3, 0, 0, 0, 0, 1, 97, 0, 0, 1, 0, 1]

/-- Message bytes through the first answer, with the 16350-byte RDATA
abstracted as `R`. -/
def c1FarA1R (R : List Nat) : List Nat :=
  c1FarQ ++ [1, 98, 0, 0, 1, 0, 1, 0, 0, 0, 60, 63, 222] ++ R

/-- Message bytes through the second answer. -/
def c1FarA2R (R : List Nat) : List Nat :=
  c1FarA1R R ++ [1, 99, 1, 100, 0, 0, 1, 0, 1, 0, 0, 0, 60, 0, 0]

/-- The whole message: the third answer's name is the label e followed by
the truncated pointer C0 00. -/
def c1FarBytesR (R : List Nat) : List Nat :=
  c1FarA2R R ++ [1, 101, 192, 0, 0, 1, 0, 1, 0, 0, 0, 60, 0, 0]

def c1FarMsgR (R : List Nat) : Message :=
  ⟨⟨0, 0, 1, 3, 0, 0⟩, [⟨str "a", 1, 1⟩],
   [⟨str "b", 1, 1, 60, 16350, R⟩,
    ⟨str "c.d", 1, 1, 60, 0, []⟩,
    ⟨str "e.d", 1, 1, 60, 0, []⟩]⟩

/-- The concrete far-pointer message, with 16350 zero bytes of RDATA. -/
def c1FarMsg : Message := c1FarMsgR (List.replicate 16350 0)

/-- Wire bytes of `c1FarMsg`. -/
def c1FarBytes : List Nat := c1FarBytesR (List.replicate 16350 0)

/-- What the decoder actually returns for `c1FarBytes`: the third answer's
name comes back as e instead of e.d. -/
def c1FarDecodedR (R : List Nat) : Message :=
  ⟨⟨0, 0, 1, 3, 0, 0⟩, [⟨str "a", 1, 1⟩],
   [⟨str "b", 1, 1, 60, 16350, R⟩,
    ⟨str "c.d", 1, 1, 60, 0, []⟩,
    ⟨str "e", 1, 1, 60, 0, []⟩]⟩

/-- Seven questions a, b.a, c.b.a, ..., g.f.e.d.c.b.a: each name after the
first is encoded as one label plus a pointer to the previous name, so the
last name can only be decoded through 6 pointer jumps, past the decoder's
bound of 5. -/
def c1ChainMsg : Message :=
  ⟨⟨1, 0, 7, 0, 0, 0⟩,
   [⟨str "a", 1, 1⟩, ⟨str "b.a", 1, 1⟩, ⟨str "c.b.a", 1, 1⟩, ⟨str "d.c.b.a", 1, 1⟩,
    ⟨str "e.d.c.b.a", 1, 1⟩, ⟨str "f.e.d.c.b.a", 1, 1⟩, ⟨str "g.f.e.d.c.b.a", 1, 1⟩], []⟩

/-- Question and answer both named mail.example.com: the answer's name is
emitted as a compression pointer, so the round-trip witness exercises
compressed output. -/
def c1CompMsg : Message :=
  ⟨⟨9, 0, 1, 1, 0, 0⟩, [⟨str "mail.example.com", 1, 1⟩],
   [⟨str "mail.example.com", 1, 1, 60, 4, [192, 168, 0, 2]⟩]⟩

/-! ### Bit-level lemmas for the packed flags word -/

theorem testBit_getBits (k w x i : Nat) :
    (getBits k w x).testBit i = (x.testBit (k + i) && decide (i < w)) := by
  simp [getBits, Nat.testBit_land, Nat.testBit_shiftRight, Nat.testBit_two_pow_sub_one,
    Bool.and_comm]

theorem testBit_setBits (k w x v i : Nat) (hi : i < 16) :
    (setBits k w x v).testBit i =
      (if k ≤ i ∧ i < k + w then v.testBit (i - k) else x.testBit i) := by
  have h65535 : (65535 : Nat) = 2 ^ 16 - 1 := by norm_num
  simp only [setBits, Nat.testBit_lor, Nat.testBit_land, Nat.testBit_xor,
    Nat.testBit_shiftLeft, Nat.testBit_two_pow_sub_one, h65535]
  by_cases hk : k ≤ i
  · by_cases hw : i < k + w
    · have : i - k < w := by omega
      simp [hk, hw, hi, this]
    · have : ¬ (i - k < w) := by omega
      simp [hk, hw, hi, this]
  · have h1 : ¬ (i ≥ k) := hk
    have h2 : ¬ (k ≤ i ∧ i < k + w) := by omega
    simp [h1, hi, h2]

theorem getBits_setBits_of_disjoint (k1 w1 k2 w2 x v : Nat)
    (hd : k1 + w1 ≤ k2 ∨ k2 + w2 ≤ k1) (h2 : k2 + w2 ≤ 16) :
    getBits k2 w2 (setBits k1 w1 x v) = getBits k2 w2 x := by
  apply Nat.eq_of_testBit_eq
  intro i
  rw [testBit_getBits, testBit_getBits]
  by_cases hi : i < w2
  · have h16 : k2 + i < 16 := by omega
    rw [testBit_setBits _ _ _ _ _ h16]
    have : ¬ (k1 ≤ k2 + i ∧ k2 + i < k1 + w1) := by omega
    simp [this]
  · simp [hi]

theorem getBits_setBits_same (k w x v : Nat) (h : k + w ≤ 16) :
    getBits k w (setBits k w x v) = v &&& (2 ^ w - 1) := by
  apply Nat.eq_of_testBit_eq
  intro i
  rw [testBit_getBits]
  by_cases hi : i < w
  · have h16 : k + i < 16 := by omega
    rw [testBit_setBits _ _ _ _ _ h16]
    have : k ≤ k + i ∧ k + i < k + w := by omega
    simp [this, Nat.testBit_land, Nat.testBit_two_pow_sub_one, hi]
  · simp [hi, Nat.testBit_land, Nat.testBit_two_pow_sub_one]

theorem getBits_lt (k w x : Nat) : getBits k w x < 2 ^ w := by
  have := Nat.and_le_right (n := x >>> k) (m := 2 ^ w - 1)
  have hw : 0 < 2 ^ w := Nat.pos_pow_of_pos w (by norm_num)
  simp [getBits]
  omega

theorem and_mask_of_lt {v w : Nat} (h : v < 2 ^ w) : v &&& (2 ^ w - 1) = v := by
  apply Nat.eq_of_testBit_eq
  intro i
  rw [Nat.testBit_land, Nat.testBit_two_pow_sub_one]
  by_cases hi : i < w
  · simp [hi]
  · have : v.testBit i = false := by
      apply Nat.testBit_lt_two_pow
      calc v < 2 ^ w := h
        _ ≤ 2 ^ i := Nat.pow_le_pow_right (by norm_num) (by omega)
    simp [this]

@[simp] theorem getQR_eq (h : MessageHeader) : h.GetQR = getBits 15 1 h.Flags := by
  simp [MessageHeader.GetQR, getBits]

@[simp] theorem setQR_flags (h : MessageHeader) (v : Nat) :
    (h.SetQR v).Flags = setBits 15 1 h.Flags v := by
  simp [MessageHeader.SetQR, setBits]

@[simp] theorem getOpcode_eq (h : MessageHeader) : h.GetOpcode = getBits 11 4 h.Flags := by
  simp [MessageHeader.GetOpcode, getBits]

@[simp] theorem setOpcode_flags (h : MessageHeader) (v : Nat) :
    (h.SetOpcode v).Flags = setBits 11 4 h.Flags v := by
  simp [MessageHeader.SetOpcode, setBits]

@[simp] theorem getAA_eq (h : MessageHeader) : h.GetAA = getBits 10 1 h.Flags := by
  simp [MessageHeader.GetAA, getBits]

@[simp] theorem setAA_flags (h : MessageHeader) (v : Nat) :
    (h.SetAA v).Flags = setBits 10 1 h.Flags v := by
  simp [MessageHeader.SetAA, setBits]

@[simp] theorem getTC_eq (h : MessageHeader) : h.GetTC = getBits 9 1 h.Flags := by
  simp [MessageHeader.GetTC, getBits]

@[simp] theorem setTC_flags (h : MessageHeader) (v : Nat) :
    (h.SetTC v).Flags = setBits 9 1 h.Flags v := by
  simp [MessageHeader.SetTC, setBits]

@[simp] theorem getRD_eq (h : MessageHeader) : h.GetRD = getBits 8 1 h.Flags := by
  simp [MessageHeader.GetRD, getBits]

@[simp] theorem setRD_flags (h : MessageHeader) (v : Nat) :
    (h.SetRD v).Flags = setBits 8 1 h.Flags v := by
  simp [MessageHeader.SetRD, setBits]

@[simp] theorem getRA_eq (h : MessageHeader) : h.GetRA = getBits 7 1 h.Flags := by
  simp [MessageHeader.GetRA, getBits]

@[simp] theorem setRA_flags (h : MessageHeader) (v : Nat) :
    (h.SetRA v).Flags = setBits 7 1 h.Flags v := by
  simp [MessageHeader.SetRA, setBits]

@[simp] theorem getZ_eq (h : MessageHeader) : h.GetZ = getBits 4 3 h.Flags := by
  simp [MessageHeader.GetZ, getBits]

@[simp] theorem setZ_flags (h : MessageHeader) (v : Nat) :
    (h.SetZ v).Flags = setBits 4 3 h.Flags v := by
  simp [MessageHeader.SetZ, setBits]

@[simp] theorem getRcode_eq (h : MessageHeader) : h.GetRcode = getBits 0 4 h.Flags := by
  simp [MessageHeader.GetRcode, getBits]

@[simp] theorem setRcode_flags (h : MessageHeader) (v : Nat) :
    (h.SetRcode v).Flags = setBits 0 4 h.Flags v := by
  simp [MessageHeader.SetRcode, setBits]

/-- Setter/getter pairs keep the other struct fields: only `Flags` moves. -/
theorem setQR_others (h : MessageHeader) (v : Nat) :
    (h.SetQR v).Id = h.Id ∧ (h.SetQR v).QDCount = h.QDCount ∧
    (h.SetQR v).ANCount = h.ANCount ∧ (h.SetQR v).NSCount = h.NSCount ∧
    (h.SetQR v).ARCount = h.ARCount := by
  simp [MessageHeader.SetQR]

/-! ### Handler lemmas -/

theorem parseQuestions_length (msg : List Nat) :
    ∀ (k offset : Nat) (qs : List Question),
      parseQuestions msg offset k = .ok qs → qs.length = k := by
  intro k
  induction k with
  | zero => intro offset qs h; simp [parseQuestions] at h; simp [← h]
  | succ n ih =>
    intro offset qs h
    simp only [parseQuestions] at h
    cases hq : Question.UnmarshalFrom msg offset with
    | error e => rw [hq] at h; exact absurd h (by simp)
    | ok r =>
      obtain ⟨q, noff⟩ := r
      rw [hq] at h
      simp only [] at h
      cases hr : parseQuestions msg noff n with
      | error e => rw [hr] at h; exact absurd h (by simp)
      | ok rest =>
        rw [hr] at h
        simp at h
        rw [← h]
        simp [ih noff rest hr]

theorem getD_lt_of_all : ∀ (data : List Nat) (i : Nat), (∀ b ∈ data, b < 256) →
    data.getD i 0 < 256 := by
  intro data
  induction data with
  | nil => intro i _; simp [List.getD]
  | cons a l ih =>
    intro i hb
    cases i with
    | zero => simpa using hb a (by simp)
    | succ j =>
      rw [List.getD_cons_succ]
      exact ih j (fun b hbm => hb b (by simp [hbm]))

theorem read16_lt (data : List Nat) (i : Nat) (hb : ∀ b ∈ data, b < 256) :
    read16 data i < 65536 := by
  have h1 := getD_lt_of_all data i hb
  have h2 := getD_lt_of_all data (i + 1) hb
  unfold read16; omega

theorem answers_length (qs : List Question) :
    (qs.foldr (fun q acc => forward q ++ acc) []).length = qs.length := by
  induction qs with
  | nil => rfl
  | cons q rest ih => simp [forward] at ih ⊢; omega

@[simp] theorem getBits_zero (k w : Nat) : getBits k w 0 = 0 := by
  simp [getBits]

theorem buildHeader_fields (rh : MessageHeader) (ans : List ResourceRecord) :
    (buildResponseHeader rh ans).Id = rh.Id ∧
    (buildResponseHeader rh ans).QDCount = rh.QDCount ∧
    (buildResponseHeader rh ans).ANCount = ans.length % 65536 ∧
    (buildResponseHeader rh ans).GetQR = 1 ∧
    (buildResponseHeader rh ans).GetOpcode = rh.GetOpcode ∧
    (buildResponseHeader rh ans).GetRD = rh.GetRD ∧
    ((buildResponseHeader rh ans).GetRcode = if rh.GetOpcode = 0 then 0 else 4) ∧
    (buildResponseHeader rh ans).GetAA = 0 ∧
    (buildResponseHeader rh ans).GetTC = 0 ∧
    (buildResponseHeader rh ans).GetRA = 0 ∧
    (buildResponseHeader rh ans).GetZ = 0 := by
  have d15 : ∀ k2 w2, k2 + w2 ≤ 16 → (15 + 1 ≤ k2 ∨ k2 + w2 ≤ 15) ∨ True := fun _ _ _ => .inr trivial
  have hop : rh.GetOpcode < 16 := by rw [getOpcode_eq]; exact getBits_lt 11 4 rh.Flags
  have hrd : rh.GetRD < 2 := by rw [getRD_eq]; exact getBits_lt 8 1 rh.Flags
  have hflags : (buildResponseHeader rh ans).Flags =
      setBits 0 4 (setBits 8 1 (setBits 11 4 (setBits 15 1 0 1) rh.GetOpcode) rh.GetRD)
        (if rh.GetOpcode = 0 then 0 else 4) := by
    simp only [buildResponseHeader]
    split
    · simp only [setRcode_flags, setRD_flags, setOpcode_flags, setQR_flags]
    · simp only [setRcode_flags, setRD_flags, setOpcode_flags, setQR_flags]
  have hothers : (buildResponseHeader rh ans).Id = rh.Id ∧
      (buildResponseHeader rh ans).QDCount = rh.QDCount ∧
      (buildResponseHeader rh ans).ANCount = ans.length % 65536 := by
    simp only [buildResponseHeader]
    split <;>
      simp [MessageHeader.SetRcode, MessageHeader.SetRD, MessageHeader.SetOpcode,
        MessageHeader.SetQR]
  obtain ⟨g1, g2, g3⟩ := hothers
  refine ⟨g1, g2, g3, ?_, ?_, ?_, ?_, ?_, ?_, ?_, ?_⟩
  · rw [getQR_eq, hflags]
    rw [getBits_setBits_of_disjoint 0 4 15 1 _ _ (by omega) (by omega)]
    rw [getBits_setBits_of_disjoint 8 1 15 1 _ _ (by omega) (by omega)]
    rw [getBits_setBits_of_disjoint 11 4 15 1 _ _ (by omega) (by omega)]
    rw [getBits_setBits_same 15 1 _ _ (by omega)]
    decide
  · rw [getOpcode_eq, hflags]
    rw [getBits_setBits_of_disjoint 0 4 11 4 _ _ (by omega) (by omega)]
    rw [getBits_setBits_of_disjoint 8 1 11 4 _ _ (by omega) (by omega)]
    rw [getBits_setBits_same 11 4 _ _ (by omega)]
    exact and_mask_of_lt hop
  · rw [getRD_eq, hflags]
    rw [getBits_setBits_of_disjoint 0 4 8 1 _ _ (by omega) (by omega)]
    rw [getBits_setBits_same 8 1 _ _ (by omega)]
    exact and_mask_of_lt hrd
  · rw [getRcode_eq, hflags]
    rw [getBits_setBits_same 0 4 _ _ (by omega)]
    split <;> rfl
  · rw [getAA_eq, hflags]
    rw [getBits_setBits_of_disjoint 0 4 10 1 _ _ (by omega) (by omega)]
    rw [getBits_setBits_of_disjoint 8 1 10 1 _ _ (by omega) (by omega)]
    rw [getBits_setBits_of_disjoint 11 4 10 1 _ _ (by omega) (by omega)]
    rw [getBits_setBits_of_disjoint 15 1 10 1 _ _ (by omega) (by omega)]
    exact getBits_zero 10 1
  · rw [getTC_eq, hflags]
    rw [getBits_setBits_of_disjoint 0 4 9 1 _ _ (by omega) (by omega)]
    rw [getBits_setBits_of_disjoint 8 1 9 1 _ _ (by omega) (by omega)]
    rw [getBits_setBits_of_disjoint 11 4 9 1 _ _ (by omega) (by omega)]
    rw [getBits_setBits_of_disjoint 15 1 9 1 _ _ (by omega) (by omega)]
    exact getBits_zero 9 1
  · rw [getRA_eq, hflags]
    rw [getBits_setBits_of_disjoint 0 4 7 1 _ _ (by omega) (by omega)]
    rw [getBits_setBits_of_disjoint 8 1 7 1 _ _ (by omega) (by omega)]
    rw [getBits_setBits_of_disjoint 11 4 7 1 _ _ (by omega) (by omega)]
    rw [getBits_setBits_of_disjoint 15 1 7 1 _ _ (by omega) (by omega)]
    exact getBits_zero 7 1
  · rw [getZ_eq, hflags]
    rw [getBits_setBits_of_disjoint 0 4 4 3 _ _ (by omega) (by omega)]
    rw [getBits_setBits_of_disjoint 8 1 4 3 _ _ (by omega) (by omega)]
    rw [getBits_setBits_of_disjoint 11 4 4 3 _ _ (by omega) (by omega)]
    rw [getBits_setBits_of_disjoint 15 1 4 3 _ _ (by omega) (by omega)]
    exact getBits_zero 4 3

/-- C6: for every request (of byte values) whose header and all QDCOUNT
questions parse successfully, `Handle` builds a response whose header has
the same id and QDCOUNT as the request, QR=1, Opcode and RD echoed from
the request, RCODE NoError when the request opcode is 0 and NotImplemented
otherwise, AA/TC/RA/Z all 0, and ANCOUNT equal to QDCOUNT — one answer per
question, a lookup miss resolving to the configured default address. -/
theorem c6_response_header_policy (d : List Nat) (rh : MessageHeader) (qs : List Question)
    (hb : ∀ b ∈ d, b < 256) (hp : parseRequest d = .ok (rh, qs)) :
    handleResponse d =
      .ok ⟨buildResponseHeader rh (qs.foldr (fun q acc => forward q ++ acc) []), qs,
           qs.foldr (fun q acc => forward q ++ acc) []⟩ ∧
    (buildResponseHeader rh (qs.foldr (fun q acc => forward q ++ acc) [])).Id = rh.Id ∧
    (buildResponseHeader rh (qs.foldr (fun q acc => forward q ++ acc) [])).QDCount = rh.QDCount ∧
    (buildResponseHeader rh (qs.foldr (fun q acc => forward q ++ acc) [])).GetQR = 1 ∧
    (buildResponseHeader rh (qs.foldr (fun q acc => forward q ++ acc) [])).GetOpcode = rh.GetOpcode ∧
    (buildResponseHeader rh (qs.foldr (fun q acc => forward q ++ acc) [])).GetRD = rh.GetRD ∧
    ((buildResponseHeader rh (qs.foldr (fun q acc => forward q ++ acc) [])).GetRcode =
      if rh.GetOpcode = 0 then 0 else 4) ∧
    (buildResponseHeader rh (qs.foldr (fun q acc => forward q ++ acc) [])).GetAA = 0 ∧
    (buildResponseHeader rh (qs.foldr (fun q acc => forward q ++ acc) [])).GetTC = 0 ∧
    (buildResponseHeader rh (qs.foldr (fun q acc => forward q ++ acc) [])).GetRA = 0 ∧
    (buildResponseHeader rh (qs.foldr (fun q acc => forward q ++ acc) [])).GetZ = 0 ∧
    (buildResponseHeader rh (qs.foldr (fun q acc => forward q ++ acc) [])).ANCount = rh.QDCount ∧
    (qs.foldr (fun q acc => forward q ++ acc) []).length = rh.QDCount := by
  -- extract the components of a successful parse
  have hqd : rh.QDCount < 65536 ∧ qs.length = rh.QDCount := by
    simp only [parseRequest] at hp
    cases hh : MessageHeader.unmarshal d with
    | error e => rw [hh] at hp; exact absurd hp (by simp)
    | ok header =>
      rw [hh] at hp
      simp only [] at hp
      cases hqs : parseQuestions d 12 header.QDCount with
      | error e => rw [hqs] at hp; exact absurd hp (by simp)
      | ok questions =>
        rw [hqs] at hp
        simp at hp
        obtain ⟨h1, h2⟩ := hp
        rw [← h1, ← h2]
        constructor
        · simp only [MessageHeader.unmarshal] at hh
          by_cases hlen : d.length < 12
          · rw [if_pos hlen] at hh; exact absurd hh (by simp)
          · rw [if_neg hlen] at hh
            simp at hh
            rw [← hh]
            exact read16_lt d 4 hb
        · exact parseQuestions_length d _ 12 questions hqs
  obtain ⟨hqd16, hlen⟩ := hqd
  have hB := buildHeader_fields rh (qs.foldr (fun q acc => forward q ++ acc) [])
  obtain ⟨f1, f2, f3, f4, f5, f6, f7, f8, f9, f10, f11⟩ := hB
  refine ⟨by simp only [handleResponse, hp], f1, f2, f4, f5, f6, f7, f8, f9, f10, f11, ?_, ?_⟩
  · rw [f3, answers_length, hlen, Nat.mod_eq_of_lt hqd16]
  · rw [answers_length, hlen]

/-! ### String splitting and joining -/

theorem splitOnDot_ne_nil (s : GoStr) : splitOnDot s ≠ [] := by
  cases s with
  | nil => simp [splitOnDot]
  | cons c rest =>
    unfold splitOnDot
    by_cases h : c = 46
    · simp [h]
    · rw [if_neg h]
      cases splitOnDot rest <;> simp

theorem joinDot_splitOnDot (s : GoStr) : joinDot (splitOnDot s) = s := by
  induction s with
  | nil => rfl
  | cons c rest ih =>
    unfold splitOnDot
    by_cases h : c = 46
    · rw [if_pos h]
      cases hr : splitOnDot rest with
      | nil => exact absurd hr (splitOnDot_ne_nil rest)
      | cons p ps =>
        rw [hr] at ih
        subst h
        simp [joinDot, ih]
    · rw [if_neg h]
      cases hr : splitOnDot rest with
      | nil => exact absurd hr (splitOnDot_ne_nil rest)
      | cons p ps =>
        rw [hr] at ih
        cases ps with
        | nil => simp [joinDot] at ih ⊢; exact ih
        | cons p2 ps2 => simp [joinDot] at ih ⊢; exact ih

theorem joinDot_cons_length (l : GoStr) (rest : List GoStr) (h : rest ≠ []) :
    (joinDot (l :: rest)).length = l.length + 1 + (joinDot rest).length := by
  cases rest with
  | nil => exact absurd rfl h
  | cons r rs => simp [joinDot]; omega

theorem joinDot_cons_eq_nil (l : GoStr) (rest : List GoStr)
    (h : joinDot (l :: rest) = []) : l = [] ∧ rest = [] := by
  cases rest with
  | nil => simp [joinDot] at h; exact ⟨h, rfl⟩
  | cons r rs => simp [joinDot] at h

theorem mem_nsuffixes_length (s : GoStr) :
    ∀ ls : List GoStr, s ∈ nsuffixes ls → s.length ≤ (joinDot ls).length := by
  intro ls
  induction ls with
  | nil => simp [nsuffixes]
  | cons l rest ih =>
    intro hs
    unfold nsuffixes at hs
    by_cases h : joinDot (l :: rest) = []
    · rw [if_pos h] at hs
      have h2 := ih hs
      rcases joinDot_cons_eq_nil l rest h with ⟨h3, h4⟩
      subst h4
      simp [nsuffixes] at hs
    · rw [if_neg h] at hs
      rcases List.mem_cons.mp hs with h1 | h1
      · subst h1; exact le_refl _
      · have h2 := ih h1
        by_cases hr : rest = []
        · subst hr; simp [nsuffixes] at h1
        · rw [joinDot_cons_length l rest hr]; omega

theorem mem_nsuffixes_lt (s : GoStr) (l : GoStr) (rest : List GoStr)
    (hs : s ∈ nsuffixes rest) : s.length < (joinDot (l :: rest)).length := by
  have h1 := mem_nsuffixes_length s rest hs
  have hr : rest ≠ [] := by rintro rfl; simp [nsuffixes] at hs
  rw [joinDot_cons_length l rest hr]
  omega

theorem mem_nsuffixes_ne_nil (s : GoStr) :
    ∀ ls : List GoStr, s ∈ nsuffixes ls → s ≠ [] := by
  intro ls
  induction ls with
  | nil => simp [nsuffixes]
  | cons l rest ih =>
    intro hs
    unfold nsuffixes at hs
    by_cases h : joinDot (l :: rest) = []
    · rw [if_pos h] at hs; exact ih hs
    · rw [if_neg h] at hs
      rcases List.mem_cons.mp hs with h1 | h1
      · subst h1; exact h
      · exact ih h1

theorem plainEncLabels_length (ls : List GoStr) :
    (plainEncLabels ls).length = labelsLen ls + 1 := by
  induction ls with
  | nil => rfl
  | cons l rest ih => simp [plainEncLabels, labelsLen] at ih ⊢; omega

theorem labelsLen_joinDot (ls : List GoStr) (h : ls ≠ []) :
    labelsLen ls = (joinDot ls).length + 1 := by
  induction ls with
  | nil => exact absurd rfl h
  | cons l rest ih =>
    cases rest with
    | nil => simp [labelsLen, joinDot]
    | cons r rs =>
      have := ih (by simp)
      rw [joinDot_cons_length l (r :: rs) (by simp)]
      simp [labelsLen] at this ⊢
      omega

/-! ### Compression-map lemmas -/

theorem cmapFind_cons (s0 s : GoStr) (v : Nat) (cmap : CMap) :
    cmapFind ((s0, v) :: cmap) s = if s0 = s then some v else cmapFind cmap s := rfl

theorem cmapFind_isSome_cons (k : GoStr) (v : Nat) (cmap : CMap) (s : GoStr)
    (h : (cmapFind cmap s).isSome) : (cmapFind ((k, v) :: cmap) s).isSome := by
  rw [cmapFind_cons]
  by_cases he : k = s
  · simp [he]
  · rw [if_neg he]
    exact h

theorem encLabels_no_hit :
    ∀ (ls : List GoStr) (buf : List Nat) (cmap : CMap),
      (∀ s ∈ nsuffixes ls, cmapFind cmap s = none) →
      (∀ l ∈ ls, l.length ≤ 63) →
      ∃ cmap', encLabels ls buf cmap =
          .ok (buf ++ plainEncLabels (ls.filter (fun l => l ≠ [])), cmap') ∧
        (∀ s, (cmapFind cmap' s).isSome →
          s ∈ nsuffixes ls ∨ (cmapFind cmap s).isSome) ∧
        (∀ s, (cmapFind cmap s).isSome → (cmapFind cmap' s).isSome) ∧
        (∀ s ∈ nsuffixes ls, (cmapFind cmap' s).isSome) := by
  intro ls
  induction ls with
  | nil =>
    intro buf cmap _ _
    exact ⟨cmap, by simp [encLabels, plainEncLabels], fun s h => .inr h,
      fun s h => h, by simp [nsuffixes]⟩
  | cons l rest ih =>
    intro buf cmap hmiss hlen
    by_cases h0 : joinDot (l :: rest) = []
    · -- the whole remaining name is empty: l = [] and rest = []
      rcases joinDot_cons_eq_nil l rest h0 with ⟨hl, hr⟩
      subst hl; subst hr
      refine ⟨cmap, ?_, fun s h => .inr h, fun s h => h, ?_⟩
      · simp [encLabels, plainEncLabels, h0]
      · simp [nsuffixes, h0]
    · have hs0 : joinDot (l :: rest) ∈ nsuffixes (l :: rest) := by
        unfold nsuffixes; rw [if_neg h0]; exact List.mem_cons_self _ _
      have hfind : cmapFind cmap (joinDot (l :: rest)) = none := hmiss _ hs0
      have hrest_miss : ∀ s ∈ nsuffixes rest,
          cmapFind ((joinDot (l :: rest), buf.length) :: cmap) s = none := by
        intro s hs
        rw [cmapFind_cons]
        rw [if_neg ?_]
        · exact hmiss s (by unfold nsuffixes; rw [if_neg h0]; exact List.mem_cons_of_mem _ hs)
        · intro heq
          have := mem_nsuffixes_lt s l rest hs
          rw [← heq] at this
          omega
      have hl63 : l.length ≤ 63 := hlen l (List.mem_cons_self _ _)
      have hrest_len : ∀ l' ∈ rest, l'.length ≤ 63 :=
        fun l' h => hlen l' (List.mem_cons_of_mem _ h)
      have hhead : (cmapFind ((joinDot (l :: rest), buf.length) :: cmap)
          (joinDot (l :: rest))).isSome := by
        rw [cmapFind_cons, if_pos rfl]
        rfl
      by_cases hle : l.length > 0
      · -- nonempty label: it is written
        obtain ⟨cmap', heq, hprop, hmono, hcomp⟩ :=
          ih (buf ++ l.length :: l) ((joinDot (l :: rest), buf.length) :: cmap)
            hrest_miss hrest_len
        refine ⟨cmap', ?_, ?_, ?_, ?_⟩
        · unfold encLabels
          rw [if_neg h0, hfind]
          simp only []
          rw [if_neg (by omega), if_pos hle, heq]
          have hfil : (l :: rest).filter (fun l => l ≠ []) =
              l :: rest.filter (fun l => l ≠ []) := by
            rw [List.filter_cons]
            simp [List.ne_nil_of_length_pos hle]
          rw [hfil]
          simp [plainEncLabels]
        · intro s hsome
          rcases hprop s hsome with h | h
          · exact .inl (by unfold nsuffixes; rw [if_neg h0]; exact List.mem_cons_of_mem _ h)
          · rw [cmapFind_cons] at h
            by_cases he : joinDot (l :: rest) = s
            · exact .inl (by rw [← he]; exact hs0)
            · rw [if_neg he] at h; exact .inr h
        · exact fun s h => hmono s (cmapFind_isSome_cons _ _ _ _ h)
        · intro s hs
          unfold nsuffixes at hs
          rw [if_neg h0] at hs
          rcases List.mem_cons.mp hs with h | h
          · subst h; exact hmono _ hhead
          · exact hcomp s h
      · -- empty label with nonempty suffix: recorded but not written
        have hl0 : l.length = 0 := by omega
        obtain ⟨cmap', heq, hprop, hmono, hcomp⟩ :=
          ih buf ((joinDot (l :: rest), buf.length) :: cmap) hrest_miss hrest_len
        refine ⟨cmap', ?_, ?_, ?_, ?_⟩
        · unfold encLabels
          rw [if_neg h0, hfind]
          simp only []
          rw [if_neg (by omega), if_neg hle, heq]
          have hfil : (l :: rest).filter (fun l => l ≠ []) =
              rest.filter (fun l => l ≠ []) := by
            rw [List.filter_cons]
            have : l = [] := List.length_eq_zero.mp hl0
            simp [this]
          rw [hfil]
        · intro s hsome
          rcases hprop s hsome with h | h
          · exact .inl (by unfold nsuffixes; rw [if_neg h0]; exact List.mem_cons_of_mem _ h)
          · rw [cmapFind_cons] at h
            by_cases he : joinDot (l :: rest) = s
            · exact .inl (by rw [← he]; exact hs0)
            · rw [if_neg he] at h; exact .inr h
        · exact fun s h => hmono s (cmapFind_isSome_cons _ _ _ _ h)
        · intro s hs
          unfold nsuffixes at hs
          rw [if_neg h0] at hs
          rcases List.mem_cons.mp hs with h | h
          · subst h; exact hmono _ hhead
          · exact hcomp s h

/-! ### Decoder error lemmas -/

theorem land_192_of_le_63 (b : Nat) (h : b ≤ 63) : b &&& 192 = 0 := by
  interval_cases b <;> decide

theorem c9_label64 (data : List Nat) (offset jumps : Nat) (h1 : offset < data.length)
    (h2 : jumps ≤ 5) (h3 : data.getD offset 0 = 64) :
    decodeDNSNameWithCompression data offset jumps = .error .LabelTooLong := by
  unfold decodeDNSNameWithCompression decodeAux
  have hl : data.length + 1 = data.length + 1 := rfl
  rw [if_neg (by omega), if_neg (by omega)]
  have : ∃ f, data.length + 1 = f + 1 := ⟨data.length, rfl⟩
  obtain ⟨f, hf⟩ := this
  rw [hf]
  unfold decodeLoop
  rw [if_neg (by omega)]
  simp only [h3]
  rw [if_neg (by decide)]
  rw [if_neg (by decide)]
  rw [if_pos (by decide)]

theorem decodeLoop_accumulates (data : List Nat)
    (follow : Nat → Except DNSErr (GoStr × Nat)) :
    ∀ (i total : Nat), AccumulatesOver data i total →
      ∀ (fuel : Nat) (parts : List GoStr), data.length - i < fuel →
        decodeLoop fuel data follow i parts total = .error .DomainTooLong := by
  intro i total hacc
  induction hacc with
  | hit i total L hi hb h1 h63 hbound hover =>
    intro fuel parts hfuel
    obtain ⟨f, hf⟩ : ∃ f, fuel = f + 1 := ⟨fuel - 1, by omega⟩
    rw [hf]
    unfold decodeLoop
    rw [if_neg (by omega)]
    simp only [hb]
    rw [if_neg (by rw [land_192_of_le_63 L h63]; omega)]
    rw [if_neg (by omega)]
    rw [if_neg (by omega)]
    rw [if_neg (by omega)]
    rw [if_pos (by omega)]
  | step i total L hi hb h1 h63 hbound hle _ ih =>
    intro fuel parts hfuel
    obtain ⟨f, hf⟩ : ∃ f, fuel = f + 1 := ⟨fuel - 1, by omega⟩
    rw [hf]
    unfold decodeLoop
    rw [if_neg (by omega)]
    simp only [hb]
    rw [if_neg (by rw [land_192_of_le_63 L h63]; omega)]
    rw [if_neg (by omega)]
    rw [if_neg (by omega)]
    rw [if_neg (by omega)]
    rw [if_neg (by omega)]
    have : i + L + 1 = i + 1 + L := by omega
    rw [this]
    have : total + L + 1 = total + L + 1 := rfl
    exact ih f (parts ++ [(data.drop (i + 1)).take L]) (by omega)

theorem c9_accumulated (data : List Nat) (offset jumps : Nat) (h2 : jumps ≤ 5)
    (hacc : AccumulatesOver data offset 0) :
    decodeDNSNameWithCompression data offset jumps = .error .DomainTooLong := by
  have h1 : offset < data.length := by cases hacc <;> assumption
  unfold decodeDNSNameWithCompression decodeAux
  rw [if_neg (by omega), if_neg (by omega)]
  exact decodeLoop_accumulates data _ offset 0 hacc (data.length + 1) [] (by omega)

/-! ### Decoder cursor lemmas -/

theorem decodeLoop_nameSpan (data : List Nat)
    (follow : Nat → Except DNSErr (GoStr × Nat)) :
    ∀ (fuel i total : Nat) (parts : List GoStr) (name : GoStr) (next : Nat),
      decodeLoop fuel data follow i parts total = .ok (name, next) →
      ∀ f', data.length - i < f' → nameSpanAux f' data i total = some next := by
  intro fuel
  induction fuel with
  | zero => intro i total parts name next h; exact absurd h (by simp [decodeLoop])
  | succ g ih =>
    intro i total parts name next h f' hf'
    obtain ⟨g', hg'⟩ : ∃ g', f' = g' + 1 := ⟨f' - 1, by omega⟩
    rw [hg']
    unfold decodeLoop at h
    unfold nameSpanAux
    by_cases h1 : data.length ≤ i
    · rw [if_pos h1] at h; exact absurd h (by simp)
    · rw [if_neg h1] at h
      rw [if_neg h1]
      simp only [] at h ⊢
      by_cases h2 : data.getD i 0 &&& 192 = 192
      · rw [if_pos h2] at h
        rw [if_pos h2]
        by_cases h3 : data.length ≤ i + 1
        · rw [if_pos h3] at h; exact absurd h (by simp)
        · rw [if_neg h3] at h
          rw [if_neg h3]
          cases hfol : follow (read16 data i &&& 16383) with
          | error e => rw [hfol] at h; exact absurd h (by simp)
          | ok r =>
            obtain ⟨pn, rest⟩ := r
            rw [hfol] at h
            simp only [] at h
            have : next = i + 2 := by
              cases h' : (joinDot (if pn = [] then parts else parts ++ [pn]), i + 2) with
              | _ => simp at h; exact h.2.symm
            rw [this]
      · rw [if_neg h2] at h
        rw [if_neg h2]
        by_cases h3 : data.getD i 0 = 0
        · rw [if_pos h3] at h
          rw [if_pos h3]
          simp at h
          simp [h.2]
        · rw [if_neg h3] at h
          rw [if_neg h3]
          by_cases h4 : data.getD i 0 > 63
          · rw [if_pos h4] at h; exact absurd h (by simp)
          · rw [if_neg h4] at h
            rw [if_neg h4]
            by_cases h5 : i + 1 + data.getD i 0 > data.length
            · rw [if_pos h5] at h; exact absurd h (by simp)
            · rw [if_neg h5] at h
              rw [if_neg h5]
              by_cases h6 : total + data.getD i 0 + 1 > 253
              · rw [if_pos h6] at h; exact absurd h (by simp)
              · rw [if_neg h6] at h
                rw [if_neg h6]
                exact ih (i + data.getD i 0 + 1) _ _ name next h g' (by omega)

/-- C7: for every successful name decode, the returned next offset is the
position immediately after the name's own encoding in the section where it
was found — `nameSpan` scans only that section, stopping one past the zero
terminator or two past the first compression pointer, never entering a
followed pointer's target. -/
theorem c7_next_offset_section_local (data : List Nat) (offset jumps : Nat) (name : GoStr) (next : Nat)
    (h : decodeDNSNameWithCompression data offset jumps = .ok (name, next)) :
    nameSpan data offset = some next := by
  unfold decodeDNSNameWithCompression decodeAux at h
  by_cases h1 : data.length ≤ offset
  · rw [if_pos h1] at h; exact absurd h (by simp)
  · rw [if_neg h1] at h
    by_cases h2 : 5 < jumps
    · rw [if_pos h2] at h; exact absurd h (by simp)
    · rw [if_neg h2] at h
      exact decodeLoop_nameSpan data _ _ offset 0 [] name next h (data.length + 1) (by omega)

/-! ### Plain-encoder equivalence -/

theorem encLabels_plain_equiv :
    ∀ (ls : List GoStr) (buf : List Nat) (cmap : CMap),
      (∀ s ∈ nsuffixes ls, cmapFind cmap s = none) →
      (encLabels ls buf cmap).map (·.1) = encodeDNSNamePlain.encPlainLabels ls buf := by
  intro ls
  induction ls with
  | nil => intro buf cmap _; rfl
  | cons l rest ih =>
    intro buf cmap hmiss
    by_cases h0 : joinDot (l :: rest) = []
    · rcases joinDot_cons_eq_nil l rest h0 with ⟨hl, hr⟩
      subst hl; subst hr
      simp only [encLabels, h0, if_pos]
      rfl
    · have hs0 : joinDot (l :: rest) ∈ nsuffixes (l :: rest) := by
        unfold nsuffixes; rw [if_neg h0]; exact List.mem_cons_self _ _
      have hfind : cmapFind cmap (joinDot (l :: rest)) = none := hmiss _ hs0
      have hrest_miss : ∀ s ∈ nsuffixes rest,
          cmapFind ((joinDot (l :: rest), buf.length) :: cmap) s = none := by
        intro s hs
        rw [cmapFind_cons]
        rw [if_neg ?_]
        · exact hmiss s (by unfold nsuffixes; rw [if_neg h0]; exact List.mem_cons_of_mem _ hs)
        · intro heq
          have := mem_nsuffixes_lt s l rest hs
          rw [← heq] at this
          omega
      unfold encLabels encodeDNSNamePlain.encPlainLabels
      rw [if_neg h0, hfind]
      simp only []
      by_cases h63 : l.length > 63
      · rw [if_pos h63, if_pos h63]
        rfl
      · rw [if_neg h63, if_neg h63]
        by_cases hz : l.length > 0
        · rw [if_pos hz, if_neg (by omega)]
          exact ih _ _ hrest_miss
        · rw [if_neg hz, if_pos (by omega)]
          exact ih _ _ hrest_miss

theorem c10_encodeDNSName_plain_equiv (name : GoStr) (buf : List Nat) :
    encodeDNSName name buf = encodeDNSNamePlain name buf := by
  unfold encodeDNSName encodeDNSNameWithCompression encodeDNSNamePlain
  by_cases h : name.length > 253
  · rw [if_pos h, if_pos h]; rfl
  · rw [if_neg h, if_neg h]
    exact encLabels_plain_equiv (splitOnDot name) buf [] (fun s _ => rfl)

theorem encPlainLabels_ok :
    ∀ (ls : List GoStr) (buf out : List Nat),
      encodeDNSNamePlain.encPlainLabels ls buf = .ok out →
      out = buf ++ plainEncLabels (ls.filter (fun l => l ≠ [])) := by
  intro ls
  induction ls with
  | nil =>
    intro buf out h
    simp [encodeDNSNamePlain.encPlainLabels] at h
    simp [← h, plainEncLabels]
  | cons l rest ih =>
    intro buf out h
    unfold encodeDNSNamePlain.encPlainLabels at h
    by_cases h63 : l.length > 63
    · rw [if_pos h63] at h; exact absurd h (by simp)
    · rw [if_neg h63] at h
      by_cases hz : l.length = 0
      · rw [if_pos hz] at h
        have hl : l = [] := List.length_eq_zero.mp hz
        rw [ih buf out h, List.filter_cons]
        simp [hl]
      · rw [if_neg hz] at h
        have := ih _ _ h
        rw [this, List.filter_cons]
        have hl : l ≠ [] := fun he => hz (by simp [he])
        simp [plainEncLabels, hl]

theorem encodeDNSName_ok (name : GoStr) (buf out : List Nat)
    (h : encodeDNSName name buf = .ok out) : out = buf ++ plainName name := by
  rw [c10_encodeDNSName_plain_equiv] at h
  unfold encodeDNSNamePlain at h
  by_cases h253 : name.length > 253
  · rw [if_pos h253] at h; exact absurd h (by simp)
  · rw [if_neg h253] at h
    exact encPlainLabels_ok (splitOnDot name) buf out h

/-! ### Plain-name decoding -/

theorem getD_at_append (pre rest : List Nat) (k : Nat) :
    (pre ++ rest).getD (pre.length + k) 0 = rest.getD k 0 := by
  rw [List.getD_append_right pre rest 0 (pre.length + k) (by omega)]
  congr 1
  omega

theorem getD_at_length (pre : List Nat) (b : Nat) (rest : List Nat) :
    (pre ++ b :: rest).getD pre.length 0 = b := by
  have := getD_at_append pre (b :: rest) 0
  simpa using this

theorem labelsLen_cons (l : GoStr) (rest : List GoStr) :
    labelsLen (l :: rest) = l.length + 1 + labelsLen rest := by
  simp [labelsLen]

theorem land_192_ne_of_le_63 (b : Nat) (h63 : b ≤ 63) : ¬ (b &&& 192 = 192) := by
  rw [land_192_of_le_63 b h63]
  omega

theorem drop_cons_at_length (pre : List Nat) (b : Nat) (rest : List Nat) :
    (pre ++ b :: rest).drop (pre.length + 1) = rest := by
  have h : pre ++ b :: rest = (pre ++ [b]) ++ rest := by simp
  have h2 : pre.length + 1 = (pre ++ [b]).length := by simp
  rw [h, h2, List.drop_left]

theorem decodeLoop_plain :
    ∀ (ls : List GoStr) (pre post : List Nat) (parts : List GoStr) (total fuel : Nat)
      (follow : Nat → Except DNSErr (GoStr × Nat)),
      (∀ l ∈ ls, 1 ≤ l.length ∧ l.length ≤ 63) →
      total + labelsLen ls ≤ 253 →
      ls.length < fuel →
      decodeLoop fuel (pre ++ plainEncLabels ls ++ post) follow pre.length parts total =
        .ok (joinDot (parts ++ ls), pre.length + (plainEncLabels ls).length) := by
  intro ls
  induction ls with
  | nil =>
    intro pre post parts total fuel follow _ _ hfuel
    obtain ⟨f, hf⟩ : ∃ f, fuel = f + 1 := ⟨fuel - 1, by omega⟩
    rw [hf]
    have hshape : pre ++ plainEncLabels [] ++ post = pre ++ 0 :: post := by
      simp [plainEncLabels]
    rw [hshape]
    unfold decodeLoop
    rw [if_neg (by simp only [List.length_append, List.length_cons]; omega)]
    simp only []
    rw [getD_at_length pre 0 post]
    rw [if_neg (by decide), if_pos rfl]
    simp [plainEncLabels]
  | cons l rest ih =>
    intro pre post parts total fuel follow hwf htot hfuel
    obtain ⟨f, hf⟩ : ∃ f, fuel = f + 1 := ⟨fuel - 1, by omega⟩
    rw [hf]
    obtain ⟨hl1, hl63⟩ := hwf l (List.mem_cons_self _ _)
    have hshape : pre ++ plainEncLabels (l :: rest) ++ post =
        pre ++ l.length :: (l ++ (plainEncLabels rest ++ post)) := by
      simp [plainEncLabels]
    rw [hshape]
    unfold decodeLoop
    rw [if_neg (by simp only [List.length_append, List.length_cons]; omega)]
    simp only []
    rw [getD_at_length pre l.length (l ++ (plainEncLabels rest ++ post))]
    rw [if_neg (land_192_ne_of_le_63 l.length hl63)]
    rw [if_neg (by omega)]
    rw [if_neg (by omega)]
    rw [if_neg (by simp only [List.length_append, List.length_cons]; omega)]
    rw [if_neg (by rw [labelsLen_cons] at htot; omega)]
    rw [drop_cons_at_length pre l.length (l ++ (plainEncLabels rest ++ post))]
    rw [List.take_left l (plainEncLabels rest ++ post)]
    have hre : pre ++ l.length :: (l ++ (plainEncLabels rest ++ post)) =
        (pre ++ l.length :: l) ++ plainEncLabels rest ++ post := by simp
    have hpos : pre.length + l.length + 1 = (pre ++ l.length :: l).length := by
      simp
      omega
    rw [hre, hpos]
    rw [ih (pre ++ l.length :: l) post (parts ++ [l]) (total + l.length + 1) f follow
      (fun l' h => hwf l' (List.mem_cons_of_mem _ h))
      (by rw [labelsLen_cons] at htot; omega)
      (by simp only [List.length_cons] at hfuel; omega)]
    congr 2
    · simp
    · simp only [List.length_append, List.length_cons]
      simp [plainEncLabels]
      omega

/-! ### Well-formed names and field round-trips -/

theorem wfName_labels (n : GoStr) (hwf : wfName n) :
    ∀ l ∈ neLabels n, 1 ≤ l.length ∧ l.length ≤ 63 := by
  intro l hl
  have hmem : l ∈ splitOnDot n := List.mem_of_mem_filter hl
  obtain ⟨_, h2⟩ := hwf
  rcases h2 with h2 | h2
  · subst h2
    simp [splitOnDot] at hmem
    subst hmem
    simp [neLabels, splitOnDot] at hl
  · exact h2 l hmem

theorem wfName_join (n : GoStr) (hwf : wfName n) : joinDot (neLabels n) = n := by
  obtain ⟨_, h2⟩ := hwf
  rcases h2 with h2 | h2
  · subst h2
    rfl
  · unfold neLabels
    rw [List.filter_eq_self.mpr]
    · exact joinDot_splitOnDot n
    · intro l hl
      have := h2 l hl
      simp
      intro he
      subst he
      simp at this

theorem length_le_labelsLen (ls : List GoStr) : ls.length ≤ labelsLen ls := by
  induction ls with
  | nil => simp [labelsLen]
  | cons l rest ih =>
    rw [labelsLen_cons]
    simp only [List.length_cons]
    omega

theorem wfName_labelsLen (n : GoStr) (hwf : wfName n) :
    labelsLen (neLabels n) ≤ 253 := by
  obtain ⟨h1, h2⟩ := hwf
  rcases h2 with h2 | h2
  · subst h2
    simp [neLabels, splitOnDot, labelsLen]
  · unfold neLabels
    rw [List.filter_eq_self.mpr]
    · rw [labelsLen_joinDot (splitOnDot n) (splitOnDot_ne_nil n), joinDot_splitOnDot]
      omega
    · intro l hl
      have := h2 l hl
      simp
      intro he
      subst he
      simp at this

theorem plainName_pos (n : GoStr) : 1 ≤ (plainName n).length := by
  unfold plainName
  rw [plainEncLabels_length]
  omega

theorem decodeDNSName_plain (n : GoStr) (pre post : List Nat) (hwf : wfName n) :
    decodeDNSName (pre ++ plainName n ++ post) pre.length =
      .ok (n, pre.length + (plainName n).length) := by
  unfold decodeDNSName decodeDNSNameWithCompression decodeAux
  have hp := plainName_pos n
  rw [if_neg (by simp only [List.length_append]; omega)]
  rw [if_neg (by omega)]
  unfold plainName
  rw [decodeLoop_plain (neLabels n) pre post [] 0 _ _ (wfName_labels n hwf)
    (by have := wfName_labelsLen n hwf; omega)
    (by
      have h1 := length_le_labelsLen (neLabels n)
      have h2 := plainEncLabels_length (neLabels n)
      simp only [List.length_append]
      omega)]
  rw [List.nil_append, wfName_join n hwf]

theorem read16_at_be16 (pre : List Nat) (v : Nat) (rest : List Nat) (hv : v < 65536) :
    read16 (pre ++ be16 v ++ rest) pre.length = v := by
  have hsh : pre ++ be16 v ++ rest = pre ++ ((v >>> 8) % 256 :: (v % 256 :: rest)) := by
    simp [be16]
  rw [hsh]
  unfold read16
  have h0 : (pre ++ ((v >>> 8) % 256 :: (v % 256 :: rest))).getD pre.length 0 =
      (v >>> 8) % 256 := getD_at_length _ _ _
  have h1 : (pre ++ ((v >>> 8) % 256 :: (v % 256 :: rest))).getD (pre.length + 1) 0 =
      v % 256 := by
    have := getD_at_append pre ((v >>> 8) % 256 :: (v % 256 :: rest)) 1
    simpa using this
  rw [h0, h1]
  rw [Nat.shiftRight_eq_div_pow]
  have hd : v / 2 ^ 8 < 256 := by omega
  rw [Nat.mod_eq_of_lt hd]
  omega

theorem read32_at_be32 (pre : List Nat) (v : Nat) (rest : List Nat) (hv : v < 4294967296) :
    read32 (pre ++ be32 v ++ rest) pre.length = v := by
  have hsh : pre ++ be32 v ++ rest = pre ++ ((v >>> 24) % 256 :: ((v >>> 16) % 256 ::
      ((v >>> 8) % 256 :: (v % 256 :: rest)))) := by
    simp [be32]
  rw [hsh]
  unfold read32
  have h0 := getD_at_length pre ((v >>> 24) % 256)
    ((v >>> 16) % 256 :: ((v >>> 8) % 256 :: (v % 256 :: rest)))
  have h1 := getD_at_append pre ((v >>> 24) % 256 :: ((v >>> 16) % 256 ::
    ((v >>> 8) % 256 :: (v % 256 :: rest)))) 1
  have h2 := getD_at_append pre ((v >>> 24) % 256 :: ((v >>> 16) % 256 ::
    ((v >>> 8) % 256 :: (v % 256 :: rest)))) 2
  have h3 := getD_at_append pre ((v >>> 24) % 256 :: ((v >>> 16) % 256 ::
    ((v >>> 8) % 256 :: (v % 256 :: rest)))) 3
  simp only [List.getD_cons_succ, List.getD_cons_zero] at h1 h2 h3
  rw [h0, h1, h2, h3]
  rw [Nat.shiftRight_eq_div_pow, Nat.shiftRight_eq_div_pow, Nat.shiftRight_eq_div_pow]
  have e24 : (2:Nat) ^ 24 = 16777216 := by norm_num
  have e16 : (2:Nat) ^ 16 = 65536 := by norm_num
  have e8 : (2:Nat) ^ 8 = 256 := by norm_num
  rw [e24, e16, e8]
  omega

/-! ### Compression misses under suffix-disjoint names -/

theorem wfName_le253 (n : GoStr) (hwf : wfName n) : ¬ (n.length > 253) := by
  obtain ⟨h1, _⟩ := hwf
  omega

theorem wfName_split63 (n : GoStr) (hwf : wfName n) :
    ∀ l ∈ splitOnDot n, l.length ≤ 63 := by
  intro l hl
  obtain ⟨_, h2⟩ := hwf
  rcases h2 with h2 | h2
  · subst h2
    simp [splitOnDot] at hl
    simp [hl]
  · exact (h2 l hl).2

theorem encodeName_no_hit (n : GoStr) (buf : List Nat) (cmap : CMap)
    (hwf : wfName n)
    (hmiss : ∀ s ∈ nameSufs n, cmapFind cmap s = none) :
    ∃ cmap', encodeDNSNameWithCompression n buf cmap = .ok (buf ++ plainName n, cmap') ∧
      (∀ s, (cmapFind cmap' s).isSome → s ∈ nameSufs n ∨ (cmapFind cmap s).isSome) ∧
      (∀ s ∈ nameSufs n, (cmapFind cmap' s).isSome) := by
  unfold encodeDNSNameWithCompression
  rw [if_neg (wfName_le253 n hwf)]
  obtain ⟨cmap', heq, hprop, _, hcomp⟩ :=
    encLabels_no_hit (splitOnDot n) buf cmap hmiss (wfName_split63 n hwf)
  exact ⟨cmap', heq, hprop, hcomp⟩

theorem noShareB_cons (n : GoStr) (ns : List GoStr) (h : noShareB (n :: ns) = true) :
    (∀ n' ∈ ns, ∀ s, s ∈ nameSufs n → s ∉ nameSufs n') ∧ noShareB ns = true := by
  unfold noShareB at h
  rw [Bool.and_eq_true] at h
  obtain ⟨h1, h2⟩ := h
  refine ⟨?_, h2⟩
  intro n' hn' s hs hs'
  rw [List.all_eq_true] at h1
  have ha := h1 n' hn'
  unfold disjointSufsB at ha
  rw [List.all_eq_true] at ha
  have hb := ha s hs
  simp at hb
  exact hb hs'

theorem encQuestions_plain :
    ∀ (qs : List Question) (buf : List Nat) (cmap : CMap),
      (∀ q ∈ qs, wfName q.Name) →
      (∀ q ∈ qs, ∀ s ∈ nameSufs q.Name, cmapFind cmap s = none) →
      noShareB (qs.map Question.Name) = true →
      ∃ cmap', encQuestions qs buf cmap = .ok (buf ++ qsecBytes qs, cmap') ∧
        (∀ s, (cmapFind cmap' s).isSome →
          (∃ q ∈ qs, s ∈ nameSufs q.Name) ∨ (cmapFind cmap s).isSome) := by
  intro qs
  induction qs with
  | nil =>
    intro buf cmap _ _ _
    exact ⟨cmap, by simp [encQuestions, qsecBytes], fun s h => .inr h⟩
  | cons q rest ih =>
    intro buf cmap hwf hmiss hns
    obtain ⟨hdisj, hns'⟩ := noShareB_cons q.Name (rest.map Question.Name) (by simpa using hns)
    obtain ⟨cmap1, henc, hprop1, _⟩ := encodeName_no_hit q.Name buf cmap
      (hwf q (List.mem_cons_self _ _)) (hmiss q (List.mem_cons_self _ _))
    have hmiss1 : ∀ q' ∈ rest, ∀ s ∈ nameSufs q'.Name, cmapFind cmap1 s = none := by
      intro q' hq' s hs
      cases hfind : cmapFind cmap1 s with
      | none => rfl
      | some v =>
        exfalso
        have hsome : (cmapFind cmap1 s).isSome := by rw [hfind]; rfl
        rcases hprop1 s hsome with h | h
        · exact hdisj q'.Name (by simp; exact ⟨q', hq', rfl⟩) s h hs
        · rw [hmiss q' (List.mem_cons_of_mem _ hq') s hs] at h
          exact absurd h (by simp)
    obtain ⟨cmap2, henc2, hprop2⟩ :=
      ih (buf ++ plainName q.Name ++ be16 q.Type' ++ be16 q.Class) cmap1
        (fun q' h => hwf q' (List.mem_cons_of_mem _ h)) hmiss1 hns'
    refine ⟨cmap2, ?_, ?_⟩
    · unfold encQuestions
      rw [henc]
      simp only []
      rw [henc2]
      simp [qsecBytes, qEnc]
    · intro s hsome
      rcases hprop2 s hsome with h | h
      · obtain ⟨q', hq', hs⟩ := h
        exact .inl ⟨q', List.mem_cons_of_mem _ hq', hs⟩
      · rcases hprop1 s h with h2 | h2
        · exact .inl ⟨q, List.mem_cons_self _ _, h2⟩
        · exact .inr h2

theorem encAnswers_plain :
    ∀ (rrs : List ResourceRecord) (buf : List Nat) (cmap : CMap),
      (∀ rr ∈ rrs, wfName rr.Name) →
      (∀ rr ∈ rrs, ∀ s ∈ nameSufs rr.Name, cmapFind cmap s = none) →
      noShareB (rrs.map ResourceRecord.Name) = true →
      ∃ cmap', encAnswers rrs buf cmap = .ok (buf ++ asecBytes rrs, cmap') ∧
        (∀ s, (cmapFind cmap' s).isSome →
          (∃ rr ∈ rrs, s ∈ nameSufs rr.Name) ∨ (cmapFind cmap s).isSome) := by
  intro rrs
  induction rrs with
  | nil =>
    intro buf cmap _ _ _
    exact ⟨cmap, by simp [encAnswers, asecBytes], fun s h => .inr h⟩
  | cons rr rest ih =>
    intro buf cmap hwf hmiss hns
    obtain ⟨hdisj, hns'⟩ := noShareB_cons rr.Name (rest.map ResourceRecord.Name)
      (by simpa using hns)
    obtain ⟨cmap1, henc, hprop1, _⟩ := encodeName_no_hit rr.Name buf cmap
      (hwf rr (List.mem_cons_self _ _)) (hmiss rr (List.mem_cons_self _ _))
    have hmiss1 : ∀ rr' ∈ rest, ∀ s ∈ nameSufs rr'.Name, cmapFind cmap1 s = none := by
      intro rr' hrr' s hs
      cases hfind : cmapFind cmap1 s with
      | none => rfl
      | some v =>
        exfalso
        have hsome : (cmapFind cmap1 s).isSome := by rw [hfind]; rfl
        rcases hprop1 s hsome with h | h
        · exact hdisj rr'.Name (by simp; exact ⟨rr', hrr', rfl⟩) s h hs
        · rw [hmiss rr' (List.mem_cons_of_mem _ hrr') s hs] at h
          exact absurd h (by simp)
    obtain ⟨cmap2, henc2, hprop2⟩ :=
      ih (buf ++ plainName rr.Name ++ be16 rr.Type' ++ be16 rr.Class ++ be32 rr.TTL
            ++ be16 (rr.RData.length % 65536) ++ rr.RData) cmap1
        (fun rr' h => hwf rr' (List.mem_cons_of_mem _ h)) hmiss1 hns'
    refine ⟨cmap2, ?_, ?_⟩
    · unfold encAnswers
      rw [henc]
      simp only []
      rw [henc2]
      simp [asecBytes, rEnc]
    · intro s hsome
      rcases hprop2 s hsome with h | h
      · obtain ⟨rr', hrr', hs⟩ := h
        exact .inl ⟨rr', List.mem_cons_of_mem _ hrr', hs⟩
      · rcases hprop1 s h with h2 | h2
        · exact .inl ⟨rr, List.mem_cons_self _ _, h2⟩
        · exact .inr h2

theorem noShareB_append (ns1 ns2 : List GoStr) (h : noShareB (ns1 ++ ns2) = true) :
    noShareB ns1 = true ∧ noShareB ns2 = true ∧
    (∀ a ∈ ns1, ∀ b ∈ ns2, ∀ s, s ∈ nameSufs a → s ∉ nameSufs b) := by
  induction ns1 with
  | nil => exact ⟨rfl, h, by simp⟩
  | cons n rest ih =>
    rw [List.cons_append] at h
    obtain ⟨hdisj, htail⟩ := noShareB_cons n (rest ++ ns2) h
    obtain ⟨h1, h2, h3⟩ := ih htail
    refine ⟨?_, h2, ?_⟩
    · unfold noShareB
      rw [Bool.and_eq_true]
      refine ⟨?_, h1⟩
      rw [List.all_eq_true]
      intro n' hn'
      unfold disjointSufsB
      rw [List.all_eq_true]
      intro s hs
      simp
      exact hdisj n' (List.mem_append_left _ hn') s hs
    · intro a ha b hb s hs
      rcases List.mem_cons.mp ha with h4 | h4
      · subst h4
        exact hdisj b (List.mem_append_right _ hb) s hs
      · exact h3 a h4 b hb s hs

theorem marshal_message_plain (m : Message)
    (hwfq : ∀ q ∈ m.Questions, wfName q.Name)
    (hwfa : ∀ rr ∈ m.Answers, wfName rr.Name)
    (hns : noShareB (msgNames m) = true) :
    Message.MarshalBinary m =
      .ok (m.Header.marshal ++ qsecBytes m.Questions ++ asecBytes m.Answers) := by
  obtain ⟨hns1, hns2, hcross⟩ :=
    noShareB_append (m.Questions.map Question.Name) (m.Answers.map ResourceRecord.Name) hns
  obtain ⟨cmap1, henc1, hprop1⟩ := encQuestions_plain m.Questions m.Header.marshal []
    hwfq (fun q _ s _ => rfl) hns1
  have hmiss2 : ∀ rr ∈ m.Answers, ∀ s ∈ nameSufs rr.Name, cmapFind cmap1 s = none := by
    intro rr hrr s hs
    cases hfind : cmapFind cmap1 s with
    | none => rfl
    | some v =>
      exfalso
      have hsome : (cmapFind cmap1 s).isSome := by rw [hfind]; rfl
      rcases hprop1 s hsome with h | h
      · obtain ⟨q, hq, hqs⟩ := h
        exact hcross q.Name (by simp; exact ⟨q, hq, rfl⟩) rr.Name
          (by simp; exact ⟨rr, hrr, rfl⟩) s hqs hs
      · simp [cmapFind] at h
  obtain ⟨cmap2, henc2, _⟩ :=
    encAnswers_plain m.Answers (m.Header.marshal ++ qsecBytes m.Questions) cmap1
      hwfa hmiss2 hns2
  unfold Message.MarshalBinary
  rw [henc1]
  simp only [bind, Except.bind]
  rw [henc2]

/-! ### Section decoding of uncompressed messages -/

theorem decQuestions_plain :
    ∀ (qs : List Question) (pre post : List Nat),
      (∀ q ∈ qs, wfName q.Name ∧ q.Type' < 65536 ∧ q.Class < 65536) →
      decQuestions (pre ++ qsecBytes qs ++ post) pre.length qs.length =
        .ok (qs, pre.length + (qsecBytes qs).length) := by
  intro qs
  induction qs with
  | nil =>
    intro pre post _
    simp [decQuestions, qsecBytes]
  | cons q rest ih =>
    intro pre post hwf
    obtain ⟨hqwf, hT, hC⟩ := hwf q (List.mem_cons_self _ _)
    have hshape : pre ++ qsecBytes (q :: rest) ++ post =
        pre ++ plainName q.Name ++ (be16 q.Type' ++ be16 q.Class ++ (qsecBytes rest ++ post)) := by
      simp [qsecBytes, qEnc]
    unfold decQuestions
    simp only [List.length_cons]
    rw [hshape]
    rw [decodeDNSName_plain q.Name pre
      (be16 q.Type' ++ be16 q.Class ++ (qsecBytes rest ++ post)) hqwf]
    simp only []
    rw [if_neg (by
      simp only [List.length_append, be16, List.length_cons, List.length_nil]
      omega)]
    -- type and class reads
    have hT2 : read16 (pre ++ plainName q.Name ++
        (be16 q.Type' ++ be16 q.Class ++ (qsecBytes rest ++ post)))
        (pre.length + (plainName q.Name).length) = q.Type' := by
      have hsh2 : pre ++ plainName q.Name ++
          (be16 q.Type' ++ be16 q.Class ++ (qsecBytes rest ++ post)) =
          (pre ++ plainName q.Name) ++ be16 q.Type' ++ (be16 q.Class ++ (qsecBytes rest ++ post)) := by
        simp
      have hpos : pre.length + (plainName q.Name).length = (pre ++ plainName q.Name).length := by
        simp
      rw [hsh2, hpos]
      exact read16_at_be16 _ _ _ hT
    have hC2 : read16 (pre ++ plainName q.Name ++
        (be16 q.Type' ++ be16 q.Class ++ (qsecBytes rest ++ post)))
        (pre.length + (plainName q.Name).length + 2) = q.Class := by
      have hsh2 : pre ++ plainName q.Name ++
          (be16 q.Type' ++ be16 q.Class ++ (qsecBytes rest ++ post)) =
          (pre ++ plainName q.Name ++ be16 q.Type') ++ be16 q.Class ++ (qsecBytes rest ++ post) := by
        simp
      have hpos : pre.length + (plainName q.Name).length + 2 =
          (pre ++ plainName q.Name ++ be16 q.Type').length := by
        simp [be16]
        omega
      rw [hsh2, hpos]
      exact read16_at_be16 _ _ _ hC
    rw [hT2, hC2]
    -- recursive call at the next question
    have hsh3 : pre ++ plainName q.Name ++
        (be16 q.Type' ++ be16 q.Class ++ (qsecBytes rest ++ post)) =
        (pre ++ qEnc q) ++ qsecBytes rest ++ post := by
      simp [qEnc]
    have hpos3 : pre.length + (plainName q.Name).length + 4 = (pre ++ qEnc q).length := by
      simp [qEnc, be16]
      omega
    rw [hsh3, hpos3, ih (pre ++ qEnc q) post (fun q' h => hwf q' (List.mem_cons_of_mem _ h))]
    simp only []
    congr 2
    simp [qsecBytes, qEnc, be16]
    omega

theorem decAnswers_plain :
    ∀ (rrs : List ResourceRecord) (pre post : List Nat),
      (∀ rr ∈ rrs, wfName rr.Name ∧ rr.Type' < 65536 ∧ rr.Class < 65536 ∧
        rr.TTL < 4294967296 ∧ rr.RData.length < 65536) →
      decAnswers (pre ++ asecBytes rrs ++ post) pre.length rrs.length =
        .ok (rrs.map (fun rr => { rr with RDLength := rr.RData.length }),
             pre.length + (asecBytes rrs).length) := by
  intro rrs
  induction rrs with
  | nil =>
    intro pre post _
    simp [decAnswers, asecBytes]
  | cons rr rest ih =>
    intro pre post hwf
    obtain ⟨hqwf, hT, hC, hTTL, hRD⟩ := hwf rr (List.mem_cons_self _ _)
    have hshape : pre ++ asecBytes (rr :: rest) ++ post =
        pre ++ plainName rr.Name ++ (be16 rr.Type' ++ be16 rr.Class ++ be32 rr.TTL
          ++ be16 (rr.RData.length % 65536) ++ rr.RData ++ (asecBytes rest ++ post)) := by
      simp [asecBytes, rEnc]
    unfold decAnswers
    simp only [List.length_cons]
    rw [hshape]
    rw [decodeDNSName_plain rr.Name pre _ hqwf]
    simp only []
    set tail := be16 rr.Type' ++ be16 rr.Class ++ be32 rr.TTL
      ++ be16 (rr.RData.length % 65536) ++ rr.RData ++ (asecBytes rest ++ post) with htail
    have htail_len : tail.length = 10 + rr.RData.length + (asecBytes rest).length
        + post.length := by
      simp [htail, be16, be32]
      omega
    rw [if_neg (by
      simp only [List.length_append, htail_len]
      omega)]
    have hT2 : read16 (pre ++ plainName rr.Name ++ tail)
        (pre.length + (plainName rr.Name).length) = rr.Type' := by
      have hsh2 : pre ++ plainName rr.Name ++ tail =
          (pre ++ plainName rr.Name) ++ be16 rr.Type' ++ (be16 rr.Class ++ be32 rr.TTL
            ++ be16 (rr.RData.length % 65536) ++ rr.RData ++ (asecBytes rest ++ post)) := by
        simp [htail]
      have hpos : pre.length + (plainName rr.Name).length = (pre ++ plainName rr.Name).length := by
        simp
      rw [hsh2, hpos]
      exact read16_at_be16 _ _ _ hT
    have hC2 : read16 (pre ++ plainName rr.Name ++ tail)
        (pre.length + (plainName rr.Name).length + 2) = rr.Class := by
      have hsh2 : pre ++ plainName rr.Name ++ tail =
          (pre ++ plainName rr.Name ++ be16 rr.Type') ++ be16 rr.Class ++ (be32 rr.TTL
            ++ be16 (rr.RData.length % 65536) ++ rr.RData ++ (asecBytes rest ++ post)) := by
        simp [htail]
      have hpos : pre.length + (plainName rr.Name).length + 2 =
          (pre ++ plainName rr.Name ++ be16 rr.Type').length := by
        simp [be16]
        omega
      rw [hsh2, hpos]
      exact read16_at_be16 _ _ _ hC
    have hTTL2 : read32 (pre ++ plainName rr.Name ++ tail)
        (pre.length + (plainName rr.Name).length + 4) = rr.TTL := by
      have hsh2 : pre ++ plainName rr.Name ++ tail =
          (pre ++ plainName rr.Name ++ be16 rr.Type' ++ be16 rr.Class) ++ be32 rr.TTL
            ++ (be16 (rr.RData.length % 65536) ++ rr.RData ++ (asecBytes rest ++ post)) := by
        simp [htail]
      have hpos : pre.length + (plainName rr.Name).length + 4 =
          (pre ++ plainName rr.Name ++ be16 rr.Type' ++ be16 rr.Class).length := by
        simp [be16]
        omega
      rw [hsh2, hpos]
      exact read32_at_be32 _ _ _ hTTL
    have hRD2 : read16 (pre ++ plainName rr.Name ++ tail)
        (pre.length + (plainName rr.Name).length + 8) = rr.RData.length := by
      have hsh2 : pre ++ plainName rr.Name ++ tail =
          (pre ++ plainName rr.Name ++ be16 rr.Type' ++ be16 rr.Class ++ be32 rr.TTL)
            ++ be16 (rr.RData.length % 65536) ++ (rr.RData ++ (asecBytes rest ++ post)) := by
        simp [htail]
      have hpos : pre.length + (plainName rr.Name).length + 8 =
          (pre ++ plainName rr.Name ++ be16 rr.Type' ++ be16 rr.Class ++ be32 rr.TTL).length := by
        simp [be16, be32]
        omega
      rw [hsh2, hpos]
      rw [read16_at_be16 _ _ _ (by omega)]
      exact Nat.mod_eq_of_lt hRD
    rw [hT2, hC2, hTTL2, hRD2]
    rw [if_neg (by
      simp only [List.length_append, htail_len]
      omega)]
    have hslice : ((pre ++ plainName rr.Name ++ tail).drop
        (pre.length + (plainName rr.Name).length + 10)).take rr.RData.length = rr.RData := by
      have hsh2 : pre ++ plainName rr.Name ++ tail =
          (pre ++ plainName rr.Name ++ be16 rr.Type' ++ be16 rr.Class ++ be32 rr.TTL
            ++ be16 (rr.RData.length % 65536)) ++ (rr.RData ++ (asecBytes rest ++ post)) := by
        simp [htail]
      have hpos : pre.length + (plainName rr.Name).length + 10 =
          (pre ++ plainName rr.Name ++ be16 rr.Type' ++ be16 rr.Class ++ be32 rr.TTL
            ++ be16 (rr.RData.length % 65536)).length := by
        simp [be16, be32]
        omega
      rw [hsh2, hpos, List.drop_left]
      exact List.take_left _ _
    rw [hslice]
    have hsh3 : pre ++ plainName rr.Name ++ tail = (pre ++ rEnc rr) ++ asecBytes rest ++ post := by
      simp [htail, rEnc]
    have hpos3 : pre.length + (plainName rr.Name).length + 10 + rr.RData.length =
        (pre ++ rEnc rr).length := by
      simp [rEnc, be16, be32]
      omega
    rw [hsh3, hpos3, ih (pre ++ rEnc rr) post (fun rr' h => hwf rr' (List.mem_cons_of_mem _ h))]
    simp only [List.map_cons]
    have hoff : (pre ++ rEnc rr).length + (asecBytes rest).length =
        pre.length + (asecBytes (rr :: rest)).length := by
      simp [asecBytes]
      omega
    rw [hoff]

/-! ### Header and message round-trip -/

theorem marshal_length (h : MessageHeader) : h.marshal.length = 12 := by
  simp [MessageHeader.marshal]

theorem unmarshal_marshal (h : MessageHeader)
    (h1 : h.Id < 65536) (h2 : h.Flags < 65536) (h3 : h.QDCount < 65536)
    (h4 : h.ANCount < 65536) (h5 : h.NSCount < 65536) (h6 : h.ARCount < 65536) :
    MessageHeader.unmarshal h.marshal = .ok h := by
  unfold MessageHeader.unmarshal
  rw [if_neg (by rw [marshal_length]; omega)]
  unfold MessageHeader.marshal read16
  simp only [List.getD_cons_zero, List.getD_cons_succ]
  rw [Nat.shiftRight_eq_div_pow, Nat.shiftRight_eq_div_pow, Nat.shiftRight_eq_div_pow,
    Nat.shiftRight_eq_div_pow, Nat.shiftRight_eq_div_pow, Nat.shiftRight_eq_div_pow]
  have e8 : (2:Nat) ^ 8 = 256 := by norm_num
  rw [e8]
  congr 1
  cases h with
  | mk Id Flags QDCount ANCount NSCount ARCount =>
    simp only [MessageHeader.mk.injEq]
    simp at h1 h2 h3 h4 h5 h6
    refine ⟨by omega, by omega, by omega, by omega, by omega, by omega⟩

theorem c1_amended_core (m : Message) (hwf : wfMessage m)
    (hns : noShareB (msgNames m) = true) :
    Message.MarshalBinary m =
      .ok (m.Header.marshal ++ qsecBytes m.Questions ++ asecBytes m.Answers) ∧
    Message.UnmarshalBinary
        (m.Header.marshal ++ qsecBytes m.Questions ++ asecBytes m.Answers) =
      .ok (normalizeMsg m) := by
  obtain ⟨hId, hFl, hNS, hAR, hQD, hAN, hQlen, hAlen, hQ, hA⟩ := hwf
  have henc := marshal_message_plain m (fun q h => (hQ q h).1) (fun rr h => (hA rr h).1) hns
  refine ⟨henc, ?_⟩
  unfold Message.UnmarshalBinary
  rw [if_neg (by
    simp only [List.length_append, marshal_length]
    omega)]
  have htake : (m.Header.marshal ++ qsecBytes m.Questions ++ asecBytes m.Answers).take 12 =
      m.Header.marshal := by
    rw [List.append_assoc, ← marshal_length m.Header]
    exact List.take_left _ _
  rw [htake, unmarshal_marshal m.Header hId hFl (by omega) (by omega) hNS hAR]
  simp only []
  rw [hQD]
  have h12 : (12 : Nat) = m.Header.marshal.length := (marshal_length _).symm
  rw [h12]
  rw [decQuestions_plain m.Questions m.Header.marshal (asecBytes m.Answers) hQ]
  simp only []
  rw [hAN]
  have hoff : m.Header.marshal.length + (qsecBytes m.Questions).length =
      (m.Header.marshal ++ qsecBytes m.Questions).length := by
    simp
  have hdata2 : m.Header.marshal ++ qsecBytes m.Questions ++ asecBytes m.Answers =
      (m.Header.marshal ++ qsecBytes m.Questions) ++ asecBytes m.Answers ++ [] := by
    simp
  rw [hoff, hdata2]
  rw [decAnswers_plain m.Answers (m.Header.marshal ++ qsecBytes m.Questions) [] hA]
  simp only []
  rfl

/-! ### Encoding extends the buffer -/

theorem encLabels_extends :
    ∀ (ls : List GoStr) (buf buf' : List Nat) (cmap cmap' : CMap),
      encLabels ls buf cmap = .ok (buf', cmap') → ∃ d, buf' = buf ++ d := by
  intro ls
  induction ls with
  | nil =>
    intro buf buf' cmap cmap' h
    simp [encLabels] at h
    exact ⟨[0], h.1.symm⟩
  | cons l rest ih =>
    intro buf buf' cmap cmap' h
    unfold encLabels at h
    by_cases h0 : joinDot (l :: rest) = []
    · rw [if_pos h0] at h
      exact ih buf buf' cmap cmap' h
    · rw [if_neg h0] at h
      cases hfind : cmapFind cmap (joinDot (l :: rest)) with
      | some off =>
        rw [hfind] at h
        simp at h
        exact ⟨_, h.1.symm⟩
      | none =>
        rw [hfind] at h
        simp only [] at h
        by_cases h63 : l.length > 63
        · rw [if_pos h63] at h; exact absurd h (by simp)
        · rw [if_neg h63] at h
          by_cases hz : l.length > 0
          · rw [if_pos hz] at h
            obtain ⟨d, hd⟩ := ih _ _ _ _ h
            exact ⟨l.length :: l ++ d, by simp [hd]⟩
          · rw [if_neg hz] at h
            exact ih _ _ _ _ h

theorem encodeName_extends (n : GoStr) (buf buf' : List Nat) (cmap cmap' : CMap)
    (h : encodeDNSNameWithCompression n buf cmap = .ok (buf', cmap')) :
    ∃ d, buf' = buf ++ d := by
  unfold encodeDNSNameWithCompression at h
  by_cases h253 : n.length > 253
  · rw [if_pos h253] at h; exact absurd h (by simp)
  · rw [if_neg h253] at h
    exact encLabels_extends _ _ _ _ _ h

theorem encQuestions_extends :
    ∀ (qs : List Question) (buf buf' : List Nat) (cmap cmap' : CMap),
      encQuestions qs buf cmap = .ok (buf', cmap') → ∃ d, buf' = buf ++ d := by
  intro qs
  induction qs with
  | nil =>
    intro buf buf' cmap cmap' h
    simp [encQuestions] at h
    exact ⟨[], by simp [h.1]⟩
  | cons q rest ih =>
    intro buf buf' cmap cmap' h
    unfold encQuestions at h
    cases henc : encodeDNSNameWithCompression q.Name buf cmap with
    | error e => rw [henc] at h; exact absurd h (by simp)
    | ok r =>
      obtain ⟨buf1, cmap1⟩ := r
      rw [henc] at h
      simp only [] at h
      obtain ⟨d1, hd1⟩ := encodeName_extends q.Name buf buf1 cmap cmap1 henc
      obtain ⟨d2, hd2⟩ := ih _ _ _ _ h
      exact ⟨d1 ++ be16 q.Type' ++ be16 q.Class ++ d2, by simp [hd2, hd1]⟩

theorem encAnswers_extends :
    ∀ (rrs : List ResourceRecord) (buf buf' : List Nat) (cmap cmap' : CMap),
      encAnswers rrs buf cmap = .ok (buf', cmap') → ∃ d, buf' = buf ++ d := by
  intro rrs
  induction rrs with
  | nil =>
    intro buf buf' cmap cmap' h
    simp [encAnswers] at h
    exact ⟨[], by simp [h.1]⟩
  | cons rr rest ih =>
    intro buf buf' cmap cmap' h
    unfold encAnswers at h
    cases henc : encodeDNSNameWithCompression rr.Name buf cmap with
    | error e => rw [henc] at h; exact absurd h (by simp)
    | ok r =>
      obtain ⟨buf1, cmap1⟩ := r
      rw [henc] at h
      simp only [] at h
      obtain ⟨d1, hd1⟩ := encodeName_extends rr.Name buf buf1 cmap cmap1 henc
      obtain ⟨d2, hd2⟩ := ih _ _ _ _ h
      exact ⟨d1 ++ be16 rr.Type' ++ be16 rr.Class ++ be32 rr.TTL
        ++ be16 (rr.RData.length % 65536) ++ rr.RData ++ d2, by simp [hd2, hd1]⟩

theorem marshal_header_bytes (m : Message) (b : List Nat)
    (h : Message.MarshalBinary m = .ok b) : ∃ d, b = m.Header.marshal ++ d := by
  unfold Message.MarshalBinary at h
  cases h1 : encQuestions m.Questions m.Header.marshal [] with
  | error e => rw [h1] at h; exact absurd h (by simp [bind, Except.bind])
  | ok r =>
    obtain ⟨buf1, cmap1⟩ := r
    rw [h1] at h
    simp only [bind, Except.bind] at h
    cases h2 : encAnswers m.Answers buf1 cmap1 with
    | error e => rw [h2] at h; exact absurd h (by simp)
    | ok r2 =>
      obtain ⟨buf2, cmap2⟩ := r2
      rw [h2] at h
      simp at h
      obtain ⟨d1, hd1⟩ := encQuestions_extends _ _ _ _ _ h1
      obtain ⟨d2, hd2⟩ := encAnswers_extends _ _ _ _ _ h2
      exact ⟨d1 ++ d2, by rw [← h, hd2, hd1]; simp⟩

/-! ### Compression hits shorten the encoding -/

theorem encLabels_hit_shorter :
    ∀ (ls : List GoStr) (buf : List Nat) (cmap : CMap),
      (∀ l ∈ ls, 1 ≤ l.length ∧ l.length ≤ 63) →
      (∃ s ∈ nsuffixes ls, (cmapFind cmap s).isSome) →
      ∃ buf' cmap', encLabels ls buf cmap = .ok (buf', cmap') ∧
        buf'.length < buf.length + (plainEncLabels ls).length := by
  intro ls
  induction ls with
  | nil =>
    intro buf cmap _ hhit
    obtain ⟨s, hs, _⟩ := hhit
    simp [nsuffixes] at hs
  | cons l rest ih =>
    intro buf cmap hwf hhit
    obtain ⟨hl1, hl63⟩ := hwf l (List.mem_cons_self _ _)
    have h0 : joinDot (l :: rest) ≠ [] := by
      intro h
      obtain ⟨hl, _⟩ := joinDot_cons_eq_nil l rest h
      rw [hl] at hl1
      simp at hl1
    unfold encLabels
    rw [if_neg h0]
    cases hfind : cmapFind cmap (joinDot (l :: rest)) with
    | some off =>
      refine ⟨_, _, rfl, ?_⟩
      simp only [List.length_append, List.length_cons, List.length_nil]
      have := plainEncLabels_length (l :: rest)
      rw [labelsLen_cons] at this
      omega
    | none =>
      simp only []
      rw [if_neg (by omega), if_pos (by omega)]
      have hhit' : ∃ s ∈ nsuffixes rest,
          (cmapFind ((joinDot (l :: rest), buf.length) :: cmap) s).isSome := by
        obtain ⟨s, hs, hsome⟩ := hhit
        unfold nsuffixes at hs
        rw [if_neg h0] at hs
        rcases List.mem_cons.mp hs with h | h
        · subst h
          rw [hfind] at hsome
          exact absurd hsome (by simp)
        · exact ⟨s, h, cmapFind_isSome_cons _ _ _ _ hsome⟩
      obtain ⟨buf', cmap', heq, hlt⟩ :=
        ih (buf ++ l.length :: l) ((joinDot (l :: rest), buf.length) :: cmap)
          (fun l' h => hwf l' (List.mem_cons_of_mem _ h)) hhit'
      refine ⟨buf', cmap', heq, ?_⟩
      simp only [List.length_append, List.length_cons] at hlt ⊢
      have h1 := plainEncLabels_length (l :: rest)
      have h2 := plainEncLabels_length rest
      rw [labelsLen_cons] at h1
      omega

theorem encodeName_hit_shorter (n : GoStr) (buf : List Nat) (cmap : CMap)
    (hwf : wfName n) (hne : n ≠ [])
    (hhit : ∃ s ∈ nameSufs n, (cmapFind cmap s).isSome) :
    ∃ buf' cmap', encodeDNSNameWithCompression n buf cmap = .ok (buf', cmap') ∧
      buf'.length < buf.length + (plainName n).length := by
  unfold encodeDNSNameWithCompression
  rw [if_neg (wfName_le253 n hwf)]
  have hlab : ∀ l ∈ splitOnDot n, 1 ≤ l.length ∧ l.length ≤ 63 := by
    obtain ⟨_, h2⟩ := hwf
    rcases h2 with h2 | h2
    · exact absurd h2 hne
    · exact h2
  obtain ⟨buf', cmap', heq, hlt⟩ := encLabels_hit_shorter (splitOnDot n) buf cmap hlab hhit
  refine ⟨buf', cmap', heq, ?_⟩
  have : plainName n = plainEncLabels (splitOnDot n) := by
    unfold plainName neLabels
    rw [List.filter_eq_self.mpr]
    intro l hl
    have := (hlab l hl).1
    simp
    intro he
    subst he
    simp at this
  rw [this]
  exact hlt

theorem nameSufs_nil : nameSufs [] = [] := by decide

theorem two_name_compression_shorter (hd : MessageHeader) (q : Question)
    (rr : ResourceRecord) (hwq : wfName q.Name) (hwr : wfName rr.Name)
    (hshare : ∃ s, s ∈ nameSufs q.Name ∧ s ∈ nameSufs rr.Name) :
    ∃ b qb rb, Message.MarshalBinary ⟨hd, [q], [rr]⟩ = .ok b ∧
      Question.MarshalBinary q = .ok qb ∧ ResourceRecord.MarshalBinary rr = .ok rb ∧
      b.length < 12 + qb.length + rb.length := by
  obtain ⟨s, hs1, hs2⟩ := hshare
  have hrne : rr.Name ≠ [] := by
    intro h
    rw [h, nameSufs_nil] at hs2
    exact absurd hs2 (by simp)
  obtain ⟨cmap1, henc1, _, hcomp1⟩ :=
    encodeName_no_hit q.Name hd.marshal [] hwq (fun s _ => rfl)
  obtain ⟨buf2, cmap2, henc2, hlt2⟩ :=
    encodeName_hit_shorter rr.Name
      (hd.marshal ++ plainName q.Name ++ be16 q.Type' ++ be16 q.Class) cmap1 hwr hrne
      ⟨s, hs2, hcomp1 s hs1⟩
  obtain ⟨cmapq, hencq, _, _⟩ := encodeName_no_hit q.Name [] [] hwq (fun s _ => rfl)
  obtain ⟨cmapr, hencr, _, _⟩ := encodeName_no_hit rr.Name [] [] hwr (fun s _ => rfl)
  refine ⟨buf2 ++ be16 rr.Type' ++ be16 rr.Class ++ be32 rr.TTL
      ++ be16 (rr.RData.length % 65536) ++ rr.RData,
    plainName q.Name ++ be16 q.Type' ++ be16 q.Class,
    plainName rr.Name ++ be16 rr.Type' ++ be16 rr.Class ++ be32 rr.TTL
      ++ be16 (rr.RData.length % 65536) ++ rr.RData, ?_, ?_, ?_, ?_⟩
  · have hq1 : encQuestions [q] hd.marshal [] =
        .ok (hd.marshal ++ plainName q.Name ++ be16 q.Type' ++ be16 q.Class, cmap1) := by
      unfold encQuestions
      rw [henc1]
      simp [encQuestions]
    have ha1 : encAnswers [rr]
        (hd.marshal ++ plainName q.Name ++ be16 q.Type' ++ be16 q.Class) cmap1 =
        .ok (buf2 ++ be16 rr.Type' ++ be16 rr.Class ++ be32 rr.TTL
          ++ be16 (rr.RData.length % 65536) ++ rr.RData, cmap2) := by
      unfold encAnswers
      rw [henc2]
      simp [encAnswers]
    unfold Message.MarshalBinary
    simp only [bind, Except.bind]
    rw [hq1]
    simp only []
    rw [ha1]
  · unfold Question.MarshalBinary encodeDNSName
    rw [hencq]
    simp [bind, Except.bind, Except.map]
  · unfold ResourceRecord.MarshalBinary encodeDNSName
    rw [hencr]
    simp [bind, Except.bind, Except.map]
  · simp only [List.length_append, be16, be32, List.length_cons, List.length_nil,
      marshal_length] at hlt2 ⊢
    omega

/-! ### Structural lemmas for labels, joins, and the annotated map -/

theorem joinDot_cons_ne (l : GoStr) (rest : List GoStr) (h : rest ≠ []) :
    joinDot (l :: rest) = l ++ 46 :: joinDot rest := by
  cases rest with
  | nil => exact absurd rfl h
  | cons r rs => rfl

theorem joinDot_ne_nil (ls : List GoStr) (hne : ls ≠ [])
    (hlab : ∀ l ∈ ls, 1 ≤ l.length) : joinDot ls ≠ [] := by
  cases ls with
  | nil => exact absurd rfl hne
  | cons l rest =>
    cases rest with
    | nil =>
      have := hlab l (List.mem_cons_self _ _)
      simp [joinDot]
      intro h
      rw [h] at this
      simp at this
    | cons r rs =>
      rw [joinDot_cons_ne l (r :: rs) (by simp)]
      have := hlab l (List.mem_cons_self _ _)
      intro h
      rw [List.append_eq_nil] at h
      simp at h

theorem joinDot_append_flatten (xs ys : List GoStr) (h : ys ≠ []) :
    joinDot (xs ++ [joinDot ys]) = joinDot (xs ++ ys) := by
  induction xs with
  | nil => simp [joinDot]
  | cons x xs ih =>
    rw [List.cons_append, List.cons_append]
    rw [joinDot_cons_ne x (xs ++ [joinDot ys]) (by simp)]
    rw [joinDot_cons_ne x (xs ++ ys) (by simp [h])]
    rw [ih]

theorem labelBytes_append (a b : List GoStr) :
    labelBytes (a ++ b) = labelBytes a ++ labelBytes b := by
  induction a with
  | nil => simp [labelBytes]
  | cons l rest ih => simp [labelBytes, ih]

theorem labelBytes_length (ls : List GoStr) : (labelBytes ls).length = labelsLen ls := by
  induction ls with
  | nil => simp [labelBytes, labelsLen]
  | cons l rest ih =>
    simp [labelBytes, labelsLen] at ih ⊢
    omega

theorem plainEncLabels_eq_labelBytes (ls : List GoStr) :
    plainEncLabels ls = labelBytes ls ++ [0] := by
  induction ls with
  | nil => rfl
  | cons l rest ih => simp [plainEncLabels, labelBytes, ih]

theorem labelsLen_append (a b : List GoStr) :
    labelsLen (a ++ b) = labelsLen a + labelsLen b := by
  simp [labelsLen]

theorem cmapFindD_cons (k : GoStr) (v : Nat × Nat) (c : CMapD) (s : GoStr) :
    cmapFindD ((k, v) :: c) s = if k = s then some v else cmapFindD c s := rfl

theorem cmapFind_stripD (c : CMapD) (s : GoStr) :
    cmapFind (stripD c) s = (cmapFindD c s).map (fun v => v.1) := by
  induction c with
  | nil => rfl
  | cons e rest ih =>
    obtain ⟨k, v⟩ := e
    by_cases h : k = s
    · simp [stripD, cmapFind, cmapFindD, h]
    · simp only [stripD, List.map_cons] at ih ⊢
      simp [cmapFind, cmapFindD, h]
      simpa [stripD] using ih

theorem mem_nsuffixes_drop (ls : List GoStr) (i : Nat) (hi : i < ls.length)
    (h : joinDot (List.drop i ls) ≠ []) : joinDot (List.drop i ls) ∈ nsuffixes ls := by
  induction ls generalizing i with
  | nil => simp at hi
  | cons l rest ih =>
    cases i with
    | zero =>
      simp only [List.drop_zero] at h ⊢
      unfold nsuffixes
      rw [if_neg h]
      exact List.mem_cons_self _ _
    | succ i' =>
      simp only [List.drop_succ_cons] at h ⊢
      have hmem := ih i' (by simp at hi; omega) h
      unfold nsuffixes
      by_cases h0 : joinDot (l :: rest) = []
      · rw [if_pos h0]; exact hmem
      · rw [if_neg h0]; exact List.mem_cons_of_mem _ hmem

theorem findHitD_cons (rest : List GoStr) (k : GoStr) (v : Nat × Nat) (c : CMapD)
    (hk : ∀ s ∈ nsuffixes rest, s ≠ k) :
    findHitD rest ((k, v) :: c) = findHitD rest c := by
  induction rest with
  | nil => rfl
  | cons r rs ih =>
    unfold findHitD
    have hsub : ∀ s ∈ nsuffixes rs, s ≠ k := by
      intro s hs
      refine hk s ?_
      unfold nsuffixes
      by_cases h0 : joinDot (r :: rs) = []
      · rw [if_pos h0]; exact hs
      · rw [if_neg h0]; exact List.mem_cons_of_mem _ hs
    by_cases h0 : joinDot (r :: rs) = []
    · rw [if_pos h0, if_pos h0]
      exact ih hsub
    · rw [if_neg h0, if_neg h0]
      have hne : joinDot (r :: rs) ≠ k := by
        refine hk _ ?_
        unfold nsuffixes
        rw [if_neg h0]
        exact List.mem_cons_self _ _
      rw [cmapFindD_cons, if_neg (fun he => hne he.symm)]
      cases cmapFindD c (joinDot (r :: rs)) with
      | some od => rfl
      | none => exact ih hsub

/-! ### Pointer-byte arithmetic -/

theorem and_16383_of_le (o : Nat) (h : o ≤ 16383) : o &&& 16383 = o := by
  have : (16383 : Nat) = 2 ^ 14 - 1 := by norm_num
  rw [this]
  exact and_mask_of_lt (by omega)

theorem lor_49152_lt (o : Nat) (h : o ≤ 16383) : 49152 ||| o < 65536 := by
  have hb : (49152 ||| o) &&& 65535 = 49152 ||| o := by
    apply Nat.eq_of_testBit_eq
    intro i
    rw [Nat.testBit_land, Nat.testBit_lor]
    by_cases hi : i < 16
    · have h65 : (65535 : Nat).testBit i = true := by interval_cases i <;> decide
      simp [h65]
    · have hpow : (2:Nat) ^ 16 ≤ 2 ^ i := Nat.pow_le_pow_right (by omega) (by omega)
      have hA : (49152 : Nat).testBit i = false :=
        Nat.testBit_lt_two_pow (by calc (49152:Nat) < 2 ^ 16 := by norm_num
          _ ≤ 2 ^ i := hpow)
      have hB : o.testBit i = false :=
        Nat.testBit_lt_two_pow (by calc o < 2 ^ 16 := by omega
          _ ≤ 2 ^ i := hpow)
      simp [hA, hB]
  calc 49152 ||| o = (49152 ||| o) &&& 65535 := hb.symm
  _ ≤ 65535 := Nat.and_le_right
  _ < 65536 := by omega

theorem lor_49152_and_16383 (o : Nat) (h : o ≤ 16383) : (49152 ||| o) &&& 16383 = o := by
  have h14 : (16383 : Nat) = 2 ^ 14 - 1 := by norm_num
  apply Nat.eq_of_testBit_eq
  intro i
  rw [Nat.testBit_land, Nat.testBit_lor, h14, Nat.testBit_two_pow_sub_one]
  by_cases hi : i < 14
  · have h49 : (49152 : Nat).testBit i = false := by
      interval_cases i <;> decide
    simp [h49, hi]
  · have ho : o.testBit i = false := by
      refine Nat.testBit_lt_two_pow ?_
      calc o < 2 ^ 14 := by omega
      _ ≤ 2 ^ i := Nat.pow_le_pow_right (by omega) (by omega)
    simp [ho, hi]

theorem lor_49152_shift8_and_192 (o : Nat) :
    ((49152 ||| o) >>> 8) &&& 192 = 192 := by
  apply Nat.eq_of_testBit_eq
  intro i
  rw [Nat.testBit_land, Nat.testBit_shiftRight, Nat.testBit_lor]
  by_cases h6 : i = 6
  · subst h6
    have : (49152 : Nat).testBit 14 = true := by decide
    simp [this]
  · by_cases h7 : i = 7
    · subst h7
      have : (49152 : Nat).testBit 15 = true := by decide
      simp [this]
    · have h192 : (192 : Nat).testBit i = false := by
        by_cases hlt : i < 8
        · interval_cases i <;> simp_all <;> decide
        · refine Nat.testBit_lt_two_pow ?_
          calc (192 : Nat) < 2 ^ 8 := by norm_num
          _ ≤ 2 ^ i := Nat.pow_le_pow_right (by omega) (by omega)
      simp [h192]

theorem hi_lo_recompose (P : Nat) (h : P < 65536) :
    ((P >>> 8) % 256) * 256 + P % 256 = P := by
  rw [Nat.shiftRight_eq_div_pow]
  have : P / 2 ^ 8 < 256 := by omega
  rw [Nat.mod_eq_of_lt this]
  omega

theorem ptrBytes_spec (o : Nat) (h : o ≤ 16383) :
    ptrBytes o = [(49152 ||| o) >>> 8, (49152 ||| o) % 256] ∧
    ((49152 ||| o) >>> 8) &&& 192 = 192 ∧
    ((49152 ||| o) >>> 8) * 256 + (49152 ||| o) % 256 = 49152 ||| o ∧
    (49152 ||| o) &&& 16383 = o := by
  have hlt := lor_49152_lt o h
  have hsh : (49152 ||| o) >>> 8 < 256 := by
    rw [Nat.shiftRight_eq_div_pow]
    omega
  refine ⟨?_, lor_49152_shift8_and_192 o, ?_, lor_49152_and_16383 o h⟩
  · unfold ptrBytes
    rw [and_16383_of_le o h, Nat.mod_eq_of_lt hsh]
  · have := hi_lo_recompose (49152 ||| o) hlt
    rw [Nat.mod_eq_of_lt hsh] at this
    exact this

/-! ### Map invariant extension -/

theorem entryOK_extend (buf delta : List Nat) (s : GoStr) (o d : Nat)
    (h : entryOK buf s o d) : entryOK (buf ++ delta) s o d := by
  intro ext f j hf hj
  have := h (delta ++ ext) f j hf hj
  rwa [← List.append_assoc] at this

theorem cmapInv_extend (buf delta : List Nat) (c : CMapD)
    (h : cmapInv buf c) : cmapInv (buf ++ delta) c := by
  intro s o d hfind
  exact entryOK_extend buf delta s o d (h s o d hfind)

/-! ### Decoding a run of plain labels, with arbitrary fuel and jump count -/

theorem decodeAux_plain (ls : List GoStr) (pre post : List Nat) (f j : Nat)
    (hlab : ∀ l ∈ ls, 1 ≤ l.length ∧ l.length ≤ 63)
    (hlen : labelsLen ls ≤ 253) (hj : j ≤ 5) (hf : 0 < f) :
    decodeAux f (pre ++ labelBytes ls ++ [0] ++ post) pre.length j =
      .ok (joinDot ls, pre.length + (labelBytes ls).length + 1) := by
  obtain ⟨f', hf'⟩ : ∃ f', f = f' + 1 := ⟨f - 1, by omega⟩
  subst hf'
  have hshape : pre ++ labelBytes ls ++ [0] ++ post = pre ++ plainEncLabels ls ++ post := by
    rw [plainEncLabels_eq_labelBytes]
    simp
  rw [hshape]
  unfold decodeAux
  have hplen : (plainEncLabels ls).length = labelsLen ls + 1 := plainEncLabels_length ls
  rw [if_neg (by simp only [List.length_append]; omega)]
  rw [if_neg (by omega)]
  rw [decodeLoop_plain ls pre post [] 0 _ _ hlab (by omega)
    (by
      have h1 := length_le_labelsLen ls
      simp only [List.length_append]
      omega)]
  rw [List.nil_append]
  congr 2
  rw [hplen, labelBytes_length]
  omega

/-! ### Decoding a run of plain labels ending in a compression pointer -/

theorem decodeLoop_labels_ptr :
    ∀ (ls1 : List GoStr) (pre post : List Nat) (parts : List GoStr) (total fuel : Nat)
      (follow : Nat → Except DNSErr (GoStr × Nat)) (o : Nat) (s2 : GoStr) (nx : Nat),
      (∀ l ∈ ls1, 1 ≤ l.length ∧ l.length ≤ 63) →
      total + labelsLen ls1 ≤ 253 →
      ls1.length < fuel →
      o ≤ 16383 →
      follow o = .ok (s2, nx) →
      s2 ≠ [] →
      decodeLoop fuel (pre ++ labelBytes ls1 ++ ptrBytes o ++ post) follow pre.length
          parts total =
        .ok (joinDot (parts ++ ls1 ++ [s2]), pre.length + (labelBytes ls1).length + 2) := by
  intro ls1
  induction ls1 with
  | nil =>
    intro pre post parts total fuel follow o s2 nx _ _ hfuel ho hfol hs2
    obtain ⟨f, hf⟩ : ∃ f, fuel = f + 1 := ⟨fuel - 1, by omega⟩
    subst hf
    obtain ⟨hpb, hand, hrec, htgt⟩ := ptrBytes_spec o ho
    have hshape : pre ++ labelBytes [] ++ ptrBytes o ++ post =
        pre ++ (49152 ||| o) >>> 8 :: ((49152 ||| o) % 256 :: post) := by
      rw [hpb]
      simp [labelBytes]
    rw [hshape]
    unfold decodeLoop
    rw [if_neg (by simp only [List.length_append, List.length_cons]; omega)]
    simp only []
    rw [getD_at_length pre _ _]
    rw [if_pos hand]
    rw [if_neg (by simp only [List.length_append, List.length_cons]; omega)]
    have hread : read16 (pre ++ (49152 ||| o) >>> 8 :: ((49152 ||| o) % 256 :: post))
        pre.length = 49152 ||| o := by
      unfold read16
      rw [getD_at_length pre _ _]
      have := getD_at_append pre ((49152 ||| o) >>> 8 :: ((49152 ||| o) % 256 :: post)) 1
      simp only [List.getD_cons_succ, List.getD_cons_zero] at this
      rw [this]
      exact hrec
    rw [hread, htgt, hfol]
    simp only []
    rw [if_neg hs2]
    simp [labelBytes]
  | cons l rest ih =>
    intro pre post parts total fuel follow o s2 nx hwf htot hfuel ho hfol hs2
    obtain ⟨f, hf⟩ : ∃ f, fuel = f + 1 := ⟨fuel - 1, by omega⟩
    subst hf
    obtain ⟨hl1, hl63⟩ := hwf l (List.mem_cons_self _ _)
    have hshape : pre ++ labelBytes (l :: rest) ++ ptrBytes o ++ post =
        pre ++ l.length :: (l ++ (labelBytes rest ++ ptrBytes o ++ post)) := by
      simp [labelBytes]
    rw [hshape]
    unfold decodeLoop
    rw [if_neg (by simp only [List.length_append, List.length_cons]; omega)]
    simp only []
    rw [getD_at_length pre l.length _]
    rw [if_neg (land_192_ne_of_le_63 l.length hl63)]
    rw [if_neg (by omega)]
    rw [if_neg (by omega)]
    rw [if_neg (by simp only [List.length_append, List.length_cons]; omega)]
    rw [if_neg (by rw [labelsLen_cons] at htot; omega)]
    rw [drop_cons_at_length pre l.length _]
    rw [List.take_left l _]
    have hre : pre ++ l.length :: (l ++ (labelBytes rest ++ ptrBytes o ++ post)) =
        (pre ++ l.length :: l) ++ labelBytes rest ++ ptrBytes o ++ post := by simp
    have hpos : pre.length + l.length + 1 = (pre ++ l.length :: l).length := by
      simp
      omega
    rw [hre, hpos]
    rw [ih (pre ++ l.length :: l) post (parts ++ [l]) (total + l.length + 1) f follow
      o s2 nx (fun l' h => hwf l' (List.mem_cons_of_mem _ h))
      (by rw [labelsLen_cons] at htot; omega)
      (by simp only [List.length_cons] at hfuel; omega) ho hfol hs2]
    congr 2
    · simp
    · simp only [List.length_append, List.length_cons]
      simp [labelBytes]
      omega

theorem decodeAux_labels_ptr (ls1 : List GoStr) (pre post : List Nat) (o : Nat)
    (s2 : GoStr) (fl j : Nat)
    (hlab : ∀ l ∈ ls1, 1 ≤ l.length ∧ l.length ≤ 63)
    (hlen : labelsLen ls1 ≤ 253) (ho : o ≤ 16383) (hs2 : s2 ≠ []) (hj : j ≤ 5)
    (hfol : ∃ nx, decodeAux fl (pre ++ labelBytes ls1 ++ ptrBytes o ++ post) o (j + 1) =
      .ok (s2, nx)) :
    decodeAux (fl + 1) (pre ++ labelBytes ls1 ++ ptrBytes o ++ post) pre.length j =
      .ok (joinDot (ls1 ++ [s2]), pre.length + (labelBytes ls1).length + 2) := by
  obtain ⟨nx, hfol⟩ := hfol
  unfold decodeAux
  rw [if_neg (by
    simp only [List.length_append, ptrBytes, List.length_cons, List.length_nil]
    omega)]
  rw [if_neg (by omega)]
  have := decodeLoop_labels_ptr ls1 pre post [] 0
    ((pre ++ labelBytes ls1 ++ ptrBytes o ++ post).length + 1)
    (fun ptr => decodeAux fl (pre ++ labelBytes ls1 ++ ptrBytes o ++ post) ptr (j + 1))
    o s2 nx hlab (by omega)
    (by
      have h1 := length_le_labelsLen ls1
      have h2 := labelBytes_length ls1
      simp only [List.length_append]
      omega)
    ho hfol hs2
  rw [this]
  rw [List.nil_append]

/-! ### Characterisation of the depth-annotated label walk -/

theorem encLabelsD_walk_none :
    ∀ (ls : List GoStr) (buf : List Nat) (c : CMapD) (td : Nat),
      (∀ l ∈ ls, 1 ≤ l.length ∧ l.length ≤ 63) →
      findHitD ls c = none →
      ∃ c2, encLabelsD td ls buf c = .ok (buf ++ labelBytes ls ++ [0], c2) ∧
        ∀ s o d, cmapFindD c2 s = some (o, d) →
          (∃ i, i < ls.length ∧ s = joinDot (List.drop i ls) ∧
            o = buf.length + (labelBytes (List.take i ls)).length ∧ d = td) ∨
          cmapFindD c s = some (o, d) := by
  intro ls
  induction ls with
  | nil =>
    intro buf c td _ _
    refine ⟨c, ?_, fun s o d h => .inr h⟩
    simp [encLabelsD, labelBytes]
  | cons l rest ih =>
    intro buf c td hwf hhit
    have hl1 := (hwf l (List.mem_cons_self _ _)).1
    have hl63 := (hwf l (List.mem_cons_self _ _)).2
    have hne : joinDot (l :: rest) ≠ [] :=
      joinDot_ne_nil (l :: rest) (by simp) (fun l' h => (hwf l' h).1)
    unfold findHitD at hhit
    rw [if_neg hne] at hhit
    cases hfd : cmapFindD c (joinDot (l :: rest)) with
    | some od => rw [hfd] at hhit; exact absurd hhit (by simp)
    | none =>
      rw [hfd] at hhit
      have hk : ∀ s ∈ nsuffixes rest, s ≠ joinDot (l :: rest) := by
        intro s hs he
        have := mem_nsuffixes_lt s l rest hs
        rw [he] at this
        omega
      have hhit' : findHitD rest ((joinDot (l :: rest), buf.length, td) :: c) = none := by
        rw [findHitD_cons rest _ _ c hk]
        exact hhit
      obtain ⟨c2, heq, hchar⟩ :=
        ih (buf ++ l.length :: l) ((joinDot (l :: rest), buf.length, td) :: c) td
          (fun l' h => hwf l' (List.mem_cons_of_mem _ h)) hhit'
      refine ⟨c2, ?_, ?_⟩
      · unfold encLabelsD
        rw [if_neg hne, hfd]
        simp only []
        rw [if_neg (by omega), if_pos (by omega), heq]
        congr 1
        congr 1
        simp [labelBytes]
      · intro s o d hfind2
        rcases hchar s o d hfind2 with ⟨i, hi, hs, ho, hd⟩ | hfind'
        · refine .inl ⟨i + 1, by simp only [List.length_cons]; omega, ?_, ?_, hd⟩
          · rw [List.drop_succ_cons]; exact hs
          · rw [List.take_succ_cons]
            have h1 : (labelBytes (l :: List.take i rest)).length =
                l.length + 1 + (labelBytes (List.take i rest)).length := by
              simp only [labelBytes, List.length_cons, List.length_append]
            have h2 : (buf ++ l.length :: l).length = buf.length + l.length + 1 := by
              simp only [List.length_append, List.length_cons]
              omega
            rw [h1]
            rw [h2] at ho
            omega
        · rw [cmapFindD_cons] at hfind'
          by_cases he : joinDot (l :: rest) = s
          · rw [if_pos he] at hfind'
            have hod : buf.length = o ∧ td = d := by
              simpa using hfind'
            refine .inl ⟨0, by simp, ?_, ?_, hod.2.symm⟩
            · rw [List.drop_zero, ← he]
            · simpa [labelBytes] using hod.1.symm
          · rw [if_neg he] at hfind'
            exact .inr hfind'

theorem encLabelsD_walk_hit :
    ∀ (ls : List GoStr) (buf : List Nat) (c : CMapD) (td o d : Nat),
      (∀ l ∈ ls, 1 ≤ l.length ∧ l.length ≤ 63) →
      findHitD ls c = some (o, d) →
      ∃ ls1 ls2 c2, ls = ls1 ++ ls2 ∧ ls2 ≠ [] ∧
        cmapFindD c (joinDot ls2) = some (o, d) ∧
        encLabelsD td ls buf c = .ok (buf ++ labelBytes ls1 ++ ptrBytes o, c2) ∧
        ∀ s o' d', cmapFindD c2 s = some (o', d') →
          (∃ i, i < ls1.length ∧ s = joinDot (List.drop i ls) ∧
            o' = buf.length + (labelBytes (List.take i ls)).length ∧ d' = td) ∨
          cmapFindD c s = some (o', d') := by
  intro ls
  induction ls with
  | nil =>
    intro buf c td o d _ hhit
    simp [findHitD] at hhit
  | cons l rest ih =>
    intro buf c td o d hwf hhit
    have hl1 := (hwf l (List.mem_cons_self _ _)).1
    have hl63 := (hwf l (List.mem_cons_self _ _)).2
    have hne : joinDot (l :: rest) ≠ [] :=
      joinDot_ne_nil (l :: rest) (by simp) (fun l' h => (hwf l' h).1)
    unfold findHitD at hhit
    rw [if_neg hne] at hhit
    cases hfd : cmapFindD c (joinDot (l :: rest)) with
    | some od =>
      rw [hfd] at hhit
      simp at hhit
      refine ⟨[], l :: rest, c, by simp, by simp, by rw [hfd, hhit], ?_,
        fun s o' d' h => .inr h⟩
      unfold encLabelsD
      rw [if_neg hne, hfd]
      simp only []
      rw [hhit]
      congr 2
      simp [labelBytes]
    | none =>
      rw [hfd] at hhit
      have hk : ∀ s ∈ nsuffixes rest, s ≠ joinDot (l :: rest) := by
        intro s hs he
        have := mem_nsuffixes_lt s l rest hs
        rw [he] at this
        omega
      have hhit' : findHitD rest ((joinDot (l :: rest), buf.length, td) :: c) =
          some (o, d) := by
        rw [findHitD_cons rest _ _ c hk]
        exact hhit
      obtain ⟨ls1', ls2, c2, hsplit, hls2, hfind2, heq, hchar⟩ :=
        ih (buf ++ l.length :: l) ((joinDot (l :: rest), buf.length, td) :: c) td o d
          (fun l' h => hwf l' (List.mem_cons_of_mem _ h)) hhit'
      have hfindc : cmapFindD c (joinDot ls2) = some (o, d) := by
        rw [cmapFindD_cons] at hfind2
        rw [if_neg ?_] at hfind2
        · exact hfind2
        · intro he
          have hdrop : List.drop ls1'.length rest = ls2 := by
            rw [hsplit]; exact List.drop_left _ _
          have hilen : ls1'.length < rest.length := by
            rw [hsplit]
            simp only [List.length_append]
            cases ls2 with
            | nil => exact absurd rfl hls2
            | cons a b => simp
          have hne2 : joinDot (List.drop ls1'.length rest) ≠ [] := by
            rw [hdrop]
            refine joinDot_ne_nil ls2 hls2 ?_
            intro l' h
            refine (hwf l' (List.mem_cons_of_mem _ ?_)).1
            rw [hsplit]
            exact List.mem_append_right ls1' h
          have hmem := mem_nsuffixes_drop rest ls1'.length hilen hne2
          rw [hdrop] at hmem
          have := mem_nsuffixes_lt (joinDot ls2) l rest hmem
          rw [← he] at this
          omega
      refine ⟨l :: ls1', ls2, c2, by rw [List.cons_append, ← hsplit], hls2, hfindc, ?_, ?_⟩
      · unfold encLabelsD
        rw [if_neg hne, hfd]
        simp only []
        rw [if_neg (by omega), if_pos (by omega), heq]
        congr 1
        congr 1
        simp [labelBytes]
      · intro s o' d' hfind3
        rcases hchar s o' d' hfind3 with ⟨i, hi, hs, ho, hd⟩ | hfind'
        · refine .inl ⟨i + 1, by simp only [List.length_cons]; omega, ?_, ?_, hd⟩
          · rw [List.drop_succ_cons]; exact hs
          · rw [List.take_succ_cons]
            have h1 : (labelBytes (l :: List.take i rest)).length =
                l.length + 1 + (labelBytes (List.take i rest)).length := by
              simp only [labelBytes, List.length_cons, List.length_append]
            have h2 : (buf ++ l.length :: l).length = buf.length + l.length + 1 := by
              simp only [List.length_append, List.length_cons]
              omega
            rw [h1]
            rw [h2] at ho
            omega
        · rw [cmapFindD_cons] at hfind'
          by_cases he : joinDot (l :: rest) = s
          · rw [if_pos he] at hfind'
            have hod : buf.length = o' ∧ td = d' := by
              simpa using hfind'
            refine .inl ⟨0, by simp, ?_, ?_, hod.2.symm⟩
            · rw [List.drop_zero, ← he]
            · simpa [labelBytes] using hod.1.symm
          · rw [if_neg he] at hfind'
            exact .inr hfind'

/-! ### Soundness of one name's encoding: output shape, map invariant,
decodability -/

theorem encNameD_sound (n : GoStr) (buf : List Nat) (c : CMapD) (hwf : wfName n) :
    ∃ B c2, encNameD n buf c = .ok (buf ++ B, c2) ∧ 1 ≤ B.length ∧
      (cmapInv buf c → nameOKD n c = true →
        cmapInv (buf ++ B) c2 ∧
        nameDepthD n c ≤ 5 ∧
        ∀ (ext : List Nat) (f j : Nat), nameDepthD n c < f → j + nameDepthD n c ≤ 5 →
          decodeAux f (buf ++ B ++ ext) buf.length j = .ok (n, buf.length + B.length)) := by
  unfold encNameD
  rw [if_neg (wfName_le253 n hwf)]
  by_cases hn : n = []
  · subst hn
    have hsplit0 : splitOnDot [] = [[]] := rfl
    have htd : nameDepthD [] c = 0 := rfl
    refine ⟨[0], c, ?_, by simp, ?_⟩
    · rw [hsplit0]
      unfold encLabelsD
      rw [if_pos (by rfl)]
      rfl
    · intro hinv _
      refine ⟨cmapInv_extend buf [0] c hinv, by rw [htd]; omega, ?_⟩
      intro ext f j hf hj
      rw [htd] at hf hj
      have hdata : buf ++ [0] ++ ext = buf ++ labelBytes [] ++ [0] ++ ext := by
        simp [labelBytes]
      rw [hdata]
      rw [decodeAux_plain [] buf ext f j (by simp) (by simp [labelsLen]) (by omega) hf]
      simp [joinDot, labelBytes]
  · have hlab : ∀ l ∈ splitOnDot n, 1 ≤ l.length ∧ l.length ≤ 63 := by
      obtain ⟨_, h2⟩ := hwf
      rcases h2 with h2 | h2
      · exact absurd h2 hn
      · exact h2
    have hjoin : joinDot (splitOnDot n) = n := joinDot_splitOnDot n
    have hlen : labelsLen (splitOnDot n) ≤ 253 := by
      rw [labelsLen_joinDot _ (splitOnDot_ne_nil n), hjoin]
      obtain ⟨h1, _⟩ := hwf
      omega
    cases hhit : findHitD (splitOnDot n) c with
    | none =>
      have htd : nameDepthD n c = 0 := by unfold nameDepthD; rw [hhit]
      obtain ⟨c2, heq, hchar⟩ :=
        encLabelsD_walk_none (splitOnDot n) buf c (nameDepthD n c) hlab hhit
      refine ⟨labelBytes (splitOnDot n) ++ [0], c2, ?_, by simp, ?_⟩
      · rw [heq]
        congr 1
        congr 1
        simp
      · intro hinv _
        refine ⟨?_, by rw [htd]; omega, ?_⟩
        · intro s o d hfind
          rcases hchar s o d hfind with ⟨i, hi, hs, ho, hd⟩ | hold
          · intro ext f j hf hj
            rw [hd, htd] at hf hj
            have htake : labelBytes (splitOnDot n) =
                labelBytes (List.take i (splitOnDot n)) ++
                  labelBytes (List.drop i (splitOnDot n)) := by
              rw [← labelBytes_append, List.take_append_drop]
            have hdata : buf ++ (labelBytes (splitOnDot n) ++ [0]) ++ ext =
                (buf ++ labelBytes (List.take i (splitOnDot n))) ++
                  labelBytes (List.drop i (splitOnDot n)) ++ [0] ++ ext := by
              rw [htake]
              simp
            rw [hdata]
            have hpos : o = (buf ++ labelBytes (List.take i (splitOnDot n))).length := by
              rw [ho]
              simp
            rw [hpos]
            rw [decodeAux_plain (List.drop i (splitOnDot n))
              (buf ++ labelBytes (List.take i (splitOnDot n))) ext f j
              (fun l h => hlab l (List.drop_subset i (splitOnDot n) h))
              (by
                rw [← List.take_append_drop i (splitOnDot n), labelsLen_append] at hlen
                omega)
              (by omega) (by omega)]
            exact ⟨_, by rw [hs]⟩
          · exact entryOK_extend buf (labelBytes (splitOnDot n) ++ [0]) s o d
              (hinv s o d hold)
        · intro ext f j hf hj
          rw [htd] at hf hj
          have hdata : buf ++ (labelBytes (splitOnDot n) ++ [0]) ++ ext =
              buf ++ labelBytes (splitOnDot n) ++ [0] ++ ext := by
            simp
          rw [hdata]
          rw [decodeAux_plain (splitOnDot n) buf ext f j hlab hlen (by omega) (by omega)]
          rw [hjoin]
          congr 2
          simp only [List.length_append, List.length_cons, List.length_nil]
          omega
    | some od =>
      obtain ⟨o, d⟩ := od
      have htd : nameDepthD n c = d + 1 := by unfold nameDepthD; rw [hhit]
      obtain ⟨ls1, ls2, c2, hsplit, hls2, hfindc, heq, hchar⟩ :=
        encLabelsD_walk_hit (splitOnDot n) buf c (nameDepthD n c) o d hlab hhit
      have hlab2 : ∀ l ∈ ls2, 1 ≤ l.length ∧ l.length ≤ 63 := by
        intro l h
        refine hlab l ?_
        rw [hsplit]
        exact List.mem_append_right ls1 h
      have hlab1 : ∀ l ∈ ls1, 1 ≤ l.length ∧ l.length ≤ 63 := by
        intro l h
        refine hlab l ?_
        rw [hsplit]
        exact List.mem_append_left ls2 h
      have hs2ne : joinDot ls2 ≠ [] := joinDot_ne_nil ls2 hls2 (fun l h => (hlab2 l h).1)
      have hlen1 : labelsLen ls1 ≤ 253 := by
        rw [hsplit, labelsLen_append] at hlen
        omega
      refine ⟨labelBytes ls1 ++ ptrBytes o, c2, ?_, by simp [ptrBytes], ?_⟩
      · rw [heq]
        congr 1
        congr 1
        simp
      · intro hinv hok
        have hok2 : o ≤ 16383 ∧ d + 1 ≤ 5 := by
          unfold nameOKD at hok
          rw [hhit] at hok
          simpa using hok
        have htgt : entryOK buf (joinDot ls2) o d := hinv _ _ _ hfindc
        refine ⟨?_, by rw [htd]; omega, ?_⟩
        · intro s o' d' hfind
          rcases hchar s o' d' hfind with ⟨i, hi, hs, ho', hd'⟩ | hold
          · intro ext f j hf hj
            rw [hd', htd] at hf hj
            obtain ⟨fl, hfl⟩ : ∃ fl, f = fl + 1 := ⟨f - 1, by omega⟩
            subst hfl
            have htake : List.take i (splitOnDot n) = List.take i ls1 := by
              rw [hsplit]
              exact List.take_append_of_le_length (by omega)
            have htkdr : labelBytes ls1 = labelBytes (List.take i ls1) ++
                labelBytes (List.drop i ls1) := by
              rw [← labelBytes_append, List.take_append_drop]
            have hdata : buf ++ (labelBytes ls1 ++ ptrBytes o) ++ ext =
                (buf ++ labelBytes (List.take i ls1)) ++ labelBytes (List.drop i ls1) ++
                  ptrBytes o ++ ext := by
              rw [htkdr]
              simp
            rw [hdata]
            have hfol : ∃ nx, decodeAux fl
                ((buf ++ labelBytes (List.take i ls1)) ++ labelBytes (List.drop i ls1) ++
                  ptrBytes o ++ ext) o (j + 1) = .ok (joinDot ls2, nx) := by
              have hdata2 : (buf ++ labelBytes (List.take i ls1)) ++
                  labelBytes (List.drop i ls1) ++ ptrBytes o ++ ext =
                  buf ++ (labelBytes ls1 ++ ptrBytes o ++ ext) := by
                rw [htkdr]
                simp
              rw [hdata2]
              exact htgt (labelBytes ls1 ++ ptrBytes o ++ ext) fl (j + 1)
                (by omega) (by omega)
            have hpos : o' = (buf ++ labelBytes (List.take i ls1)).length := by
              rw [ho', htake]
              simp
            rw [hpos]
            rw [decodeAux_labels_ptr (List.drop i ls1) (buf ++ labelBytes (List.take i ls1))
              ext o (joinDot ls2) fl j
              (fun l h => hlab1 l (List.drop_subset i ls1 h))
              (by
                rw [← List.take_append_drop i ls1, labelsLen_append] at hlen1
                omega)
              hok2.1 hs2ne (by omega) hfol]
            refine ⟨(buf ++ labelBytes (List.take i ls1)).length +
              (labelBytes (List.drop i ls1)).length + 2, ?_⟩
            have hname : joinDot (List.drop i ls1 ++ [joinDot ls2]) = s := by
              rw [hs]
              have hdrop : List.drop i (splitOnDot n) = List.drop i ls1 ++ ls2 := by
                rw [hsplit]
                exact List.drop_append_of_le_length (by omega)
              rw [hdrop]
              exact joinDot_append_flatten (List.drop i ls1) ls2 hls2
            rw [hname]
          · exact entryOK_extend buf (labelBytes ls1 ++ ptrBytes o) s o' d'
              (hinv s o' d' hold)
        · intro ext f j hf hj
          rw [htd] at hf hj
          obtain ⟨fl, hfl⟩ : ∃ fl, f = fl + 1 := ⟨f - 1, by omega⟩
          subst hfl
          have hdata : buf ++ (labelBytes ls1 ++ ptrBytes o) ++ ext =
              buf ++ labelBytes ls1 ++ ptrBytes o ++ ext := by
            simp
          rw [hdata]
          have hfol : ∃ nx, decodeAux fl
              (buf ++ labelBytes ls1 ++ ptrBytes o ++ ext) o (j + 1) =
              .ok (joinDot ls2, nx) := by
            have hdata2 : buf ++ labelBytes ls1 ++ ptrBytes o ++ ext =
                buf ++ (labelBytes ls1 ++ ptrBytes o ++ ext) := by
              simp
            rw [hdata2]
            exact htgt (labelBytes ls1 ++ ptrBytes o ++ ext) fl (j + 1) (by omega) (by omega)
          rw [decodeAux_labels_ptr ls1 buf ext o (joinDot ls2) fl j hlab1 hlen1
            hok2.1 hs2ne (by omega) hfol]
          congr 2
          · rw [← hjoin, hsplit]
            exact joinDot_append_flatten ls1 ls2 hls2
          · simp only [List.length_append, ptrBytes, List.length_cons, List.length_nil]
            omega

/-! ### The annotated shadow projects to the real encoder -/

theorem encLabelsD_strip :
    ∀ (ls : List GoStr) (buf : List Nat) (c : CMapD) (td : Nat),
      encLabels ls buf (stripD c) =
        (encLabelsD td ls buf c).map (fun r => (r.1, stripD r.2)) := by
  intro ls
  induction ls with
  | nil => intro buf c td; rfl
  | cons l rest ih =>
    intro buf c td
    unfold encLabels encLabelsD
    by_cases h0 : joinDot (l :: rest) = []
    · rw [if_pos h0, if_pos h0]
      exact ih buf c td
    · rw [if_neg h0, if_neg h0]
      rw [cmapFind_stripD]
      cases hfd : cmapFindD c (joinDot (l :: rest)) with
      | some od =>
        simp only [Option.map_some']
        rfl
      | none =>
        simp only [Option.map_none']
        by_cases h63 : l.length > 63
        · rw [if_pos h63, if_pos h63]
          rfl
        · rw [if_neg h63, if_neg h63]
          by_cases hz : l.length > 0
          · rw [if_pos hz, if_pos hz]
            exact ih (buf ++ l.length :: l) ((joinDot (l :: rest), buf.length, td) :: c) td
          · rw [if_neg hz, if_neg hz]
            exact ih buf ((joinDot (l :: rest), buf.length, td) :: c) td

theorem encNameD_strip (n : GoStr) (buf : List Nat) (c : CMapD) :
    encodeDNSNameWithCompression n buf (stripD c) =
      (encNameD n buf c).map (fun r => (r.1, stripD r.2)) := by
  unfold encodeDNSNameWithCompression encNameD
  by_cases h : n.length > 253
  · rw [if_pos h, if_pos h]
    rfl
  · rw [if_neg h, if_neg h]
    exact encLabelsD_strip (splitOnDot n) buf c (nameDepthD n c)

theorem encQuestions_stripD :
    ∀ (qs : List Question) (buf : List Nat) (c : CMapD),
      encQuestions qs buf (stripD c) =
        (encQuestionsD qs buf c).map (fun r => (r.1, stripD r.2.1)) := by
  intro qs
  induction qs with
  | nil => intro buf c; rfl
  | cons q rest ih =>
    intro buf c
    unfold encQuestions encQuestionsD
    rw [encNameD_strip]
    cases he : encNameD q.Name buf c with
    | error e => rfl
    | ok r =>
      obtain ⟨buf1, c1⟩ := r
      simp only [Except.map]
      rw [ih (buf1 ++ be16 q.Type' ++ be16 q.Class) c1]
      cases h2 : encQuestionsD rest (buf1 ++ be16 q.Type' ++ be16 q.Class) c1 with
      | error e => rfl
      | ok r2 =>
        obtain ⟨buf2, c2, ok2⟩ := r2
        rfl

theorem encAnswers_stripD :
    ∀ (rrs : List ResourceRecord) (buf : List Nat) (c : CMapD),
      encAnswers rrs buf (stripD c) =
        (encAnswersD rrs buf c).map (fun r => (r.1, stripD r.2.1)) := by
  intro rrs
  induction rrs with
  | nil => intro buf c; rfl
  | cons rr rest ih =>
    intro buf c
    unfold encAnswers encAnswersD
    rw [encNameD_strip]
    cases he : encNameD rr.Name buf c with
    | error e => rfl
    | ok r =>
      obtain ⟨buf1, c1⟩ := r
      simp only [Except.map]
      rw [ih (buf1 ++ be16 rr.Type' ++ be16 rr.Class ++ be32 rr.TTL
            ++ be16 (rr.RData.length % 65536) ++ rr.RData) c1]
      cases h2 : encAnswersD rest (buf1 ++ be16 rr.Type' ++ be16 rr.Class ++ be32 rr.TTL
          ++ be16 (rr.RData.length % 65536) ++ rr.RData) c1 with
      | error e => rfl
      | ok r2 =>
        obtain ⟨buf2, c2, ok2⟩ := r2
        rfl

/-! ### Section-level soundness: encoding succeeds and decodes back -/

theorem encQuestionsD_sound :
    ∀ (qs : List Question) (buf : List Nat) (c : CMapD),
      (∀ q ∈ qs, wfName q.Name ∧ q.Type' < 65536 ∧ q.Class < 65536) →
      ∃ buf2 c2 okf, encQuestionsD qs buf c = .ok (buf2, c2, okf) ∧
        (∃ D, buf2 = buf ++ D) ∧
        (cmapInv buf c → okf = true →
          cmapInv buf2 c2 ∧
          ∀ ext, decQuestions (buf2 ++ ext) buf.length qs.length =
            .ok (qs, buf2.length)) := by
  intro qs
  induction qs with
  | nil =>
    intro buf c _
    refine ⟨buf, c, true, rfl, ⟨[], by simp⟩, fun hinv _ => ⟨hinv, fun ext => ?_⟩⟩
    simp [decQuestions]
  | cons q rest ih =>
    intro buf c hwf
    obtain ⟨hqwf, hT, hC⟩ := hwf q (List.mem_cons_self _ _)
    obtain ⟨B, c1, henc, hB1, hcond⟩ := encNameD_sound q.Name buf c hqwf
    obtain ⟨buf2, c2, ok2, hrun, ⟨D2, hD2⟩, hcond2⟩ :=
      ih ((buf ++ B) ++ be16 q.Type' ++ be16 q.Class) c1
        (fun q' h => hwf q' (List.mem_cons_of_mem _ h))
    refine ⟨buf2, c2, nameOKD q.Name c && ok2, ?_, ?_, ?_⟩
    · unfold encQuestionsD
      rw [henc]
      simp only []
      rw [hrun]
    · refine ⟨B ++ be16 q.Type' ++ be16 q.Class ++ D2, ?_⟩
      rw [hD2]
      simp
    · intro hinv hokf
      rw [Bool.and_eq_true] at hokf
      obtain ⟨hok1, hok2⟩ := hokf
      obtain ⟨hinv1, hdep, hdec⟩ := hcond hinv hok1
      have hinv1' : cmapInv ((buf ++ B) ++ be16 q.Type' ++ be16 q.Class) c1 := by
        have := cmapInv_extend (buf ++ B) (be16 q.Type' ++ be16 q.Class) c1 hinv1
        rwa [← List.append_assoc] at this
      obtain ⟨hinv2, hdecQ⟩ := hcond2 hinv1' hok2
      refine ⟨hinv2, ?_⟩
      intro ext
      simp only [List.length_cons]
      unfold decQuestions
      have hdn : decodeDNSName (buf2 ++ ext) buf.length =
          .ok (q.Name, buf.length + B.length) := by
        unfold decodeDNSName decodeDNSNameWithCompression
        have hdata : buf2 ++ ext =
            buf ++ B ++ (be16 q.Type' ++ be16 q.Class ++ D2 ++ ext) := by
          rw [hD2]
          simp
        rw [hdata]
        exact hdec (be16 q.Type' ++ be16 q.Class ++ D2 ++ ext) 7 0 (by omega) (by omega)
      rw [hdn]
      simp only []
      rw [if_neg (by
        rw [hD2]
        simp only [List.length_append, be16, List.length_cons, List.length_nil]
        omega)]
      have hTr : read16 (buf2 ++ ext) (buf.length + B.length) = q.Type' := by
        have hsh : buf2 ++ ext =
            (buf ++ B) ++ be16 q.Type' ++ (be16 q.Class ++ D2 ++ ext) := by
          rw [hD2]
          simp
        have hpos : buf.length + B.length = (buf ++ B).length := by simp
        rw [hsh, hpos]
        exact read16_at_be16 _ _ _ hT
      have hCr : read16 (buf2 ++ ext) (buf.length + B.length + 2) = q.Class := by
        have hsh : buf2 ++ ext =
            ((buf ++ B) ++ be16 q.Type') ++ be16 q.Class ++ (D2 ++ ext) := by
          rw [hD2]
          simp
        have hpos : buf.length + B.length + 2 = ((buf ++ B) ++ be16 q.Type').length := by
          simp only [List.length_append, be16, List.length_cons, List.length_nil]
        rw [hsh, hpos]
        exact read16_at_be16 _ _ _ hC
      rw [hTr, hCr]
      have hpos4 : buf.length + B.length + 4 =
          ((buf ++ B) ++ be16 q.Type' ++ be16 q.Class).length := by
        simp only [List.length_append, be16, List.length_cons, List.length_nil]
      rw [hpos4, hdecQ ext]

theorem encAnswersD_sound :
    ∀ (rrs : List ResourceRecord) (buf : List Nat) (c : CMapD),
      (∀ rr ∈ rrs, wfName rr.Name ∧ rr.Type' < 65536 ∧ rr.Class < 65536 ∧
        rr.TTL < 4294967296 ∧ rr.RData.length < 65536) →
      ∃ buf2 c2 okf, encAnswersD rrs buf c = .ok (buf2, c2, okf) ∧
        (∃ D, buf2 = buf ++ D) ∧
        (cmapInv buf c → okf = true →
          cmapInv buf2 c2 ∧
          ∀ ext, decAnswers (buf2 ++ ext) buf.length rrs.length =
            .ok (rrs.map (fun rr => { rr with RDLength := rr.RData.length }),
                 buf2.length)) := by
  intro rrs
  induction rrs with
  | nil =>
    intro buf c _
    refine ⟨buf, c, true, rfl, ⟨[], by simp⟩, fun hinv _ => ⟨hinv, fun ext => ?_⟩⟩
    simp [decAnswers]
  | cons rr rest ih =>
    intro buf c hwf
    obtain ⟨hqwf, hT, hC, hTTL, hRD⟩ := hwf rr (List.mem_cons_self _ _)
    obtain ⟨B, c1, henc, hB1, hcond⟩ := encNameD_sound rr.Name buf c hqwf
    obtain ⟨buf2, c2, ok2, hrun, ⟨D2, hD2⟩, hcond2⟩ :=
      ih ((buf ++ B) ++ be16 rr.Type' ++ be16 rr.Class ++ be32 rr.TTL
          ++ be16 (rr.RData.length % 65536) ++ rr.RData) c1
        (fun rr' h => hwf rr' (List.mem_cons_of_mem _ h))
    refine ⟨buf2, c2, nameOKD rr.Name c && ok2, ?_, ?_, ?_⟩
    · unfold encAnswersD
      rw [henc]
      simp only []
      rw [hrun]
    · refine ⟨B ++ be16 rr.Type' ++ be16 rr.Class ++ be32 rr.TTL
        ++ be16 (rr.RData.length % 65536) ++ rr.RData ++ D2, ?_⟩
      rw [hD2]
      simp
    · intro hinv hokf
      rw [Bool.and_eq_true] at hokf
      obtain ⟨hok1, hok2⟩ := hokf
      obtain ⟨hinv1, hdep, hdec⟩ := hcond hinv hok1
      have hinv1' : cmapInv ((buf ++ B) ++ be16 rr.Type' ++ be16 rr.Class ++ be32 rr.TTL
          ++ be16 (rr.RData.length % 65536) ++ rr.RData) c1 := by
        have := cmapInv_extend (buf ++ B) (be16 rr.Type' ++ be16 rr.Class ++ be32 rr.TTL
          ++ be16 (rr.RData.length % 65536) ++ rr.RData) c1 hinv1
        have hsh : (buf ++ B) ++ (be16 rr.Type' ++ be16 rr.Class ++ be32 rr.TTL
            ++ be16 (rr.RData.length % 65536) ++ rr.RData) =
            (buf ++ B) ++ be16 rr.Type' ++ be16 rr.Class ++ be32 rr.TTL
            ++ be16 (rr.RData.length % 65536) ++ rr.RData := by
          simp
        rwa [hsh] at this
      obtain ⟨hinv2, hdecA⟩ := hcond2 hinv1' hok2
      refine ⟨hinv2, ?_⟩
      intro ext
      simp only [List.length_cons]
      unfold decAnswers
      have hdn : decodeDNSName (buf2 ++ ext) buf.length =
          .ok (rr.Name, buf.length + B.length) := by
        unfold decodeDNSName decodeDNSNameWithCompression
        have hdata : buf2 ++ ext =
            buf ++ B ++ (be16 rr.Type' ++ be16 rr.Class ++ be32 rr.TTL
              ++ be16 (rr.RData.length % 65536) ++ rr.RData ++ D2 ++ ext) := by
          rw [hD2]
          simp
        rw [hdata]
        exact hdec (be16 rr.Type' ++ be16 rr.Class ++ be32 rr.TTL
          ++ be16 (rr.RData.length % 65536) ++ rr.RData ++ D2 ++ ext) 7 0
          (by omega) (by omega)
      rw [hdn]
      simp only []
      rw [if_neg (by
        rw [hD2]
        simp only [List.length_append, be16, be32, List.length_cons, List.length_nil]
        omega)]
      have hTr : read16 (buf2 ++ ext) (buf.length + B.length) = rr.Type' := by
        have hsh : buf2 ++ ext = (buf ++ B) ++ be16 rr.Type' ++ (be16 rr.Class
            ++ be32 rr.TTL ++ be16 (rr.RData.length % 65536) ++ rr.RData ++ D2 ++ ext) := by
          rw [hD2]
          simp
        have hpos : buf.length + B.length = (buf ++ B).length := by simp
        rw [hsh, hpos]
        exact read16_at_be16 _ _ _ hT
      have hCr : read16 (buf2 ++ ext) (buf.length + B.length + 2) = rr.Class := by
        have hsh : buf2 ++ ext = ((buf ++ B) ++ be16 rr.Type') ++ be16 rr.Class
            ++ (be32 rr.TTL ++ be16 (rr.RData.length % 65536) ++ rr.RData ++ D2 ++ ext) := by
          rw [hD2]
          simp
        have hpos : buf.length + B.length + 2 =
            ((buf ++ B) ++ be16 rr.Type').length := by
          simp only [List.length_append, be16, List.length_cons, List.length_nil]
        rw [hsh, hpos]
        exact read16_at_be16 _ _ _ hC
      have hTTLr : read32 (buf2 ++ ext) (buf.length + B.length + 4) = rr.TTL := by
        have hsh : buf2 ++ ext = ((buf ++ B) ++ be16 rr.Type' ++ be16 rr.Class)
            ++ be32 rr.TTL ++ (be16 (rr.RData.length % 65536) ++ rr.RData ++ D2 ++ ext) := by
          rw [hD2]
          simp
        have hpos : buf.length + B.length + 4 =
            ((buf ++ B) ++ be16 rr.Type' ++ be16 rr.Class).length := by
          simp only [List.length_append, be16, List.length_cons, List.length_nil]
        rw [hsh, hpos]
        exact read32_at_be32 _ _ _ hTTL
      have hRDr : read16 (buf2 ++ ext) (buf.length + B.length + 8) = rr.RData.length := by
        have hsh : buf2 ++ ext = ((buf ++ B) ++ be16 rr.Type' ++ be16 rr.Class
            ++ be32 rr.TTL) ++ be16 (rr.RData.length % 65536) ++ (rr.RData ++ D2 ++ ext) := by
          rw [hD2]
          simp
        have hpos : buf.length + B.length + 8 =
            ((buf ++ B) ++ be16 rr.Type' ++ be16 rr.Class ++ be32 rr.TTL).length := by
          simp only [List.length_append, be16, be32, List.length_cons, List.length_nil]
        rw [hsh, hpos]
        rw [read16_at_be16 _ _ _ (by omega)]
        exact Nat.mod_eq_of_lt hRD
      rw [hTr, hCr, hTTLr, hRDr]
      rw [if_neg (by
        rw [hD2]
        simp only [List.length_append, be16, be32, List.length_cons, List.length_nil]
        omega)]
      have hslice : ((buf2 ++ ext).drop (buf.length + B.length + 10)).take
          rr.RData.length = rr.RData := by
        have hsh : buf2 ++ ext = ((buf ++ B) ++ be16 rr.Type' ++ be16 rr.Class
            ++ be32 rr.TTL ++ be16 (rr.RData.length % 65536)) ++ (rr.RData ++ (D2 ++ ext)) := by
          rw [hD2]
          simp
        have hpos : buf.length + B.length + 10 =
            ((buf ++ B) ++ be16 rr.Type' ++ be16 rr.Class ++ be32 rr.TTL
              ++ be16 (rr.RData.length % 65536)).length := by
          simp only [List.length_append, be16, be32, List.length_cons, List.length_nil]
        rw [hsh, hpos, List.drop_left]
        exact List.take_left _ _
      rw [hslice]
      have hpos10 : buf.length + B.length + 10 + rr.RData.length =
          ((buf ++ B) ++ be16 rr.Type' ++ be16 rr.Class ++ be32 rr.TTL
            ++ be16 (rr.RData.length % 65536) ++ rr.RData).length := by
        simp only [List.length_append, be16, be32, List.length_cons, List.length_nil]
      rw [hpos10, hdecA ext]
      simp only [List.map_cons]

/-- Core round-trip for compressed messages: if every pointer the encoder
emits targets an offset of at most 16383 and decodes through at most 5
jumps, decode of encode returns the RDLENGTH-normalised message. -/
theorem roundtrip_chainOK_core (m : Message) (hwf : wfMessage m)
    (hok : msgChainOK m = true) :
    (Message.MarshalBinary m).bind Message.UnmarshalBinary = .ok (normalizeMsg m) := by
  obtain ⟨hId, hFl, hNS, hAR, hQD, hAN, hQlen, hAlen, hQ, hA⟩ := hwf
  obtain ⟨buf1, c1, ok1, hrun1, ⟨D1, hD1⟩, hcond1⟩ :=
    encQuestionsD_sound m.Questions m.Header.marshal [] hQ
  obtain ⟨buf2, c2, ok2, hrun2, ⟨D2, hD2⟩, hcond2⟩ :=
    encAnswersD_sound m.Answers buf1 c1 hA
  have hoks : ok1 = true ∧ ok2 = true := by
    unfold msgChainOK at hok
    rw [hrun1] at hok
    simp only [] at hok
    rw [hrun2] at hok
    simp only [] at hok
    rw [Bool.and_eq_true] at hok
    exact hok
  have hinv0 : cmapInv m.Header.marshal [] := by
    intro s o d h
    simp [cmapFindD] at h
  obtain ⟨hinv1, hdecQ⟩ := hcond1 hinv0 hoks.1
  obtain ⟨hinv2, hdecA⟩ := hcond2 hinv1 hoks.2
  have hq : encQuestions m.Questions m.Header.marshal [] = .ok (buf1, stripD c1) := by
    have h := encQuestions_stripD m.Questions m.Header.marshal []
    rw [hrun1] at h
    exact h
  have ha : encAnswers m.Answers buf1 (stripD c1) = .ok (buf2, stripD c2) := by
    have h := encAnswers_stripD m.Answers buf1 c1
    rw [hrun2] at h
    exact h
  have henc : Message.MarshalBinary m = .ok buf2 := by
    unfold Message.MarshalBinary
    rw [hq]
    simp only [bind, Except.bind]
    rw [ha]
  rw [henc]
  have hbuf2 : buf2 = m.Header.marshal ++ (D1 ++ D2) := by
    rw [hD2, hD1]
    simp
  show Message.UnmarshalBinary buf2 = .ok (normalizeMsg m)
  unfold Message.UnmarshalBinary
  rw [if_neg (by
    rw [hbuf2]
    simp only [List.length_append, marshal_length]
    omega)]
  have htake : buf2.take 12 = m.Header.marshal := by
    rw [hbuf2, ← marshal_length m.Header]
    exact List.take_left _ _
  rw [htake, unmarshal_marshal m.Header hId hFl (by omega) (by omega) hNS hAR]
  simp only []
  rw [hQD]
  have h12 : (12 : Nat) = m.Header.marshal.length := (marshal_length _).symm
  rw [h12]
  have hq2 : decQuestions buf2 m.Header.marshal.length m.Questions.length =
      .ok (m.Questions, buf1.length) := by
    have h := hdecQ D2
    rw [← hD2] at h
    exact h
  rw [hq2]
  simp only []
  rw [hAN]
  have ha2 : decAnswers buf2 buf1.length m.Answers.length =
      .ok (m.Answers.map (fun rr => { rr with RDLength := rr.RData.length }),
           buf2.length) := by
    have h := hdecA []
    rwa [List.append_nil] at h
  rw [ha2]
  simp only []
  rfl

/-! ### Decoding labels ending in a pointer to an empty name -/

theorem decodeLoop_labels_ptr_empty :
    ∀ (ls1 : List GoStr) (pre post : List Nat) (parts : List GoStr) (total fuel : Nat)
      (follow : Nat → Except DNSErr (GoStr × Nat)) (o : Nat) (nx : Nat),
      (∀ l ∈ ls1, 1 ≤ l.length ∧ l.length ≤ 63) →
      total + labelsLen ls1 ≤ 253 →
      ls1.length < fuel →
      o ≤ 16383 →
      follow o = .ok ([], nx) →
      decodeLoop fuel (pre ++ labelBytes ls1 ++ ptrBytes o ++ post) follow pre.length
          parts total =
        .ok (joinDot (parts ++ ls1), pre.length + (labelBytes ls1).length + 2) := by
  intro ls1
  induction ls1 with
  | nil =>
    intro pre post parts total fuel follow o nx _ _ hfuel ho hfol
    obtain ⟨f, hf⟩ : ∃ f, fuel = f + 1 := ⟨fuel - 1, by omega⟩
    subst hf
    obtain ⟨hpb, hand, hrec, htgt⟩ := ptrBytes_spec o ho
    have hshape : pre ++ labelBytes [] ++ ptrBytes o ++ post =
        pre ++ (49152 ||| o) >>> 8 :: ((49152 ||| o) % 256 :: post) := by
      rw [hpb]
      simp [labelBytes]
    rw [hshape]
    unfold decodeLoop
    rw [if_neg (by simp only [List.length_append, List.length_cons]; omega)]
    simp only []
    rw [getD_at_length pre _ _]
    rw [if_pos hand]
    rw [if_neg (by simp only [List.length_append, List.length_cons]; omega)]
    have hread : read16 (pre ++ (49152 ||| o) >>> 8 :: ((49152 ||| o) % 256 :: post))
        pre.length = 49152 ||| o := by
      unfold read16
      rw [getD_at_length pre _ _]
      have := getD_at_append pre ((49152 ||| o) >>> 8 :: ((49152 ||| o) % 256 :: post)) 1
      simp only [List.getD_cons_succ, List.getD_cons_zero] at this
      rw [this]
      exact hrec
    rw [hread, htgt, hfol]
    simp only []
    simp [labelBytes]
  | cons l rest ih =>
    intro pre post parts total fuel follow o nx hwf htot hfuel ho hfol
    obtain ⟨f, hf⟩ : ∃ f, fuel = f + 1 := ⟨fuel - 1, by omega⟩
    subst hf
    obtain ⟨hl1, hl63⟩ := hwf l (List.mem_cons_self _ _)
    have hshape : pre ++ labelBytes (l :: rest) ++ ptrBytes o ++ post =
        pre ++ l.length :: (l ++ (labelBytes rest ++ ptrBytes o ++ post)) := by
      simp [labelBytes]
    rw [hshape]
    unfold decodeLoop
    rw [if_neg (by simp only [List.length_append, List.length_cons]; omega)]
    simp only []
    rw [getD_at_length pre l.length _]
    rw [if_neg (land_192_ne_of_le_63 l.length hl63)]
    rw [if_neg (by omega)]
    rw [if_neg (by omega)]
    rw [if_neg (by simp only [List.length_append, List.length_cons]; omega)]
    rw [if_neg (by rw [labelsLen_cons] at htot; omega)]
    rw [drop_cons_at_length pre l.length _]
    rw [List.take_left l _]
    have hre : pre ++ l.length :: (l ++ (labelBytes rest ++ ptrBytes o ++ post)) =
        (pre ++ l.length :: l) ++ labelBytes rest ++ ptrBytes o ++ post := by simp
    have hpos : pre.length + l.length + 1 = (pre ++ l.length :: l).length := by
      simp
      omega
    rw [hre, hpos]
    rw [ih (pre ++ l.length :: l) post (parts ++ [l]) (total + l.length + 1) f follow
      o nx (fun l' h => hwf l' (List.mem_cons_of_mem _ h))
      (by rw [labelsLen_cons] at htot; omega)
      (by simp only [List.length_cons] at hfuel; omega) ho hfol]
    congr 2
    · simp
    · simp only [List.length_append, List.length_cons]
      simp [labelBytes]
      omega

theorem decodeAux_labels_ptr_empty (ls1 : List GoStr) (pre post : List Nat) (o : Nat)
    (fl j : Nat)
    (hlab : ∀ l ∈ ls1, 1 ≤ l.length ∧ l.length ≤ 63)
    (hlen : labelsLen ls1 ≤ 253) (ho : o ≤ 16383) (hj : j ≤ 5)
    (hfol : ∃ nx, decodeAux fl (pre ++ labelBytes ls1 ++ ptrBytes o ++ post) o (j + 1) =
      .ok ([], nx)) :
    decodeAux (fl + 1) (pre ++ labelBytes ls1 ++ ptrBytes o ++ post) pre.length j =
      .ok (joinDot ls1, pre.length + (labelBytes ls1).length + 2) := by
  obtain ⟨nx, hfol⟩ := hfol
  unfold decodeAux
  rw [if_neg (by
    simp only [List.length_append, ptrBytes, List.length_cons, List.length_nil]
    omega)]
  rw [if_neg (by omega)]
  have := decodeLoop_labels_ptr_empty ls1 pre post [] 0
    ((pre ++ labelBytes ls1 ++ ptrBytes o ++ post).length + 1)
    (fun ptr => decodeAux fl (pre ++ labelBytes ls1 ++ ptrBytes o ++ post) ptr (j + 1))
    o nx hlab (by omega)
    (by
      have h1 := length_le_labelsLen ls1
      have h2 := labelBytes_length ls1
      simp only [List.length_append]
      omega)
    ho hfol
  rw [this]
  rw [List.nil_append]

/-! ### Concrete steps of the label-encoding loop for two-label names -/

theorem encLabels_two_miss (l1 l2 : GoStr) (buf : List Nat) (cmap : CMap)
    (h1 : 1 ≤ l1.length) (h63a : l1.length ≤ 63)
    (h2 : 1 ≤ l2.length) (h63b : l2.length ≤ 63)
    (hf1 : cmapFind cmap (joinDot [l1, l2]) = none)
    (hf2 : cmapFind ((joinDot [l1, l2], buf.length) :: cmap) (joinDot [l2]) = none) :
    encLabels [l1, l2] buf cmap =
      .ok (((buf ++ l1.length :: l1) ++ l2.length :: l2) ++ [0],
           (joinDot [l2], (buf ++ l1.length :: l1).length) ::
             (joinDot [l1, l2], buf.length) :: cmap) := by
  have hne1 : joinDot [l1, l2] ≠ [] :=
    joinDot_ne_nil [l1, l2] (by simp) (by
      intro l h
      simp only [List.mem_cons, List.mem_singleton, List.not_mem_nil, or_false] at h
      rcases h with h | h <;> · rw [h]; omega)
  have hne2 : joinDot [l2] ≠ [] := by
    show l2 ≠ []
    intro h
    rw [h] at h2
    simp at h2
  unfold encLabels
  rw [if_neg hne1, hf1]
  simp only []
  rw [if_neg (by omega), if_pos (by omega)]
  unfold encLabels
  rw [if_neg hne2, hf2]
  simp only []
  rw [if_neg (by omega), if_pos (by omega)]
  unfold encLabels
  rfl

theorem encLabels_two_hit (l1 l2 : GoStr) (buf : List Nat) (cmap : CMap) (o : Nat)
    (h1 : 1 ≤ l1.length) (h63a : l1.length ≤ 63) (h2 : 1 ≤ l2.length)
    (hf1 : cmapFind cmap (joinDot [l1, l2]) = none)
    (hf2 : cmapFind ((joinDot [l1, l2], buf.length) :: cmap) (joinDot [l2]) = some o) :
    encLabels [l1, l2] buf cmap =
      .ok ((buf ++ l1.length :: l1) ++
             [((49152 ||| (o &&& 16383)) >>> 8) % 256, (49152 ||| (o &&& 16383)) % 256],
           (joinDot [l1, l2], buf.length) :: cmap) := by
  have hne1 : joinDot [l1, l2] ≠ [] :=
    joinDot_ne_nil [l1, l2] (by simp) (by
      intro l h
      simp only [List.mem_cons, List.mem_singleton, List.not_mem_nil, or_false] at h
      rcases h with h | h
      · rw [h]; omega
      · rw [h]; omega)
  have hne2 : joinDot [l2] ≠ [] := by
    show l2 ≠ []
    intro h
    rw [h] at h2
    simp at h2
  unfold encLabels
  rw [if_neg hne1, hf1]
  simp only []
  rw [if_neg (by omega), if_pos (by omega)]
  unfold encLabels
  rw [if_neg hne2, hf2]

/-! ### Append-merging helpers (safe on abstract tails) -/

theorem append_merge_tail5 (X R A1 A2 A3 A4 A5 A : List Nat)
    (h : A1 ++ A2 ++ A3 ++ A4 ++ A5 = A) :
    (X ++ A1) ++ A2 ++ A3 ++ A4 ++ A5 ++ R = (X ++ A) ++ R := by
  subst h
  simp

theorem append_merge5 (X A1 A2 A3 A4 A5 A : List Nat)
    (h : A1 ++ A2 ++ A3 ++ A4 ++ A5 = A) :
    (X ++ A1) ++ A2 ++ A3 ++ A4 ++ A5 = X ++ A := by
  subst h
  simp

theorem append_merge7 (X A1 A2 A3 A4 A5 A6 A7 A : List Nat)
    (h : A1 ++ A2 ++ A3 ++ A4 ++ A5 ++ A6 ++ A7 = A) :
    (X ++ A1) ++ A2 ++ A3 ++ A4 ++ A5 ++ A6 ++ A7 = X ++ A := by
  subst h
  simp

theorem encAnswers_cons_eq (rr : ResourceRecord) (rrs : List ResourceRecord)
    (buf : List Nat) (cmap : CMap) (buf1 : List Nat) (cmap1 : CMap)
    (h : encodeDNSNameWithCompression rr.Name buf cmap = .ok (buf1, cmap1)) :
    encAnswers (rr :: rrs) buf cmap =
      encAnswers rrs (buf1 ++ be16 rr.Type' ++ be16 rr.Class ++ be32 rr.TTL
        ++ be16 (rr.RData.length % 65536) ++ rr.RData) cmap1 := by
  simp only [encAnswers]
  rw [h]

/-! ### Length facts -/

theorem c1FarA1R_len (R : List Nat) (hR : R.length = 16350) :
    (c1FarA1R R).length = 16382 := by
  unfold c1FarA1R
  rw [List.length_append, List.length_append, hR]
  decide

theorem c1FarA2R_len (R : List Nat) (hR : R.length = 16350) :
    (c1FarA2R R).length = 16397 := by
  unfold c1FarA2R
  rw [List.length_append, c1FarA1R_len R hR]
  decide

theorem c1FarBytesR_len (R : List Nat) (hR : R.length = 16350) :
    (c1FarBytesR R).length = 16411 := by
  unfold c1FarBytesR
  rw [List.length_append, c1FarA2R_len R hR]
  decide

/-! ### Encoding the far message -/

theorem c1Far_enc_cd (R : List Nat) (hR : R.length = 16350) :
    encodeDNSNameWithCompression (str "c.d") (c1FarA1R R) [([98], 19), ([97], 12)] =
      .ok (c1FarA1R R ++ [1, 99, 1, 100, 0],
           [([100], 16384), ([99, 46, 100], 16382), ([98], 19), ([97], 12)]) := by
  unfold encodeDNSNameWithCompression
  rw [if_neg (by decide)]
  have hs : splitOnDot (str "c.d") = [[99], [100]] := by decide
  rw [hs]
  rw [encLabels_two_miss [99] [100] (c1FarA1R R) [([98], 19), ([97], 12)]
    (by decide) (by decide) (by decide) (by decide)
    (by decide)
    (by
      rw [cmapFind_cons, if_neg (by decide)]
      decide)]
  have hl1 : (c1FarA1R R).length = 16382 := c1FarA1R_len R hR
  have hl2 : (c1FarA1R R ++ List.length [99] :: [99]).length = 16384 := by
    rw [List.length_append, hl1]
    decide
  rw [hl1, hl2]
  have h1 : (List.length [99] :: [99] : List Nat) = [1, 99] := by decide
  have h2 : (List.length [100] :: [100] : List Nat) = [1, 100] := by decide
  rw [h1, h2]
  have h3 : joinDot [[100]] = ([100] : GoStr) := by decide
  have h4 : joinDot [[99], [100]] = ([99, 46, 100] : GoStr) := by decide
  rw [h3, h4]
  rw [List.append_assoc (c1FarA1R R ++ [1, 99]) [1, 100] [0]]
  rw [List.append_assoc (c1FarA1R R) [1, 99] ([1, 100] ++ [0])]
  rfl

theorem c1Far_enc_ed (R : List Nat) (hR : R.length = 16350) :
    encodeDNSNameWithCompression (str "e.d") (c1FarA2R R)
        [([100], 16384), ([99, 46, 100], 16382), ([98], 19), ([97], 12)] =
      .ok (c1FarA2R R ++ [1, 101, 192, 0],
           [([101, 46, 100], 16397), ([100], 16384), ([99, 46, 100], 16382),
            ([98], 19), ([97], 12)]) := by
  unfold encodeDNSNameWithCompression
  rw [if_neg (by decide)]
  have hs : splitOnDot (str "e.d") = [[101], [100]] := by decide
  rw [hs]
  rw [encLabels_two_hit [101] [100] (c1FarA2R R)
    [([100], 16384), ([99, 46, 100], 16382), ([98], 19), ([97], 12)] 16384
    (by decide) (by decide) (by decide)
    (by decide)
    (by
      rw [cmapFind_cons, if_neg (by decide)]
      decide)]
  have hl1 : (c1FarA2R R).length = 16397 := c1FarA2R_len R hR
  rw [hl1]
  have h1 : (List.length [101] :: [101] : List Nat) = [1, 101] := by decide
  rw [h1]
  have h2 : ([((49152 ||| (16384 &&& 16383)) >>> 8) % 256,
      (49152 ||| (16384 &&& 16383)) % 256] : List Nat) = [192, 0] := by decide
  rw [h2]
  have h3 : joinDot [[101], [100]] = ([101, 46, 100] : GoStr) := by decide
  rw [h3]
  rw [List.append_assoc (c1FarA2R R) [1, 101] [192, 0]]
  rfl

theorem c1Far_marshal (R : List Nat) (hR : R.length = 16350) :
    Message.MarshalBinary (c1FarMsgR R) = .ok (c1FarBytesR R) := by
  have e1 : encQuestions (c1FarMsgR R).Questions (c1FarMsgR R).Header.marshal [] =
      .ok (c1FarQ, [([97], 12)]) := by
    show encQuestions [⟨str "a", 1, 1⟩] (MessageHeader.marshal ⟨0, 0, 1, 3, 0, 0⟩) [] = _
    decide
  have e2 : encodeDNSNameWithCompression (str "b") c1FarQ [([97], 12)] =
      .ok (c1FarQ ++ [1, 98, 0], [([98], 19), ([97], 12)]) := by decide
  -- answer 1
  have s1 := encAnswers_cons_eq ⟨str "b", 1, 1, 60, 16350, R⟩
    [⟨str "c.d", 1, 1, 60, 0, []⟩, ⟨str "e.d", 1, 1, 60, 0, []⟩]
    c1FarQ [([97], 12)] (c1FarQ ++ [1, 98, 0]) [([98], 19), ([97], 12)] e2
  have hb1 : (c1FarQ ++ [1, 98, 0]) ++ be16 1 ++ be16 1 ++ be32 60
      ++ be16 (R.length % 65536) ++ R = c1FarA1R R := by
    rw [hR]
    have hbe : be16 (16350 % 65536) = [63, 222] := by decide
    rw [hbe]
    show (c1FarQ ++ [1, 98, 0]) ++ [0, 1] ++ [0, 1] ++ [0, 0, 0, 60] ++ [63, 222] ++ R = _
    rw [append_merge_tail5 c1FarQ R [1, 98, 0] [0, 1] [0, 1] [0, 0, 0, 60] [63, 222]
      [1, 98, 0, 0, 1, 0, 1, 0, 0, 0, 60, 63, 222] (by decide)]
    rfl
  rw [hb1] at s1
  -- answer 2
  have s2 := encAnswers_cons_eq ⟨str "c.d", 1, 1, 60, 0, []⟩
    [⟨str "e.d", 1, 1, 60, 0, []⟩] (c1FarA1R R)
    [([98], 19), ([97], 12)] (c1FarA1R R ++ [1, 99, 1, 100, 0])
    [([100], 16384), ([99, 46, 100], 16382), ([98], 19), ([97], 12)]
    (c1Far_enc_cd R hR)
  have hb2 : (c1FarA1R R ++ [1, 99, 1, 100, 0]) ++ be16 1 ++ be16 1 ++ be32 60
      ++ be16 (([] : List Nat).length % 65536) ++ ([] : List Nat) = c1FarA2R R := by
    show (c1FarA1R R ++ [1, 99, 1, 100, 0]) ++ [0, 1] ++ [0, 1] ++ [0, 0, 0, 60]
      ++ [0, 0] ++ [] = _
    rw [List.append_nil]
    rw [append_merge5 (c1FarA1R R) [1, 99, 1, 100, 0] [0, 1] [0, 1] [0, 0, 0, 60] [0, 0]
      [1, 99, 1, 100, 0, 0, 1, 0, 1, 0, 0, 0, 60, 0, 0] (by decide)]
    rfl
  rw [hb2] at s2
  -- answer 3
  have s3 := encAnswers_cons_eq ⟨str "e.d", 1, 1, 60, 0, []⟩ [] (c1FarA2R R)
    [([100], 16384), ([99, 46, 100], 16382), ([98], 19), ([97], 12)]
    (c1FarA2R R ++ [1, 101, 192, 0])
    [([101, 46, 100], 16397), ([100], 16384), ([99, 46, 100], 16382),
     ([98], 19), ([97], 12)]
    (c1Far_enc_ed R hR)
  have hb3 : (c1FarA2R R ++ [1, 101, 192, 0]) ++ be16 1 ++ be16 1 ++ be32 60
      ++ be16 (([] : List Nat).length % 65536) ++ ([] : List Nat) = c1FarBytesR R := by
    show (c1FarA2R R ++ [1, 101, 192, 0]) ++ [0, 1] ++ [0, 1] ++ [0, 0, 0, 60]
      ++ [0, 0] ++ [] = _
    rw [List.append_nil]
    rw [append_merge5 (c1FarA2R R) [1, 101, 192, 0] [0, 1] [0, 1] [0, 0, 0, 60] [0, 0]
      [1, 101, 192, 0, 0, 1, 0, 1, 0, 0, 0, 60, 0, 0] (by decide)]
    rfl
  rw [hb3] at s3
  -- assemble
  have hans : encAnswers (c1FarMsgR R).Answers c1FarQ [([97], 12)] =
      .ok (c1FarBytesR R,
           [([101, 46, 100], 16397), ([100], 16384), ([99, 46, 100], 16382),
            ([98], 19), ([97], 12)]) := by
    show encAnswers (⟨str "b", 1, 1, 60, 16350, R⟩ ::
        [⟨str "c.d", 1, 1, 60, 0, []⟩, ⟨str "e.d", 1, 1, 60, 0, []⟩])
        c1FarQ [([97], 12)] = _
    rw [s1, s2, s3]
    rfl
  unfold Message.MarshalBinary
  rw [e1]
  simp only [bind, Except.bind]
  rw [hans]

/-! ### Positioned-read helpers -/

theorem read16_at (data pre rest : List Nat) (v k : Nat) (hv : v < 65536)
    (hsh : data = pre ++ be16 v ++ rest) (hk : pre.length = k) :
    read16 data k = v := by
  rw [hsh, ← hk]
  exact read16_at_be16 pre v rest hv

theorem read32_at (data pre rest : List Nat) (v k : Nat) (hv : v < 4294967296)
    (hsh : data = pre ++ be32 v ++ rest) (hk : pre.length = k) :
    read32 data k = v := by
  rw [hsh, ← hk]
  exact read32_at_be32 pre v rest hv

theorem decodeDNSName_at (data pre post : List Nat) (n : GoStr) (k e : Nat)
    (hwf : wfName n) (hsh : data = pre ++ plainName n ++ post) (hk : pre.length = k)
    (he : k + (plainName n).length = e) :
    decodeDNSName data k = .ok (n, e) := by
  rw [hsh, ← hk]
  rw [decodeDNSName_plain n pre post hwf]
  rw [hk, he]

theorem slice_at (data pre rd post : List Nat) (k L : Nat)
    (hsh : data = pre ++ (rd ++ post)) (hk : pre.length = k) (hL : rd.length = L) :
    (data.drop k).take L = rd := by
  rw [hsh, ← hk, List.drop_left, ← hL]
  exact List.take_left _ _

theorem decAnswers_cons_eq (data : List Nat) (offset k : Nat) (nm : GoStr) (nxt : Nat)
    (hdn : decodeDNSName data offset = .ok (nm, nxt))
    (hbound : ¬ (nxt + 10 > data.length))
    (rdl : Nat) (hrdl : read16 data (nxt + 8) = rdl)
    (hbound2 : ¬ (nxt + 10 + rdl > data.length)) :
    decAnswers data offset (k + 1) =
      match decAnswers data (nxt + 10 + rdl) k with
      | .error e => .error e
      | .ok (rest, off') =>
        .ok ({ Name := nm, Type' := read16 data nxt, Class := read16 data (nxt + 2),
               TTL := read32 data (nxt + 4), RDLength := rdl,
               RData := (data.drop (nxt + 10)).take rdl } :: rest, off') := by
  simp only [decAnswers]
  rw [hdn]
  simp only []
  rw [if_neg hbound, hrdl, if_neg hbound2]

/-! ### Decoding the far message -/

theorem c1Far_unmarshal (R : List Nat) (hR : R.length = 16350) :
    Message.UnmarshalBinary (c1FarBytesR R) = .ok (c1FarDecodedR R) := by
  have hlenB : (c1FarBytesR R).length = 16411 := c1FarBytesR_len R hR
  have hpn_a : plainName (str "a") = [1, 97, 0] := by decide
  have hpn_b : plainName (str "b") = [1, 98, 0] := by decide
  have hpn_cd : plainName (str "c.d") = [1, 99, 1, 100, 0] := by decide
  -- question name
  have hdn1 : decodeDNSName (c1FarBytesR R) 12 = .ok (str "a", 15) := by
    refine decodeDNSName_at _ [0, 0, 0, 0, 0, 1, 0, 3, 0, 0, 0, 0]
      ([0, 1, 0, 1, 1, 98, 0, 0, 1, 0, 1, 0, 0, 0, 60, 63, 222] ++ R
        ++ [1, 99, 1, 100, 0, 0, 1, 0, 1, 0, 0, 0, 60, 0, 0]
        ++ [1, 101, 192, 0, 0, 1, 0, 1, 0, 0, 0, 60, 0, 0])
      (str "a") 12 15 (by decide) ?_ (by decide) (by rw [hpn_a]; decide)
    rw [hpn_a]
    unfold c1FarBytesR c1FarA2R c1FarA1R c1FarQ
    simp
  have hr15 : read16 (c1FarBytesR R) 15 = 1 := by
    refine read16_at _ [0, 0, 0, 0, 0, 1, 0, 3, 0, 0, 0, 0, 1, 97, 0]
      ([0, 1, 1, 98, 0, 0, 1, 0, 1, 0, 0, 0, 60, 63, 222] ++ R
        ++ [1, 99, 1, 100, 0, 0, 1, 0, 1, 0, 0, 0, 60, 0, 0]
        ++ [1, 101, 192, 0, 0, 1, 0, 1, 0, 0, 0, 60, 0, 0])
      1 15 (by omega) ?_ (by decide)
    unfold c1FarBytesR c1FarA2R c1FarA1R c1FarQ
    simp [be16]
  have hr17 : read16 (c1FarBytesR R) 17 = 1 := by
    refine read16_at _ [0, 0, 0, 0, 0, 1, 0, 3, 0, 0, 0, 0, 1, 97, 0, 0, 1]
      ([1, 98, 0, 0, 1, 0, 1, 0, 0, 0, 60, 63, 222] ++ R
        ++ [1, 99, 1, 100, 0, 0, 1, 0, 1, 0, 0, 0, 60, 0, 0]
        ++ [1, 101, 192, 0, 0, 1, 0, 1, 0, 0, 0, 60, 0, 0])
      1 17 (by omega) ?_ (by decide)
    unfold c1FarBytesR c1FarA2R c1FarA1R c1FarQ
    simp [be16]
  -- first answer
  have hdn2 : decodeDNSName (c1FarBytesR R) 19 = .ok (str "b", 22) := by
    refine decodeDNSName_at _ c1FarQ
      ([0, 1, 0, 1, 0, 0, 0, 60, 63, 222] ++ R
        ++ [1, 99, 1, 100, 0, 0, 1, 0, 1, 0, 0, 0, 60, 0, 0]
        ++ [1, 101, 192, 0, 0, 1, 0, 1, 0, 0, 0, 60, 0, 0])
      (str "b") 19 22 (by decide) ?_ (by decide) (by rw [hpn_b]; decide)
    rw [hpn_b]
    unfold c1FarBytesR c1FarA2R c1FarA1R c1FarQ
    simp
  have hr22 : read16 (c1FarBytesR R) 22 = 1 := by
    refine read16_at _ (c1FarQ ++ [1, 98, 0])
      ([0, 1, 0, 0, 0, 60, 63, 222] ++ R
        ++ [1, 99, 1, 100, 0, 0, 1, 0, 1, 0, 0, 0, 60, 0, 0]
        ++ [1, 101, 192, 0, 0, 1, 0, 1, 0, 0, 0, 60, 0, 0])
      1 22 (by omega) ?_ (by decide)
    unfold c1FarBytesR c1FarA2R c1FarA1R c1FarQ
    simp [be16]
  have hr24 : read16 (c1FarBytesR R) 24 = 1 := by
    refine read16_at _ (c1FarQ ++ [1, 98, 0, 0, 1])
      ([0, 0, 0, 60, 63, 222] ++ R
        ++ [1, 99, 1, 100, 0, 0, 1, 0, 1, 0, 0, 0, 60, 0, 0]
        ++ [1, 101, 192, 0, 0, 1, 0, 1, 0, 0, 0, 60, 0, 0])
      1 24 (by omega) ?_ (by decide)
    unfold c1FarBytesR c1FarA2R c1FarA1R c1FarQ
    simp [be16]
  have hr26 : read32 (c1FarBytesR R) 26 = 60 := by
    refine read32_at _ (c1FarQ ++ [1, 98, 0, 0, 1, 0, 1])
      ([63, 222] ++ R
        ++ [1, 99, 1, 100, 0, 0, 1, 0, 1, 0, 0, 0, 60, 0, 0]
        ++ [1, 101, 192, 0, 0, 1, 0, 1, 0, 0, 0, 60, 0, 0])
      60 26 (by omega) ?_ (by decide)
    unfold c1FarBytesR c1FarA2R c1FarA1R c1FarQ
    simp [be32]
  have hr30 : read16 (c1FarBytesR R) 30 = 16350 := by
    refine read16_at _ (c1FarQ ++ [1, 98, 0, 0, 1, 0, 1, 0, 0, 0, 60])
      (R ++ [1, 99, 1, 100, 0, 0, 1, 0, 1, 0, 0, 0, 60, 0, 0]
        ++ [1, 101, 192, 0, 0, 1, 0, 1, 0, 0, 0, 60, 0, 0])
      16350 30 (by omega) ?_ (by decide)
    unfold c1FarBytesR c1FarA2R c1FarA1R c1FarQ
    simp [be16]
  have hsl32 : ((c1FarBytesR R).drop 32).take 16350 = R := by
    refine slice_at _ (c1FarQ ++ [1, 98, 0, 0, 1, 0, 1, 0, 0, 0, 60, 63, 222]) R
      ([1, 99, 1, 100, 0, 0, 1, 0, 1, 0, 0, 0, 60, 0, 0]
        ++ [1, 101, 192, 0, 0, 1, 0, 1, 0, 0, 0, 60, 0, 0])
      32 16350 ?_ (by decide) hR
    unfold c1FarBytesR c1FarA2R c1FarA1R c1FarQ
    simp
  -- second answer
  have hA1len : (c1FarA1R R).length = 16382 := c1FarA1R_len R hR
  have hdn3 : decodeDNSName (c1FarBytesR R) 16382 = .ok (str "c.d", 16387) := by
    refine decodeDNSName_at _ (c1FarA1R R)
      ([0, 1, 0, 1, 0, 0, 0, 60, 0, 0] ++ [1, 101, 192, 0, 0, 1, 0, 1, 0, 0, 0, 60, 0, 0])
      (str "c.d") 16382 16387 (by decide) ?_ hA1len (by rw [hpn_cd]; decide)
    rw [hpn_cd]
    unfold c1FarBytesR c1FarA2R
    simp
  have hp87 : (c1FarA1R R ++ [1, 99, 1, 100, 0]).length = 16387 := by
    rw [List.length_append, hA1len]
    decide
  have hr87 : read16 (c1FarBytesR R) 16387 = 1 := by
    refine read16_at _ (c1FarA1R R ++ [1, 99, 1, 100, 0])
      ([0, 1, 0, 0, 0, 60, 0, 0] ++ [1, 101, 192, 0, 0, 1, 0, 1, 0, 0, 0, 60, 0, 0])
      1 16387 (by omega) ?_ hp87
    unfold c1FarBytesR c1FarA2R
    simp [be16]
  have hp89 : (c1FarA1R R ++ [1, 99, 1, 100, 0, 0, 1]).length = 16389 := by
    rw [List.length_append, hA1len]
    decide
  have hr89 : read16 (c1FarBytesR R) 16389 = 1 := by
    refine read16_at _ (c1FarA1R R ++ [1, 99, 1, 100, 0, 0, 1])
      ([0, 0, 0, 60, 0, 0] ++ [1, 101, 192, 0, 0, 1, 0, 1, 0, 0, 0, 60, 0, 0])
      1 16389 (by omega) ?_ hp89
    unfold c1FarBytesR c1FarA2R
    simp [be16]
  have hp91 : (c1FarA1R R ++ [1, 99, 1, 100, 0, 0, 1, 0, 1]).length = 16391 := by
    rw [List.length_append, hA1len]
    decide
  have hr91 : read32 (c1FarBytesR R) 16391 = 60 := by
    refine read32_at _ (c1FarA1R R ++ [1, 99, 1, 100, 0, 0, 1, 0, 1])
      ([0, 0] ++ [1, 101, 192, 0, 0, 1, 0, 1, 0, 0, 0, 60, 0, 0])
      60 16391 (by omega) ?_ hp91
    unfold c1FarBytesR c1FarA2R
    simp [be32]
  have hp95 : (c1FarA1R R ++ [1, 99, 1, 100, 0, 0, 1, 0, 1, 0, 0, 0, 60]).length = 16395 := by
    rw [List.length_append, hA1len]
    decide
  have hr95 : read16 (c1FarBytesR R) 16395 = 0 := by
    refine read16_at _ (c1FarA1R R ++ [1, 99, 1, 100, 0, 0, 1, 0, 1, 0, 0, 0, 60])
      ([1, 101, 192, 0, 0, 1, 0, 1, 0, 0, 0, 60, 0, 0])
      0 16395 (by omega) ?_ hp95
    unfold c1FarBytesR c1FarA2R
    simp [be16]
  -- third answer: label e then pointer C0 00 to offset 0
  have hA2len : (c1FarA2R R).length = 16397 := c1FarA2R_len R hR
  have hsh3 : c1FarBytesR R = c1FarA2R R ++ labelBytes [[101]] ++ ptrBytes 0
      ++ [0, 1, 0, 1, 0, 0, 0, 60, 0, 0] := by
    have h1 : labelBytes [[101]] = [1, 101] := by decide
    have h2 : ptrBytes 0 = [192, 0] := by decide
    rw [h1, h2]
    unfold c1FarBytesR
    simp
  have hdn4 : decodeDNSName (c1FarBytesR R) 16397 = .ok (str "e", 16401) := by
    unfold decodeDNSName decodeDNSNameWithCompression
    have h7 : (7 : Nat) = 6 + 1 := rfl
    rw [hsh3, ← hA2len]
    have hfol : ∃ nx, decodeAux 6 (c1FarA2R R ++ labelBytes [[101]] ++ ptrBytes 0
        ++ [0, 1, 0, 1, 0, 0, 0, 60, 0, 0]) 0 (0 + 1) = .ok ([], nx) := by
      have hsh0 : c1FarA2R R ++ labelBytes [[101]] ++ ptrBytes 0
          ++ [0, 1, 0, 1, 0, 0, 0, 60, 0, 0] =
          ([] : List Nat) ++ labelBytes [] ++ [0]
            ++ ([0, 0, 0, 0, 1, 0, 3, 0, 0, 0, 0, 1, 97, 0, 0, 1, 0, 1, 1, 98, 0,
                 0, 1, 0, 1, 0, 0, 0, 60, 63, 222] ++ R
              ++ [1, 99, 1, 100, 0, 0, 1, 0, 1, 0, 0, 0, 60, 0, 0]
              ++ [1, 101, 192, 0, 0, 1, 0, 1, 0, 0, 0, 60, 0, 0]) := by
        rw [← hsh3]
        have h1 : labelBytes ([] : List GoStr) = [] := by decide
        rw [h1]
        unfold c1FarBytesR c1FarA2R c1FarA1R c1FarQ
        simp
      rw [hsh0]
      exact ⟨_, decodeAux_plain [] []
        ([0, 0, 0, 0, 1, 0, 3, 0, 0, 0, 0, 1, 97, 0, 0, 1, 0, 1, 1, 98, 0,
          0, 1, 0, 1, 0, 0, 0, 60, 63, 222] ++ R
          ++ [1, 99, 1, 100, 0, 0, 1, 0, 1, 0, 0, 0, 60, 0, 0]
          ++ [1, 101, 192, 0, 0, 1, 0, 1, 0, 0, 0, 60, 0, 0]) 6 (0 + 1)
        (by simp) (by simp [labelsLen]) (by omega) (by omega)⟩
    rw [decodeAux_labels_ptr_empty [[101]] (c1FarA2R R)
      [0, 1, 0, 1, 0, 0, 0, 60, 0, 0] 0 6 0 (by decide) (by decide) (by decide)
      (by decide) hfol]
    rw [hA2len]
    have h1 : joinDot [[101]] = str "e" := by decide
    have h2 : (labelBytes [[101]]).length = 2 := by decide
    rw [h1, h2]
  have hp01 : (c1FarA2R R ++ [1, 101, 192, 0]).length = 16401 := by
    rw [List.length_append, hA2len]
    decide
  have hr01 : read16 (c1FarBytesR R) 16401 = 1 := by
    refine read16_at _ (c1FarA2R R ++ [1, 101, 192, 0])
      ([0, 1, 0, 0, 0, 60, 0, 0]) 1 16401 (by omega) ?_ hp01
    unfold c1FarBytesR
    simp [be16]
  have hp03 : (c1FarA2R R ++ [1, 101, 192, 0, 0, 1]).length = 16403 := by
    rw [List.length_append, hA2len]
    decide
  have hr03 : read16 (c1FarBytesR R) 16403 = 1 := by
    refine read16_at _ (c1FarA2R R ++ [1, 101, 192, 0, 0, 1])
      ([0, 0, 0, 60, 0, 0]) 1 16403 (by omega) ?_ hp03
    unfold c1FarBytesR
    simp [be16]
  have hp05 : (c1FarA2R R ++ [1, 101, 192, 0, 0, 1, 0, 1]).length = 16405 := by
    rw [List.length_append, hA2len]
    decide
  have hr05 : read32 (c1FarBytesR R) 16405 = 60 := by
    refine read32_at _ (c1FarA2R R ++ [1, 101, 192, 0, 0, 1, 0, 1])
      ([0, 0]) 60 16405 (by omega) ?_ hp05
    unfold c1FarBytesR
    simp [be32]
  have hp09 : (c1FarA2R R ++ [1, 101, 192, 0, 0, 1, 0, 1, 0, 0, 0, 60]).length = 16409 := by
    rw [List.length_append, hA2len]
    decide
  have hr09 : read16 (c1FarBytesR R) 16409 = 0 := by
    refine read16_at _ (c1FarA2R R ++ [1, 101, 192, 0, 0, 1, 0, 1, 0, 0, 0, 60])
      ([] : List Nat) 0 16409 (by omega) ?_ hp09
    unfold c1FarBytesR
    simp [be16]
  -- assemble the three answers
  have ha3 : decAnswers (c1FarBytesR R) 16397 1 = .ok ([⟨str "e", 1, 1, 60, 0, []⟩], 16411) := by
    rw [decAnswers_cons_eq (c1FarBytesR R) 16397 0 (str "e") 16401 hdn4
      (by rw [hlenB]; omega) 0 hr09 (by rw [hlenB]; omega)]
    simp only [decAnswers]
    rw [hr01, hr03, hr05]
    simp [List.take_zero]
  have ha2 : decAnswers (c1FarBytesR R) 16382 2 = .ok
      ([⟨str "c.d", 1, 1, 60, 0, []⟩, ⟨str "e", 1, 1, 60, 0, []⟩], 16411) := by
    rw [decAnswers_cons_eq (c1FarBytesR R) 16382 1 (str "c.d") 16387 hdn3
      (by rw [hlenB]; omega) 0 hr95 (by rw [hlenB]; omega)]
    rw [ha3]
    rw [hr87, hr89, hr91]
    simp [List.take_zero]
  have ha1 : decAnswers (c1FarBytesR R) 19 3 = .ok
      ([⟨str "b", 1, 1, 60, 16350, R⟩, ⟨str "c.d", 1, 1, 60, 0, []⟩,
        ⟨str "e", 1, 1, 60, 0, []⟩], 16411) := by
    rw [decAnswers_cons_eq (c1FarBytesR R) 19 2 (str "b") 22 hdn2
      (by rw [hlenB]; omega) 16350 hr30 (by rw [hlenB]; omega)]
    rw [ha2]
    rw [hr22, hr24, hr26, hsl32]
  -- question section
  have hq1 : decQuestions (c1FarBytesR R) 12 1 = .ok ([⟨str "a", 1, 1⟩], 19) := by
    unfold decQuestions
    rw [hdn1]
    simp only []
    rw [if_neg (by rw [hlenB]; omega)]
    rw [hr15, hr17]
    rfl
  -- whole message
  unfold Message.UnmarshalBinary
  rw [if_neg (by rw [hlenB]; omega)]
  have htake : (c1FarBytesR R).take 12 = [0, 0, 0, 0, 0, 1, 0, 3, 0, 0, 0, 0] := by
    have hsh : c1FarBytesR R = [0, 0, 0, 0, 0, 1, 0, 3, 0, 0, 0, 0]
        ++ ([1, 97, 0, 0, 1, 0, 1, 1, 98, 0, 0, 1, 0, 1, 0, 0, 0, 60, 63, 222] ++ R
          ++ [1, 99, 1, 100, 0, 0, 1, 0, 1, 0, 0, 0, 60, 0, 0]
          ++ [1, 101, 192, 0, 0, 1, 0, 1, 0, 0, 0, 60, 0, 0]) := by
      unfold c1FarBytesR c1FarA2R c1FarA1R c1FarQ
      simp
    rw [hsh]
    rw [show (12 : Nat) = ([0, 0, 0, 0, 0, 1, 0, 3, 0, 0, 0, 0] : List Nat).length from rfl]
    exact List.take_left _ _
  rw [htake]
  have hhdr : MessageHeader.unmarshal [0, 0, 0, 0, 0, 1, 0, 3, 0, 0, 0, 0] =
      .ok ⟨0, 0, 1, 3, 0, 0⟩ := by decide
  rw [hhdr]
  simp only []
  rw [hq1]
  simp only []
  rw [ha1]
  rfl

set_option maxRecDepth 100000

/-! ### The far-pointer message: well-formed, fails the chain check, decodes wrongly -/

theorem c1Far_wf (R : List Nat) (hR : R.length = 16350) : wfMessage (c1FarMsgR R) := by
  refine ⟨(by decide : (0:Nat) < 65536), (by decide : (0:Nat) < 65536),
    (by decide : (0:Nat) < 65536), (by decide : (0:Nat) < 65536),
    (rfl : (1:Nat) = 1), (rfl : (3:Nat) = 3),
    (by decide : (1:Nat) < 65536), (by decide : (3:Nat) < 65536),
    (by decide : ∀ q ∈ [(⟨str "a", 1, 1⟩ : Question)],
      wfName q.Name ∧ q.Type' < 65536 ∧ q.Class < 65536), ?_⟩
  intro rr hrr
  simp only [c1FarMsgR, List.mem_cons, List.not_mem_nil, or_false] at hrr
  rcases hrr with h | h | h <;> subst h
  · exact ⟨(by decide : wfName (str "b")), (by decide : (1:Nat) < 65536),
      (by decide : (1:Nat) < 65536), (by decide : (60:Nat) < 4294967296),
      (by omega : R.length < 65536)⟩
  · exact ⟨(by decide : wfName (str "c.d")), (by decide : (1:Nat) < 65536),
      (by decide : (1:Nat) < 65536), (by decide : (60:Nat) < 4294967296),
      (by decide : ([] : List Nat).length < 65536)⟩
  · exact ⟨(by decide : wfName (str "e.d")), (by decide : (1:Nat) < 65536),
      (by decide : (1:Nat) < 65536), (by decide : (60:Nat) < 4294967296),
      (by decide : ([] : List Nat).length < 65536)⟩

theorem c1Far_ne (R : List Nat) : c1FarDecodedR R ≠ normalizeMsg (c1FarMsgR R) := by
  have h3 : ((c1FarDecodedR R).Answers.getD 2 ⟨[], 0, 0, 0, 0, []⟩).Name = str "e" := rfl
  have h4 : ((normalizeMsg (c1FarMsgR R)).Answers.getD 2 ⟨[], 0, 0, 0, 0, []⟩).Name =
      str "e.d" := rfl
  intro h
  have h2 : ((c1FarDecodedR R).Answers.getD 2 ⟨[], 0, 0, 0, 0, []⟩).Name =
      ((normalizeMsg (c1FarMsgR R)).Answers.getD 2 ⟨[], 0, 0, 0, 0, []⟩).Name := by rw [h]
  rw [h3, h4] at h2
  exact absurd h2 (by decide)

theorem c1Far_chainOK_false (R : List Nat) (hR : R.length = 16350) :
    msgChainOK (c1FarMsgR R) = false := by
  cases hmc : msgChainOK (c1FarMsgR R) with
  | false => rfl
  | true =>
    exfalso
    have hrt := roundtrip_chainOK_core (c1FarMsgR R) (c1Far_wf R hR) hmc
    rw [c1Far_marshal R hR] at hrt
    simp only [bind, Except.bind] at hrt
    rw [c1Far_unmarshal R hR] at hrt
    simp only [Except.ok.injEq] at hrt
    exact c1Far_ne R hrt

/-! ### Claim theorems -/

set_option maxRecDepth 100000

/-- C1 (amended): for every well-formed Message in which every compression
pointer the encoder emits targets an offset representable in the pointer's
14-bit field (at most 16383) and is decodable through at most 5 pointer
jumps (the check `msgChainOK`), Message.UnmarshalBinary applied to the
output of Message.MarshalBinary returns the original message after
normalising RDLENGTH to len(rdata). -/
theorem c1_roundtrip_amended (m : Message) (hwf : wfMessage m)
    (hok : msgChainOK m = true) :
    (Message.MarshalBinary m).bind Message.UnmarshalBinary = .ok (normalizeMsg m) :=
  roundtrip_chainOK_core m hwf hok

theorem c1_roundtrip_amended_witness :
    wfMessage c1CompMsg ∧ msgChainOK c1CompMsg = true ∧
    (Message.MarshalBinary c1CompMsg).bind Message.UnmarshalBinary =
      .ok (normalizeMsg c1CompMsg) :=
  ⟨by decide, by decide, c1_roundtrip_amended c1CompMsg (by decide) (by decide)⟩

theorem c1_roundtrip_counterexample :
    (c1CexName.length = 253 ∧
     splitOnDot c1CexName = [List.replicate 63 97, List.replicate 63 98,
       List.replicate 63 99, List.replicate 61 100] ∧
     Message.MarshalBinary c1CexMsg =
       .ok (c1CexMsg.Header.marshal ++ plainName c1CexName ++ [0, 1, 0, 1]) ∧
     Message.UnmarshalBinary
         (c1CexMsg.Header.marshal ++ plainName c1CexName ++ [0, 1, 0, 1]) =
       .error .DomainTooLong ∧
     (Message.MarshalBinary c1CexMsg).bind Message.UnmarshalBinary ≠
       .ok (normalizeMsg c1CexMsg)) ∧
    (wfMessage c1ChainMsg ∧ msgChainOK c1ChainMsg = false ∧
     (Message.MarshalBinary c1ChainMsg).bind Message.UnmarshalBinary =
       .error .CompressionLoop) ∧
    (wfMessage c1FarMsg ∧ msgChainOK c1FarMsg = false ∧
     Message.MarshalBinary c1FarMsg = .ok c1FarBytes ∧
     Message.UnmarshalBinary c1FarBytes = .ok (c1FarDecodedR (List.replicate 16350 0)) ∧
     (Message.MarshalBinary c1FarMsg).bind Message.UnmarshalBinary ≠
       .ok (normalizeMsg c1FarMsg)) := by
  have hRlen : (List.replicate 16350 0 : List Nat).length = 16350 := by
    rw [List.length_replicate]
  refine ⟨⟨by decide, by decide, by decide, by decide, by decide⟩,
    ⟨by decide, by decide, by decide⟩, ?_, ?_, ?_, ?_, ?_⟩
  · exact c1Far_wf _ hRlen
  · exact c1Far_chainOK_false _ hRlen
  · exact c1Far_marshal _ hRlen
  · exact c1Far_unmarshal _ hRlen
  · intro h
    rw [show c1FarMsg = c1FarMsgR (List.replicate 16350 0) from rfl] at h
    rw [c1Far_marshal (List.replicate 16350 0) hRlen] at h
    simp only [bind, Except.bind] at h
    rw [c1Far_unmarshal (List.replicate 16350 0) hRlen] at h
    simp only [Except.ok.injEq] at h
    exact c1Far_ne _ h

/-- C2: encoding into one message a question and an answer whose
well-formed names share a domain suffix produces output strictly shorter
than the 12-byte header plus the two standalone encodings without a shared
table; on the concrete example of a question and an answer both named
www.example.com, the answer's name field is emitted as the 2-byte pointer
C0 0C into the question section at offset 12, and decoding the output
reproduces both names (and the whole message) exactly. -/
theorem c2_compression_shared_suffix :
    (∀ (hd : MessageHeader) (q : Question) (rr : ResourceRecord),
      wfName q.Name → wfName rr.Name →
      (∃ s, s ∈ nameSufs q.Name ∧ s ∈ nameSufs rr.Name) →
      ∃ b qb rb, Message.MarshalBinary ⟨hd, [q], [rr]⟩ = .ok b ∧
        Question.MarshalBinary q = .ok qb ∧ ResourceRecord.MarshalBinary rr = .ok rb ∧
        b.length < 12 + qb.length + rb.length) ∧
    Message.MarshalBinary c2Msg = .ok c2Bytes ∧
    c2Bytes.length = 49 ∧
    c2Bytes.getD 33 0 = 192 ∧ c2Bytes.getD 34 0 = 12 ∧
    Question.MarshalBinary ⟨str "www.example.com", 1, 1⟩ = .ok c2QBytes ∧
    ResourceRecord.MarshalBinary ⟨str "www.example.com", 1, 1, 60, 4, [8, 8, 8, 8]⟩ =
      .ok c2RBytes ∧
    c2Bytes.length < 12 + c2QBytes.length + c2RBytes.length ∧
    Message.UnmarshalBinary c2Bytes = .ok c2Msg :=
  ⟨two_name_compression_shorter, by decide, by decide, by decide, by decide, by decide,
   by decide, by decide, by decide⟩

theorem c2_compression_shared_suffix_witness :
    wfName (str "www.example.com") ∧
    (∃ s, s ∈ nameSufs (str "www.example.com") ∧ s ∈ nameSufs (str "www.example.com")) ∧
    (∃ b qb rb,
      Message.MarshalBinary ⟨⟨4660, 33152, 1, 1, 0, 0⟩, [⟨str "www.example.com", 1, 1⟩],
        [⟨str "www.example.com", 1, 1, 60, 4, [8, 8, 8, 8]⟩]⟩ = .ok b ∧
      Question.MarshalBinary ⟨str "www.example.com", 1, 1⟩ = .ok qb ∧
      ResourceRecord.MarshalBinary ⟨str "www.example.com", 1, 1, 60, 4, [8, 8, 8, 8]⟩ =
        .ok rb ∧
      b.length < 12 + qb.length + rb.length) :=
  ⟨by decide, ⟨str "com", by decide, by decide⟩,
   c2_compression_shared_suffix.1 ⟨4660, 33152, 1, 1, 0, 0⟩ ⟨str "www.example.com", 1, 1⟩
     ⟨str "www.example.com", 1, 1, 60, 4, [8, 8, 8, 8]⟩ (by decide) (by decide)
     ⟨str "com", by decide, by decide⟩⟩

/-- C3: name decoding is bounded by the jump counter: with the cursor in
range, any call with more than 5 jumps fails with CompressionLoop, and in
particular a buffer whose pointer at offset 12 targets offset 12 itself
decodes to the CompressionLoop error instead of recursing forever (the
decoder is a total function, so it returns on every input). -/
theorem c3_decode_loop_bounded :
    (∀ (data : List Nat) (offset jumps : Nat), offset < data.length → 5 < jumps →
      decodeDNSNameWithCompression data offset jumps = .error .CompressionLoop) ∧
    decodeDNSName (List.replicate 12 0 ++ [192, 12]) 12 = .error .CompressionLoop := by
  constructor
  · intro data offset jumps h1 h2
    unfold decodeDNSNameWithCompression decodeAux
    simp [Nat.not_le.mpr h1, h2]
  · decide

theorem c3_decode_loop_bounded_witness :
    0 < ([0] : List Nat).length ∧ 5 < 6 ∧
    decodeDNSNameWithCompression [0] 0 6 = .error .CompressionLoop :=
  ⟨by decide, by decide, c3_decode_loop_bounded.1 [0] 0 6 (by decide) (by decide)⟩

/-- C4: the MessageHeader codec of the third revision reads every field
back from its own position, but the copy in src/app/message.go assigns
bytes 10..12 to ANCount (instead of ARCount) and never assigns ARCount, so
round-tripping the header 1234/33152/1/2/3/4 through it yields ANCount 4
and ARCount 0 — contradicting the repository's own
TestMessageHeader_MarshalUnmarshal. -/
theorem c4_header_unmarshal_code_bug :
    MessageHeader.unmarshal (MessageHeader.marshal ⟨4660, 33152, 1, 2, 3, 4⟩) =
      .ok ⟨4660, 33152, 1, 2, 3, 4⟩ ∧
    appMessageHeaderUnmarshal ⟨0, 0, 0, 0, 0, 0⟩
        (MessageHeader.marshal ⟨4660, 33152, 1, 2, 3, 4⟩) =
      .ok ⟨4660, 33152, 1, 4, 3, 0⟩ ∧
    (⟨4660, 33152, 1, 4, 3, 0⟩ : MessageHeader) ≠ ⟨4660, 33152, 1, 2, 3, 4⟩ :=
  ⟨by decide, by decide, by decide⟩

/-- C5 (amended): the QDCOUNT and ANCOUNT fields written into the encoded
message are taken verbatim from the caller-supplied header (bytes 4-7 are
the big-endian header counts), not derived from the number of entries
actually serialized; they agree with the section lengths only when the
caller supplies a consistent header. -/
theorem c5_counts_from_caller_header (m : Message) (b : List Nat)
    (h : Message.MarshalBinary m = .ok b) :
    b.getD 4 0 = (m.Header.QDCount >>> 8) % 256 ∧ b.getD 5 0 = m.Header.QDCount % 256 ∧
    b.getD 6 0 = (m.Header.ANCount >>> 8) % 256 ∧ b.getD 7 0 = m.Header.ANCount % 256 := by
  obtain ⟨d, hd⟩ := marshal_header_bytes m b h
  subst hd
  refine ⟨?_, ?_, ?_, ?_⟩ <;>
    · rw [List.getD_append _ _ _ _ (by rw [marshal_length]; omega)]
      simp [MessageHeader.marshal]

theorem c5_counts_from_caller_header_witness :
    Message.MarshalBinary ⟨⟨7, 0, 2, 3, 0, 0⟩, [], []⟩ =
      .ok [0, 7, 0, 0, 0, 2, 0, 3, 0, 0, 0, 0] ∧
    (([0, 7, 0, 0, 0, 2, 0, 3, 0, 0, 0, 0] : List Nat).getD 4 0 = (2 >>> 8) % 256 ∧
      ([0, 7, 0, 0, 0, 2, 0, 3, 0, 0, 0, 0] : List Nat).getD 5 0 = 2 % 256 ∧
      ([0, 7, 0, 0, 0, 2, 0, 3, 0, 0, 0, 0] : List Nat).getD 6 0 = (3 >>> 8) % 256 ∧
      ([0, 7, 0, 0, 0, 2, 0, 3, 0, 0, 0, 0] : List Nat).getD 7 0 = 3 % 256) :=
  ⟨by decide,
   c5_counts_from_caller_header ⟨⟨7, 0, 2, 3, 0, 0⟩, [], []⟩
     [0, 7, 0, 0, 0, 2, 0, 3, 0, 0, 0, 0] (by decide)⟩

theorem c5_counts_counterexample :
    Message.MarshalBinary ⟨⟨1, 0, 5, 0, 0, 0⟩, [], []⟩ =
      .ok [0, 1, 0, 0, 0, 5, 0, 0, 0, 0, 0, 0] ∧
    ([0, 1, 0, 0, 0, 5, 0, 0, 0, 0, 0, 0] : List Nat).getD 4 0 * 256 +
      ([0, 1, 0, 0, 0, 5, 0, 0, 0, 0, 0, 0] : List Nat).getD 5 0 = 5 ∧
    (⟨⟨1, 0, 5, 0, 0, 0⟩, [], []⟩ : Message).Questions.length = 0 ∧ (5 : Nat) ≠ 0 :=
  ⟨by decide, by decide, by decide, by decide⟩

theorem c6_response_header_policy_witness :
    parseRequest c6Req = .ok (⟨4660, 256, 1, 0, 0, 0⟩, [⟨str "www.example.com", 1, 1⟩]) ∧
    handleResponse c6Req =
      .ok ⟨buildResponseHeader ⟨4660, 256, 1, 0, 0, 0⟩
             (([⟨str "www.example.com", 1, 1⟩] : List Question).foldr
               (fun q acc => forward q ++ acc) []),
           [⟨str "www.example.com", 1, 1⟩],
           ([⟨str "www.example.com", 1, 1⟩] : List Question).foldr
             (fun q acc => forward q ++ acc) []⟩ :=
  ⟨by decide,
   (c6_response_header_policy c6Req ⟨4660, 256, 1, 0, 0, 0⟩ [⟨str "www.example.com", 1, 1⟩]
     (by decide) (by decide)).1⟩

theorem c7_next_offset_witness :
    decodeDNSNameWithCompression [1, 97, 0, 192, 0] 3 0 = .ok ([97], 5) ∧
    nameSpan [1, 97, 0, 192, 0] 3 = some 5 :=
  ⟨by decide, c7_next_offset_section_local [1, 97, 0, 192, 0] 3 0 [97] 5 (by decide)⟩

/-- C8: for every flags word, every flag field setter, and every input
value, the setter changes only its own field: every other field's getter
returns the same value before and after. -/
theorem c8_flag_setter_frame (f g : FlagField) (h : MessageHeader) (v : Nat)
    (hne : f ≠ g) : fieldGet g (fieldSet f h v) = fieldGet g h := by
  cases f <;> cases g <;>
    first
    | exact absurd rfl hne
    | (simp only [fieldGet, fieldSet, getQR_eq, setQR_flags, getOpcode_eq, setOpcode_flags,
        getAA_eq, setAA_flags, getTC_eq, setTC_flags, getRD_eq, setRD_flags,
        getRA_eq, setRA_flags, getZ_eq, setZ_flags, getRcode_eq, setRcode_flags]
       apply getBits_setBits_of_disjoint <;> omega)

theorem c8_flag_setter_frame_witness :
    FlagField.qr ≠ FlagField.rd ∧
    fieldGet FlagField.rd (fieldSet FlagField.qr ⟨0, 256, 0, 0, 0, 0⟩ 1) =
      fieldGet FlagField.rd ⟨0, 256, 0, 0, 0, 0⟩ :=
  ⟨by decide,
   c8_flag_setter_frame FlagField.qr FlagField.rd ⟨0, 256, 0, 0, 0, 0⟩ 1 (by decide)⟩

/-- C9: during name decode, a label length byte declaring length 64 fails
with LabelTooLong (for every buffer, in-range offset, and jump count within
the bound), and whenever the plainly-read labels accumulate a decoded
length beyond 253 bytes before any terminator or pointer, decode fails
with DomainTooLong. -/
theorem c9_length_enforcement :
    (∀ (data : List Nat) (offset jumps : Nat), offset < data.length → jumps ≤ 5 →
      data.getD offset 0 = 64 →
      decodeDNSNameWithCompression data offset jumps = .error .LabelTooLong) ∧
    (∀ (data : List Nat) (offset jumps : Nat), jumps ≤ 5 → AccumulatesOver data offset 0 →
      decodeDNSNameWithCompression data offset jumps = .error .DomainTooLong) :=
  ⟨c9_label64, fun data offset jumps h1 h2 => c9_accumulated data offset jumps h1 h2⟩

theorem c9_length_enforcement_witness :
    (([64] : List Nat).getD 0 0 = 64) ∧
    decodeDNSNameWithCompression [64] 0 0 = .error .LabelTooLong ∧
    AccumulatesOver c9Buf 0 0 ∧
    decodeDNSNameWithCompression c9Buf 0 0 = .error .DomainTooLong := by
  have hacc : AccumulatesOver c9Buf 0 0 :=
    .step 0 0 63 (by decide) (by decide) (by decide) (by decide) (by decide) (by decide)
      (.step 64 64 63 (by decide) (by decide) (by decide) (by decide) (by decide) (by decide)
        (.step 128 128 63 (by decide) (by decide) (by decide) (by decide) (by decide)
          (by decide)
          (.hit 192 192 63 (by decide) (by decide) (by decide) (by decide) (by decide)
            (by decide))))
  exact ⟨by decide, c9_length_enforcement.1 [64] 0 0 (by decide) (by decide) (by decide),
    hacc, c9_length_enforcement.2 c9Buf 0 0 (by decide) hacc⟩

/-- C10: the fresh-map encoder never emits a compression pointer — it is
extensionally equal to the plain uncompressed encoder, its successful
output is always the buffer followed by length-prefixed labels and the
zero terminator, and consequently standalone Question.MarshalBinary and
ResourceRecord.MarshalBinary always produce uncompressed names. -/
theorem c10_fresh_map_encodes_plain :
    (∀ (name : GoStr) (buf : List Nat), encodeDNSName name buf = encodeDNSNamePlain name buf) ∧
    (∀ (name : GoStr) (buf out : List Nat), encodeDNSName name buf = .ok out →
      out = buf ++ plainName name) ∧
    (∀ (q : Question) (out : List Nat), Question.MarshalBinary q = .ok out →
      out = plainName q.Name ++ be16 q.Type' ++ be16 q.Class) ∧
    (∀ (rr : ResourceRecord) (out : List Nat), ResourceRecord.MarshalBinary rr = .ok out →
      out = plainName rr.Name ++ be16 rr.Type' ++ be16 rr.Class ++ be32 rr.TTL ++
        be16 (rr.RData.length % 65536) ++ rr.RData) := by
  refine ⟨c10_encodeDNSName_plain_equiv, encodeDNSName_ok, ?_, ?_⟩
  · intro q out h
    unfold Question.MarshalBinary at h
    cases he : encodeDNSName q.Name [] with
    | error e => rw [he] at h; exact absurd h (by simp [bind, Except.bind])
    | ok b =>
      rw [he] at h
      simp [bind, Except.bind] at h
      have hb := encodeDNSName_ok q.Name [] b he
      simp at hb
      rw [← h, hb]
      simp
  · intro rr out h
    unfold ResourceRecord.MarshalBinary at h
    cases he : encodeDNSName rr.Name [] with
    | error e => rw [he] at h; exact absurd h (by simp [bind, Except.bind])
    | ok b =>
      rw [he] at h
      simp [bind, Except.bind] at h
      have hb := encodeDNSName_ok rr.Name [] b he
      simp at hb
      rw [← h, hb]
      simp

theorem c10_fresh_map_encodes_plain_witness :
    encodeDNSName (str "ab.c") [] = encodeDNSNamePlain (str "ab.c") [] ∧
    encodeDNSName (str "ab.c") [] = .ok [2, 97, 98, 1, 99, 0] ∧
    ([2, 97, 98, 1, 99, 0] : List Nat) = [] ++ plainName (str "ab.c") :=
  ⟨c10_fresh_map_encodes_plain.1 (str "ab.c") [],
   by decide,
   c10_fresh_map_encodes_plain.2.1 (str "ab.c") [] [2, 97, 98, 1, 99, 0] (by decide)⟩
